import Mathlib

/-!
# Best-first branch-and-bound for the 0-1 knapsack problem

A shallow embedding of `knapsack.c` / `node.h` and the properties of its search engine.

Modelling conventions

* The arithmetic is read twice.  The first embedding reads C `int` as `Int` and C `float` as
  `ℚ`, without overflow and without rounding; it carries the properties of the control flow of
  the search (the loop, the queue, the tests, termination) and the property of the relaxation,
  which takes the arithmetic exactly.  The namespace `Machine` embeds `bound` and
  `bestFirstSearch` a second time with the arithmetic of the machine: every `float` operation
  gives the binary32 number nearest to its exact result (`Machine.fl`, round to nearest, ties to
  even, one rounding per operation), and every `int` sum or difference of weights and profits is
  reduced to 32 bits (`Machine.wrap`; signed overflow is undefined behaviour in C, the machine
  wraps around).  It carries the properties that depend on the arithmetic: optimality, the
  realised selection, and the admissibility, exactness and monotonicity of the bound.  The
  fields `pw` and `bound` of a node are rationals in both embeddings; in the second they only
  ever hold binary32 numbers.  Levels and the index `j` run between -1 and `n` and are not
  reduced.
* The pair `(nodeArray pw, int n)` is a `List node` together with `n : Int`; the theorems
  instantiate `n` with the length of the list.  A read `pw[j]` outside the list is an error:
  functions that index the array return `Option`, `none` standing for such a read.
* `while` loops run on fuel.  The loop of `bound` gets `n - j` units, which always suffice;
  `bestFirstSearch` takes its fuel as an argument and answers `none` when it runs out.
  `Returns pw W tw best r` says that the call returns `r`: from some fuel on the answer is `r`.
  `stateAfter pw W tw best k` is the loop state of that call after `k` iterations; "every state
  of a run" means every state it gives.
* The bodies of the queue and name functions declared in `node.h` are not among the sources;
  they are modelled from the specification and marked so.
* `printf` / debugging output is dropped; `realloc` is assumed to succeed.
-/

namespace Knapsack

/-! ## Data model (`node.h`) -/

/-- The record `node` of `node.h`, used both for the items of the input array and for the
vertices of the state space tree.  The link field `next` belongs to the queue and is left out. -/
structure node where
  name : String
  level : Int
  profit : Int
  weight : Int
  pw : ℚ
  bound : ℚ
deriving DecidableEq

/-- The state of a `PriorityQueue`: the queued nodes, best bound first. -/
abbrev PriorityQueue := List node

/-- Modelled from the spec: `setName` is declared in `node.h` and its body is not part of the
sources; it gives the node the label `s`. -/
def setName (x : node) (s : String) : node := { x with name := s }

/-- Modelled from the spec: `appendName` is declared in `node.h` and its body is not part of the
sources; it grows the label of the node by `s`. -/
def appendName (x : node) (s : String) : node := { x with name := x.name ++ s }

/-- Modelled from the spec: `initQueue` (declared in `node.h`, body not part of the sources)
makes the queue empty. -/
def initQueue : PriorityQueue := []

/-- Modelled from the spec: `isEmptyQueue` (declared in `node.h`, body not part of the sources)
holds iff the size is 0. -/
def isEmptyQueue (PQ : PriorityQueue) : Bool := PQ.isEmpty

/-- Modelled from the spec: `insertNode` (declared in `node.h`, body not part of the sources) puts
a copy of the node into the queue, which is ordered by `bound` descending; among equal bounds the
earlier insertion stays in front. -/
def insertNode : PriorityQueue → node → PriorityQueue
  | [], x => [x]
  | y :: q, x => if y.bound < x.bound then x :: y :: q else y :: insertNode q x

/-- Modelled from the spec: `removeNode` (declared in `node.h`, body not part of the sources)
takes out a node whose bound is at least the bound of every other queued node, here the head of
the ordered queue.  On an empty queue there is nothing to return. -/
def removeNode : PriorityQueue → Option (node × PriorityQueue)
  | [] => none
  | y :: q => some (y, q)

/-- The read `pw[j]` of the item array, `none` outside of it. -/
def nodeAt (pw : List node) (j : Int) : Option node :=
  if 0 ≤ j then pw[j.toNat]? else none

/-! ## `bound` (`knapsack.c`, lines 171-223) -/

/-- The loop `while( j < n && (totweight + pw[j].weight <= W) )` of `bound`, on the loop
variables `j`, `totweight`, `result`.  Every round increments `j`, so `n - j` units of fuel are
never used up. -/
def boundLoop (pw : List node) (n W : Int) : Nat → Int → Int → ℚ → Option (Int × Int × ℚ)
  | 0, j, totweight, result => some (j, totweight, result)
  | fuel + 1, j, totweight, result =>
    if j < n then
      match nodeAt pw j with
      | none => none
      | some it =>
        if totweight + it.weight ≤ W then
          boundLoop pw n W fuel (j + 1) (totweight + it.weight) (result + (it.profit : ℚ))
        else some (j, totweight, result)
    else some (j, totweight, result)

/-- The code after the loop of `bound`: `if( j < n ) result += (W - totweight) * pw[j].pw`. -/
def boundFraction (pw : List node) (n W : Int) : Int × Int × ℚ → Option ℚ
  | (j, totweight, result) =>
    if j < n then
      match nodeAt pw j with
      | none => none
      | some it => some (result + ((W - totweight : Int) : ℚ) * it.pw)
    else some result

/-- The function `bound( x, pw, n, W )`: the node `x` with its field `bound` set. -/
def bound (x : node) (pw : List node) (n W : Int) : Option node :=
  if x.weight < W then
    let j := x.level + 1
    match (boundLoop pw n W (n - j).toNat j x.weight (x.profit : ℚ)).bind
        (boundFraction pw n W) with
    | none => none
    | some result => some { x with bound := result }
  else some { x with bound := 0 }

/-! ## `bestFirstSearch` (`knapsack.c`, lines 227-357) -/

/-- The variables of `bestFirstSearch` that live across the iterations of its loop: the queue,
`maxprofit`, the two results `*tw` and `*best` (`none` is the `NULL` pointer) and the loop
count `i`.  The working nodes `u` and `v` are not part of it: `v` is assigned by `removeNode` at
the start of every iteration and every field of `u` that is read is assigned before in the same
iteration (see `workingNode`). -/
structure BFSState where
  PQ : PriorityQueue
  maxprofit : Int
  tw : Int
  best : Option String
  i : Int
deriving DecidableEq

/-- The working node `u` as lines 244-248 leave it: the name `"-"` and `pw = 0.0`.  The fields
`level`, `profit`, `weight` and `bound`, which the code leaves unset, are 0 here; each of them is
assigned before it is read. -/
def workingNode : node :=
  { name := "-", level := 0, profit := 0, weight := 0, pw := 0, bound := 0 }

/-- The child of `v` that includes the next item `it = pw[v.level + 1]` (lines 289-297), built
in the working node `u`. -/
def includeChild (v it : node) : node :=
  { appendName (appendName (setName workingNode v.name) "&") it.name with
    level := v.level + 1
    weight := v.weight + it.weight
    profit := v.profit + it.profit }

/-- The child of `v` that does not include the next item (lines 328-333): `u` keeps the level
`v.level + 1` set for the first child and takes the weight and profit of `v`. -/
def excludeChild (v u : node) : node :=
  { appendName (setName u v.name) "-" with
    weight := v.weight
    profit := v.profit }

/-- Lines 304-318: when the child `u` fits and earns more than the best so far, it becomes the
best: `maxprofit`, `*tw` and `*best` are overwritten with its profit, weight and name. -/
def recordBest (W : Int) (s : BFSState) (u : node) : BFSState :=
  if u.weight ≤ W ∧ s.maxprofit < u.profit then
    { s with maxprofit := u.profit, tw := u.weight, best := some u.name }
  else s

/-- Lines 321-322 and 336-337: `if( u.bound > maxprofit ) insertNode( &PQ, &u )`. -/
def enqueueIfPromising (s : BFSState) (u : node) : BFSState :=
  if (s.maxprofit : ℚ) < u.bound then { s with PQ := insertNode s.PQ u } else s

/-- One iteration of the loop `while( !isEmptyQueue(&PQ) )`, run on a non-empty queue. -/
def bfsIter (pw : List node) (n W : Int) (s : BFSState) : Option BFSState :=
  match removeNode s.PQ with
  | none => none
  | some (v, PQ) =>
    let s := { s with PQ := PQ }
    if (s.maxprofit : ℚ) < v.bound then
      match nodeAt pw (v.level + 1) with
      | none => none
      | some it =>
        let s := recordBest W s (includeChild v it)
        match bound (includeChild v it) pw n W with
        | none => none
        | some u =>
          let s := enqueueIfPromising s u
          match bound (excludeChild v u) pw n W with
          | none => none
          | some u => some { enqueueIfPromising s u with i := s.i + 1 }
    else some { s with i := s.i + 1 }

/-- The loop `while( !isEmptyQueue(&PQ) )`: `none` when an iteration reads outside the array or
the fuel runs out before the queue is empty. -/
def bfsLoop (pw : List node) (n W : Int) : Nat → BFSState → Option BFSState
  | 0, s => if isEmptyQueue s.PQ then some s else none
  | fuel + 1, s =>
    if isEmptyQueue s.PQ then some s
    else
      match bfsIter pw n W s with
      | none => none
      | some s => bfsLoop pw n W fuel s

/-- The root node `v` of lines 245-249, before its bound is computed. -/
def rootNode : node :=
  { name := "root", level := -1, profit := 0, weight := 0, pw := 0, bound := 0 }

/-- The state at the head of the loop, lines 237-259: the queue holds the root with its bound,
`maxprofit` is 0 and `*tw`, `*best` are as the caller left them. -/
def bfsInit (pw : List node) (n W : Int) (tw : Int) (best : Option String) : Option BFSState :=
  match bound rootNode pw n W with
  | none => none
  | some v => some { PQ := insertNode initQueue v, maxprofit := 0, tw := tw, best := best, i := 0 }

/-- The function `bestFirstSearch( pw, n, W, &tw, &best )`: the returned `maxprofit` with the
final values of `*tw` and `*best`. -/
def bestFirstSearch (fuel : Nat) (pw : List node) (n W : Int) (tw : Int) (best : Option String) :
    Option (Int × Int × Option String) :=
  match bfsInit pw n W tw best with
  | none => none
  | some s =>
    match bfsLoop pw n W fuel s with
    | none => none
    | some s => some (s.maxprofit, s.tw, s.best)

/-! ## The scenarios of the specification -/

/-- An item as `main` stores it (lines 115-122): level 0, bound 0 and the ratio `profit / weight`,
which is 0 for a weight that is not positive. -/
def mkItem (name : String) (profit weight : Int) : node :=
  { name := name, level := 0, profit := profit, weight := weight,
    pw := if weight > 0 then (profit : ℚ) / (weight : ℚ) else 0, bound := 0 }

/-- The items A, B, C of the first scenario. -/
def itemsABC : List node := [mkItem "A" 60 10, mkItem "B" 100 20, mkItem "C" 120 30]

/-- The single item X of the second scenario. -/
def itemsX : List node := [mkItem "X" 10 5]

/-! ## The sort step of `main` (`knapsack.c`, lines 146-147) -/

/-- Modelled from the spec: `compareNode` is declared in `node.h` and its body is not part of
the sources; as the comparison handed to `qsort` it orders the records by ratio descending:
negative when `a` has the larger ratio, positive when `b` has, 0 for equal ratios. -/
def compareNode (a b : node) : Int :=
  if b.pw < a.pw then -1 else if a.pw < b.pw then 1 else 0

/-- Modelled from the spec: the C library function `qsort( base, n, size, compar )` rearranges
the array so that `compar` is not positive on any element and a later one; its algorithm is not
fixed, here it is an insertion sort, which keeps equal elements in their order. -/
def qsort (compar : node → node → Int) (base : List node) : List node :=
  base.insertionSort (fun a b => compar a b ≤ 0)

/-! ## Specification side: selections, feasibility, the relaxation -/

/-- Total weight of a selection of items. -/
def sumW (S : List node) : Int := (S.map (fun it => it.weight)).sum

/-- Total profit of a selection of items. -/
def sumP (S : List node) : Int := (S.map (fun it => it.profit)).sum

/-- The items as the problem statement and `main` hand them to the search: weights and profits
are positive, the field `pw` is the ratio `profit / weight`, and the ratios do not increase
along the array. -/
def Prepared (pw : List node) : Prop :=
  (∀ it ∈ pw, 0 < it.weight ∧ 0 < it.profit) ∧
  (∀ it ∈ pw, it.pw = (it.profit : ℚ) / (it.weight : ℚ)) ∧
  pw.Pairwise (fun a b => b.pw ≤ a.pw)

instance (pw : List node) : Decidable (Prepared pw) := by
  unfold Prepared; infer_instance

/-- The greedy fill of `bound` written on the list of remaining items: whole items while they
fit into the capacity `cap`, then the fraction `cap * pw` of the first item that does not. -/
def fracBound : Int → List node → ℚ
  | _, [] => 0
  | cap, it :: L =>
    if it.weight ≤ cap then (it.profit : ℚ) + fracBound (cap - it.weight) L
    else (cap : ℚ) * it.pw

/-- The items after position `level` of the array, those a node of that level has not decided. -/
def remaining (pw : List node) (level : Int) : List node := pw.drop (level + 1).toNat

/-- The value `b` is at least the profit of every feasible completion of the node `x`: the
selection of `x` (profit `x.profit`, weight `x.weight`) extended by any choice `T` among the
remaining items that keeps the total weight within `W`.  The empty `T` is one of them. -/
def Admissible (pw : List node) (W : Int) (x : node) (b : ℚ) : Prop :=
  ∀ T : List node, T.Sublist (remaining pw x.level) → x.weight + sumW T ≤ W →
    ((x.profit + sumP T : Int) : ℚ) ≤ b

/-- The value `bound` stores in a node, written with the greedy fill of the remaining items. -/
def boundValue (pw : List node) (W : Int) (x : node) : ℚ :=
  if x.weight < W then (x.profit : ℚ) + fracBound (W - x.weight) (remaining pw x.level) else 0

/-- The invariant of the queue in the loop of `bestFirstSearch`: `maxprofit` is not negative, and
every queued node has a level from -1 to `n - 1`, a profit that `maxprofit` has reached, and
carries the bound that `bound` computes for it. -/
def QueueInv (pw : List node) (W : Int) (s : BFSState) : Prop :=
  0 ≤ s.maxprofit ∧
  ∀ x ∈ s.PQ, -1 ≤ x.level ∧ x.level + 1 ≤ (pw.length : Int) ∧ x.profit ≤ s.maxprofit ∧
    x.bound = boundValue pw W x

/-- The number of vertices of the subtree below a node of the given level, the node included:
`2 ^ (n - level) - 1`. -/
def subtreeSize (n : Nat) (x : node) : Nat := 2 ^ ((n : Int) - x.level).toNat - 1

/-- The work left for the loop: the vertices of the state space tree below the queued nodes. -/
def workLeft (n : Nat) (PQ : PriorityQueue) : Nat := (PQ.map (subtreeSize n)).sum

/-- The items picked by a sequence of include/exclude decisions over the items 0, 1, 2, ... -/
def selItems (pw : List node) (ds : List Bool) : List node :=
  ((pw.zip ds).filter (fun p => p.2)).map (fun p => p.1)

/-- The name `bestFirstSearch` gives to the node reached from the root by a sequence of
decisions: `"&"` and the name of the item for an included item, `"-"` for an excluded one. -/
def selName (pw : List node) (ds : List Bool) : String :=
  (pw.zip ds).foldl (fun s p => if p.2 then s ++ "&" ++ p.1.name else s ++ "-") "root"

/-- The node `x` stands for a sequence of decisions over the items 0 .. `x.level`: its name
spells the decisions and its profit and weight are the sums over the included items. -/
def Denotes (pw : List node) (x : node) (ds : List Bool) : Prop :=
  (ds.length : Int) = x.level + 1 ∧ ds.length ≤ pw.length ∧ x.name = selName pw ds ∧
    x.profit = sumP (selItems pw ds) ∧ x.weight = sumW (selItems pw ds)

/-- The include-child of `v` as `bound` returns it. -/
def boundedInclude (pw : List node) (W : Int) (v it : node) : node :=
  { includeChild v it with bound := boundValue pw W (includeChild v it) }

/-- The exclude-child of `v` as `bound` returns it. -/
def boundedExclude (pw : List node) (W : Int) (v it : node) : node :=
  { excludeChild v (boundedInclude pw W v it) with
    bound := boundValue pw W (excludeChild v (boundedInclude pw W v it)) }

/-- The state after an iteration that expands the dequeued node `v`, `q` being the rest of the
queue and `it` the item `pw[v.level + 1]`. -/
def expandState (pw : List node) (W : Int) (s : BFSState) (v : node) (q : PriorityQueue)
    (it : node) : BFSState :=
  { enqueueIfPromising
      (enqueueIfPromising (recordBest W { s with PQ := q } (includeChild v it))
        (boundedInclude pw W v it))
      (boundedExclude pw W v it) with
    i := s.i + 1 }

/-- The root node as `bound` returns it. -/
def boundedRoot (pw : List node) (W : Int) : node :=
  { rootNode with bound := boundValue pw W rootNode }

/-- The state at the head of the loop of `bestFirstSearch` when the root is bounded without a
read outside the array. -/
def initState (pw : List node) (W : Int) (tw : Int) (best : Option String) : BFSState :=
  { PQ := [boundedRoot pw W], maxprofit := 0, tw := tw, best := best, i := 0 }

/-- The loop state after `k` iterations of the loop of `bestFirstSearch`, `none` when one of
them reads outside the array or finds the queue empty. -/
def bfsSteps (pw : List node) (n W : Int) : Nat → BFSState → Option BFSState
  | 0, s => some s
  | k + 1, s =>
    match bfsIter pw n W s with
    | none => none
    | some s => bfsSteps pw n W k s

/-- The call `bestFirstSearch( pw, n, W, &tw, &best )` on an array of `n` items returns: from
some amount of fuel on, the model answers `r = (maxprofit, *tw, *best)`. -/
def Returns (pw : List node) (W : Int) (tw : Int) (best : Option String)
    (r : Int × Int × Option String) : Prop :=
  ∃ fuel0, ∀ fuel, fuel0 ≤ fuel → bestFirstSearch fuel pw (pw.length : Int) W tw best = some r

/-- A selection of the items that fits into the knapsack earns the profit `p`. -/
def FeasibleProfit (pw : List node) (W : Int) (p : Int) : Prop :=
  ∃ S : List node, S.Sublist pw ∧ sumW S ≤ W ∧ sumP S = p

/-- The selections behind the loop state: every queued node stands for a sequence of decisions,
and a positive `maxprofit` is the profit of the selection named by `*best`, whose weight is `*tw`
and fits into the knapsack. -/
def Realised (pw : List node) (W : Int) (s : BFSState) : Prop :=
  (∀ x ∈ s.PQ, ∃ ds, Denotes pw x ds) ∧
  (0 < s.maxprofit → ∃ ds : List Bool, ds.length ≤ pw.length ∧ s.best = some (selName pw ds) ∧
    sumP (selItems pw ds) = s.maxprofit ∧ sumW (selItems pw ds) = s.tw ∧ s.tw ≤ W)

/-- No feasible selection is lost: each one earns at most `maxprofit`, or at most as much as a
feasible completion of a queued node. -/
def Covered (pw : List node) (W : Int) (s : BFSState) : Prop :=
  ∀ S : List node, S.Sublist pw → sumW S ≤ W →
    sumP S ≤ s.maxprofit ∨
    ∃ x ∈ s.PQ, ∃ T : List node, T.Sublist (remaining pw x.level) ∧ x.weight + sumW T ≤ W ∧
      sumP S ≤ x.profit + sumP T

/-- The include-child that the iteration after the first `k` iterations of a run builds, as
`bound` returns it; `none` when that iteration does not expand a node. -/
def includeChildAfter (pw : List node) (n W : Int) (k : Nat) : Option node :=
  (bfsInit pw n W 0 none).bind fun s0 =>
    (bfsSteps pw n W k s0).bind fun s =>
      (removeNode s.PQ).bind fun vq =>
        if (s.maxprofit : ℚ) < vq.1.bound then
          (nodeAt pw (vq.1.level + 1)).bind fun it => bound (includeChild vq.1 it) pw n W
        else none

/-- The node that includes B and C and excludes A in the first scenario, with bound 0. -/
def nodeBC : node :=
  { name := "root-&B&C", level := 2, profit := 220, weight := 50, pw := 0, bound := 0 }

/-- The loop state of the call on an array of `n = pw.length` items after `k` iterations of the
loop, `none` when the loop has ended before or an iteration reads outside the array. -/
def stateAfter (pw : List node) (W : Int) (tw : Int) (best : Option String) (k : Nat) :
    Option BFSState :=
  (bfsInit pw (pw.length : Int) W tw best).bind (bfsSteps pw (pw.length : Int) W k)

/-- The loop state of the first scenario (A, B, C with `W = 50`) at the head of the loop. -/
def stateABC0 : BFSState :=
  { PQ := [{ rootNode with bound := 240 }], maxprofit := 0, tw := 0, best := none, i := 0 }

/-- The loop state of the first scenario after two iterations: the best so far is A and B, and
the queue holds the nodes `root&A&B`, `root-` and `root&A-`. -/
def stateABC2 : BFSState :=
  { PQ := [{ name := "root&A&B", level := 1, profit := 160, weight := 30, pw := 0, bound := 240 },
           { name := "root-", level := 0, profit := 0, weight := 0, pw := 0, bound := 220 },
           { name := "root&A-", level := 1, profit := 60, weight := 10, pw := 0, bound := 180 }],
    maxprofit := 160, tw := 30, best := some "root&A&B", i := 2 }

/-- The loop state of the first scenario after one iteration: the best so far is A, and the
queue holds the two children `root&A` and `root-` of the root. -/
def stateABC1 : BFSState :=
  { PQ := [{ name := "root&A", level := 0, profit := 60, weight := 10, pw := 0, bound := 240 },
           { name := "root-", level := 0, profit := 0, weight := 0, pw := 0, bound := 220 }],
    maxprofit := 60, tw := 10, best := some "root&A", i := 1 }

/-- The enqueue test that the specification words for the include-child (section 4.3, step 4):
`u` is enqueued if `u.weight <= W` and `u.bound > maxProfit`. -/
def enqueueIfFitsAndPromising (W : Int) (s : BFSState) (u : node) : BFSState :=
  if u.weight ≤ W ∧ (s.maxprofit : ℚ) < u.bound then { s with PQ := insertNode s.PQ u } else s

/-- One iteration of the loop as the specification words it: `bfsIter` with the enqueue test
of the include-child replaced by the test `u.weight <= W` and `u.bound > maxProfit`. -/
def bfsIterSpec (pw : List node) (n W : Int) (s : BFSState) : Option BFSState :=
  match removeNode s.PQ with
  | none => none
  | some (v, PQ) =>
    let s := { s with PQ := PQ }
    if (s.maxprofit : ℚ) < v.bound then
      match nodeAt pw (v.level + 1) with
      | none => none
      | some it =>
        let s := recordBest W s (includeChild v it)
        match bound (includeChild v it) pw n W with
        | none => none
        | some u =>
          let s := enqueueIfFitsAndPromising W s u
          match bound (excludeChild v u) pw n W with
          | none => none
          | some u => some { enqueueIfPromising s u with i := s.i + 1 }
    else some { s with i := s.i + 1 }

/-- The profit of a fractional selection: the part `x_j` of the profit of every item. -/
def fracProfit {K : Type} [Field K] (L : List node) (xs : List K) : K :=
  ((L.zip xs).map (fun p => p.2 * (p.1.profit : K))).sum

/-- The weight of a fractional selection: the part `x_j` of the weight of every item. -/
def fracWeight {K : Type} [Field K] (L : List node) (xs : List K) : K :=
  ((L.zip xs).map (fun p => p.2 * (p.1.weight : K))).sum

/-- The vectors of the relaxed problem on the items `L` with capacity `cap`: one real `x_j` with
`0 ≤ x_j ≤ 1` for every item, of total weight at most `cap`. -/
def Relaxed (L : List node) (cap : Int) (xs : List ℝ) : Prop :=
  xs.length = L.length ∧ (∀ a ∈ xs, 0 ≤ a ∧ a ≤ 1) ∧ fracWeight L xs ≤ (cap : ℝ)

/-- The items with the degenerate ones allowed: weights are not negative, profits are positive,
an item of weight 0 carries the ratio 0 as `main` sets it and every other item its ratio
`profit / weight`, and the ratios do not increase along the array. -/
def PreparedDegenerate (pw : List node) : Prop :=
  (∀ it ∈ pw, 0 ≤ it.weight ∧ 0 < it.profit) ∧
  (∀ it ∈ pw, it.pw = if it.weight > 0 then (it.profit : ℚ) / (it.weight : ℚ) else 0) ∧
  pw.Pairwise (fun a b => b.pw ≤ a.pw)

instance (pw : List node) : Decidable (PreparedDegenerate pw) := by
  unfold PreparedDegenerate; infer_instance

/-- Two items of weight 5 and an item Z of weight 0, as `main` stores them: the ratios are 2,
9/5 and 0. -/
def itemsABZ : List node := [mkItem "A" 10 5, mkItem "B" 9 5, mkItem "Z" 100 0]

/-! ## Machine arithmetic: binary32 `float` and 32-bit `int`

The definitions above read `float` as exact rationals and `int` as unbounded integers.  The
namespace `Machine` embeds the same functions a second time with the arithmetic of the machine:
every `float` operation is rounded to the nearest binary32 number and every `int` sum of weights
or profits is reduced to 32 bits. -/

namespace Machine

/-- Auxiliary for `natLog2`: the number of halvings that bring `n` below 2. -/
def log2Aux : Nat → Nat → Nat
  | 0, _ => 0
  | fuel + 1, n => if n < 2 then 0 else log2Aux fuel (n / 2) + 1

/-- The position of the leading bit of `n`. -/
def natLog2 (n : Nat) : Nat := log2Aux n n

/-- The power `2 ^ k` for an integer exponent. -/
def pow2 (k : Int) : ℚ :=
  if 0 ≤ k then ((2 ^ k.toNat : Nat) : ℚ) else 1 / ((2 ^ (-k).toNat : Nat) : ℚ)

/-- The binary exponent of a non-zero rational: `2 ^ ilog2 q ≤ |q| < 2 ^ (ilog2 q + 1)`. -/
def ilog2 (q : ℚ) : Int :=
  if |q| < pow2 ((natLog2 q.num.natAbs : Int) - (natLog2 q.den : Int)) then
    (natLog2 q.num.natAbs : Int) - (natLog2 q.den : Int) - 1
  else (natLog2 q.num.natAbs : Int) - (natLog2 q.den : Int)

/-- Rounding to the nearest integer, a tie going to the even one. -/
def roundEven (m : ℚ) : Int :=
  if m - (⌊m⌋ : ℚ) < 1 / 2 then ⌊m⌋
  else if 1 / 2 < m - (⌊m⌋ : ℚ) then ⌊m⌋ + 1
  else if ⌊m⌋ % 2 = 0 then ⌊m⌋ else ⌊m⌋ + 1

/-- Rounding of a positive rational to 24 significant bits. -/
def flPos (q : ℚ) : ℚ :=
  (roundEven (q / pow2 (ilog2 q - 23)) : ℚ) * pow2 (ilog2 q - 23)

/-- The binary32 number nearest to `q` (round to nearest, ties to even): the result of a `float`
operation whose exact result is `q`.  The exponent range is not limited: the values of this
program, quotients and products of `int` values and sums of fewer than `2 ^ 31` of them, lie far
inside the range of binary32. -/
def fl (q : ℚ) : ℚ :=
  if q = 0 then 0 else if 0 < q then flPos q else -flPos (-q)

/-- The conversion `(float)x` of an `int`, also the implicit one of `v.bound > maxprofit`. -/
def toFloat (x : Int) : ℚ := fl (x : ℚ)

/-- The result of an `int` addition or subtraction whose exact result is `x`: the value is
reduced modulo `2 ^ 32` into the range of `int` (signed overflow is undefined behaviour in C; the
machine wraps around). -/
def wrap (x : Int) : Int := (x + 2147483648) % 4294967296 - 2147483648

/-- The loop `while( j < n && (totweight + pw[j].weight <= W) )` of `bound` with machine
arithmetic: `totweight += pw[j].weight` is an `int` addition, `result += (float)pw[j].profit` a
`float` addition. -/
def boundLoop (pw : List node) (n W : Int) : Nat → Int → Int → ℚ → Option (Int × Int × ℚ)
  | 0, j, totweight, result => some (j, totweight, result)
  | fuel + 1, j, totweight, result =>
    if j < n then
      match nodeAt pw j with
      | none => none
      | some it =>
        if wrap (totweight + it.weight) ≤ W then
          boundLoop pw n W fuel (j + 1) (wrap (totweight + it.weight))
            (fl (result + toFloat it.profit))
        else some (j, totweight, result)
    else some (j, totweight, result)

/-- The code after the loop of `bound` with machine arithmetic:
`if( j < n ) result += ( ((float)(W - totweight)) * pw[j].pw )`, an `int` subtraction, a
conversion, a `float` product and a `float` addition. -/
def boundFraction (pw : List node) (n W : Int) : Int × Int × ℚ → Option ℚ
  | (j, totweight, result) =>
    if j < n then
      match nodeAt pw j with
      | none => none
      | some it => some (fl (result + fl (toFloat (wrap (W - totweight)) * it.pw)))
    else some result

/-- The function `bound( x, pw, n, W )` with machine arithmetic; `result` starts from
`(float)x->profit`. -/
def bound (x : node) (pw : List node) (n W : Int) : Option node :=
  if x.weight < W then
    let j := x.level + 1
    match (boundLoop pw n W (n - j).toNat j x.weight (toFloat x.profit)).bind
        (boundFraction pw n W) with
    | none => none
    | some result => some { x with bound := result }
  else some { x with bound := 0 }

/-- The include-child of `v` (lines 289-297) with machine arithmetic: `u.weight` and `u.profit`
are `int` sums. -/
def includeChild (v it : node) : node :=
  { appendName (appendName (setName workingNode v.name) "&") it.name with
    level := v.level + 1
    weight := wrap (v.weight + it.weight)
    profit := wrap (v.profit + it.profit) }

/-- Lines 321-322 and 336-337 with machine arithmetic: in `u.bound > maxprofit` the `int` is
converted to `float`. -/
def enqueueIfPromising (s : BFSState) (u : node) : BFSState :=
  if toFloat s.maxprofit < u.bound then { s with PQ := insertNode s.PQ u } else s

/-- One iteration of the loop of `bestFirstSearch` with machine arithmetic. -/
def bfsIter (pw : List node) (n W : Int) (s : BFSState) : Option BFSState :=
  match removeNode s.PQ with
  | none => none
  | some (v, PQ) =>
    let s := { s with PQ := PQ }
    if toFloat s.maxprofit < v.bound then
      match nodeAt pw (v.level + 1) with
      | none => none
      | some it =>
        let s := recordBest W s (includeChild v it)
        match bound (includeChild v it) pw n W with
        | none => none
        | some u =>
          let s := enqueueIfPromising s u
          match bound (excludeChild v u) pw n W with
          | none => none
          | some u => some { enqueueIfPromising s u with i := wrap (s.i + 1) }
    else some { s with i := wrap (s.i + 1) }

/-- The loop `while( !isEmptyQueue(&PQ) )` with machine arithmetic. -/
def bfsLoop (pw : List node) (n W : Int) : Nat → BFSState → Option BFSState
  | 0, s => if isEmptyQueue s.PQ then some s else none
  | fuel + 1, s =>
    if isEmptyQueue s.PQ then some s
    else
      match bfsIter pw n W s with
      | none => none
      | some s => bfsLoop pw n W fuel s

/-- The state at the head of the loop with machine arithmetic. -/
def bfsInit (pw : List node) (n W : Int) (tw : Int) (best : Option String) : Option BFSState :=
  match bound rootNode pw n W with
  | none => none
  | some v => some { PQ := insertNode initQueue v, maxprofit := 0, tw := tw, best := best, i := 0 }

/-- The function `bestFirstSearch( pw, n, W, &tw, &best )` with machine arithmetic. -/
def bestFirstSearch (fuel : Nat) (pw : List node) (n W : Int) (tw : Int) (best : Option String) :
    Option (Int × Int × Option String) :=
  match bfsInit pw n W tw best with
  | none => none
  | some s =>
    match bfsLoop pw n W fuel s with
    | none => none
    | some s => some (s.maxprofit, s.tw, s.best)

/-- An item as `main` stores it (lines 115-122) with machine arithmetic: the ratio is the
`float` quotient of the two converted `int` fields. -/
def mkItem (name : String) (profit weight : Int) : node :=
  { name := name, level := 0, profit := profit, weight := weight,
    pw := if weight > 0 then fl (toFloat profit / toFloat weight) else 0, bound := 0 }

/-- The call of `bestFirstSearch` with machine arithmetic on an array of `n` items returns `r`:
from some amount of fuel on, the model answers `r = (maxprofit, *tw, *best)`. -/
def Returns (pw : List node) (W : Int) (tw : Int) (best : Option String)
    (r : Int × Int × Option String) : Prop :=
  ∃ fuel0, ∀ fuel, fuel0 ≤ fuel → bestFirstSearch fuel pw (pw.length : Int) W tw best = some r

/-- Two items with profits `2 ^ 24` and `2 ^ 24 + 1`, the second of which is not a binary32
number. -/
def itemsBig : List node := [mkItem "A" 16777216 2, mkItem "B" 16777217 3]

/-- Two items of weight 2000000000 each: their total weight is outside the range of `int`. -/
def itemsHeavy : List node := [mkItem "A" 5 2000000000, mkItem "B" 4 2000000000]

/-- Two items with the same ratio 13/11, which is not a binary32 number. -/
def itemsTie : List node := [mkItem "I0" 26 22, mkItem "I1" 13 11]

/-! ### Specification side of the machine model -/

/-- The loop and the fraction step of `bound` with machine arithmetic, written on the list of
remaining items: `totweight` and `result` are the loop variables. -/
def greedyFill (W : Int) : Int → ℚ → List node → ℚ
  | _, result, [] => result
  | totweight, result, it :: L =>
    if wrap (totweight + it.weight) ≤ W then
      greedyFill W (wrap (totweight + it.weight)) (fl (result + toFloat it.profit)) L
    else fl (result + fl (toFloat (wrap (W - totweight)) * it.pw))

/-- The value `bound` stores in a node with machine arithmetic. -/
def boundValue (pw : List node) (W : Int) (x : node) : ℚ :=
  if x.weight < W then greedyFill W x.weight (toFloat x.profit) (remaining pw x.level) else 0

/-- The invariant of the queue in the loop of `bestFirstSearch` with machine arithmetic:
`maxprofit` is not negative, and every queued node has a level from -1 to `n - 1`, a profit
that `maxprofit` has reached, and carries the bound that `bound` computes for it. -/
def QueueInv (pw : List node) (W : Int) (s : BFSState) : Prop :=
  0 ≤ s.maxprofit ∧
  ∀ x ∈ s.PQ, -1 ≤ x.level ∧ x.level + 1 ≤ (pw.length : Int) ∧ x.profit ≤ s.maxprofit ∧
    x.bound = boundValue pw W x

/-- The include-child of `v` as `bound` returns it. -/
def boundedInclude (pw : List node) (W : Int) (v it : node) : node :=
  { includeChild v it with bound := boundValue pw W (includeChild v it) }

/-- The exclude-child of `v` as `bound` returns it. -/
def boundedExclude (pw : List node) (W : Int) (v it : node) : node :=
  { excludeChild v (boundedInclude pw W v it) with
    bound := boundValue pw W (excludeChild v (boundedInclude pw W v it)) }

/-- The state after an iteration that expands the dequeued node `v`, `q` being the rest of the
queue and `it` the item `pw[v.level + 1]`. -/
def expandState (pw : List node) (W : Int) (s : BFSState) (v : node) (q : PriorityQueue)
    (it : node) : BFSState :=
  { enqueueIfPromising
      (enqueueIfPromising (recordBest W { s with PQ := q } (includeChild v it))
        (boundedInclude pw W v it))
      (boundedExclude pw W v it) with
    i := wrap (s.i + 1) }

/-- The root node as `bound` returns it. -/
def boundedRoot (pw : List node) (W : Int) : node :=
  { rootNode with bound := boundValue pw W rootNode }

/-- The state at the head of the loop of `bestFirstSearch` when the root is bounded without a
read outside the array. -/
def initState (pw : List node) (W : Int) (tw : Int) (best : Option String) : BFSState :=
  { PQ := [boundedRoot pw W], maxprofit := 0, tw := tw, best := best, i := 0 }

/-- The ratio of an item by the policy of `main`, without rounding: `profit / weight`, and 0 for
a weight that is not positive. -/
def ratio (it : node) : ℚ :=
  if it.weight > 0 then (it.profit : ℚ) / (it.weight : ℚ) else 0

/-- The item with the exact ratio in its field `pw`. -/
def exactItem (it : node) : node := { it with pw := ratio it }

/-- The items as `main` hands them to the search, in machine arithmetic: weights are not
negative, profits are positive, the field `pw` holds the `float` quotient that `main` stores
(0 for an item of weight 0), and the ratios `profit / weight` do not increase along the
array. -/
def Prepared (pw : List node) : Prop :=
  (∀ it ∈ pw, 0 ≤ it.weight ∧ 0 < it.profit) ∧
  (∀ it ∈ pw, it.pw = if it.weight > 0 then fl (toFloat it.profit / toFloat it.weight) else 0) ∧
  pw.Pairwise (fun a b => ratio b ≤ ratio a)

instance (pw : List node) : Decidable (Prepared pw) := by
  unfold Prepared; infer_instance

/-- No sum of weights or of profits of a selection of the items leaves the range of `int`:
weights and profits are not negative and their totals are below `2 ^ 31`. -/
def InRange (pw : List node) : Prop :=
  (∀ it ∈ pw, 0 ≤ it.weight ∧ 0 ≤ it.profit) ∧ sumW pw < 2147483648 ∧ sumP pw < 2147483648

instance (pw : List node) : Decidable (InRange pw) := by
  unfold InRange; infer_instance

/-- The sums behind the loop state stay within the totals of the array: `maxprofit` is at most
the total profit, and for every queued node the weight and the profit are not negative and,
together with all items the node has not decided, at most the total weight and the total
profit. -/
def Ranged (pw : List node) (s : BFSState) : Prop :=
  s.maxprofit ≤ sumP pw ∧
  ∀ x ∈ s.PQ, 0 ≤ x.weight ∧ x.weight + sumW (remaining pw x.level) ≤ sumW pw ∧
    0 ≤ x.profit ∧ x.profit + sumP (remaining pw x.level) ≤ sumP pw

/-- No feasible selection of items of positive weight is lost: each one earns at most
`maxprofit`, or at most as much as a feasible completion of a queued node by items of positive
weight. -/
def CoveredPositive (pw : List node) (W : Int) (s : BFSState) : Prop :=
  ∀ S : List node, S.Sublist pw → (∀ it ∈ S, 0 < it.weight) → sumW S ≤ W →
    sumP S ≤ s.maxprofit ∨
    ∃ x ∈ s.PQ, ∃ T : List node, T.Sublist (remaining pw x.level) ∧ (∀ it ∈ T, 0 < it.weight) ∧
      x.weight + sumW T ≤ W ∧ sumP S ≤ x.profit + sumP T

/-- The loop state after `k` iterations of the loop of `bestFirstSearch` with machine
arithmetic, `none` when one of them reads outside the array or finds the queue empty. -/
def bfsSteps (pw : List node) (n W : Int) : Nat → BFSState → Option BFSState
  | 0, s => some s
  | k + 1, s =>
    match bfsIter pw n W s with
    | none => none
    | some s => bfsSteps pw n W k s

/-- The loop state of the call with machine arithmetic on an array of `n = pw.length` items
after `k` iterations of the loop. -/
def stateAfter (pw : List node) (W : Int) (tw : Int) (best : Option String) (k : Nat) :
    Option BFSState :=
  (bfsInit pw (pw.length : Int) W tw best).bind (bfsSteps pw (pw.length : Int) W k)

/-- Two items of weight 5 and an item Z of weight 0, as `main` stores them in machine
arithmetic; the ratio 9/5 is not a binary32 number. -/
def itemsDegenerate : List node := [mkItem "A" 10 5, mkItem "B" 9 5, mkItem "Z" 100 0]

/-- The root of the run on `itemsTie` with `W = 11`, with the bound that `bound` gives it. -/
def rootTie : node := { rootNode with bound := 13631487 / 1048576 }

/-- The exclude-child `root-` of the root on `itemsBig`, before its bound is computed. -/
def nodeSkipA : node := excludeChild rootNode (includeChild rootNode (mkItem "A" 16777216 2))

end Machine

end Knapsack

namespace Knapsack

/-! ## Arithmetic of selections -/

theorem sumW_nil : sumW [] = 0 := rfl

theorem sumP_nil : sumP [] = 0 := rfl

theorem sumW_cons (it : node) (S : List node) : sumW (it :: S) = it.weight + sumW S := by
  simp [sumW]

theorem sumP_cons (it : node) (S : List node) : sumP (it :: S) = it.profit + sumP S := by
  simp [sumP]

theorem sumW_append (S T : List node) : sumW (S ++ T) = sumW S + sumW T := by
  simp [sumW]

theorem sumP_append (S T : List node) : sumP (S ++ T) = sumP S + sumP T := by
  simp [sumP]

/-- With positive weights a selection has weight at least 0. -/
theorem sumW_nonneg (S : List node) (hpos : ∀ it ∈ S, 0 < it.weight) : 0 ≤ sumW S := by
  induction S with
  | nil => simp [sumW_nil]
  | cons it S ih =>
    rw [sumW_cons]
    have h1 := hpos it (List.mem_cons_self _ _)
    have h2 := ih (fun x hx => hpos x (List.mem_cons_of_mem _ hx))
    omega

/-- With positive weights only the empty selection weighs nothing. -/
theorem eq_nil_of_sumW_le_zero (S : List node) (hpos : ∀ it ∈ S, 0 < it.weight)
    (h : sumW S ≤ 0) : S = [] := by
  cases S with
  | nil => rfl
  | cons it S =>
    exfalso
    rw [sumW_cons] at h
    have h1 := hpos it (List.mem_cons_self _ _)
    have h2 := sumW_nonneg S (fun x hx => hpos x (List.mem_cons_of_mem _ hx))
    omega

/-- A selection whose ratios are all at most `ρ` earns at most `ρ` per unit of weight. -/
theorem sumP_le_ratio_mul (ρ : ℚ) (S : List node) (hpos : ∀ it ∈ S, 0 < it.weight)
    (hratio : ∀ it ∈ S, it.pw = (it.profit : ℚ) / (it.weight : ℚ)) (hρ : ∀ it ∈ S, it.pw ≤ ρ) :
    (sumP S : ℚ) ≤ ρ * (sumW S : ℚ) := by
  induction S with
  | nil => simp [sumP_nil, sumW_nil]
  | cons it S ih =>
    have ih1 := ih (fun x hx => hpos x (List.mem_cons_of_mem _ hx))
      (fun x hx => hratio x (List.mem_cons_of_mem _ hx))
      (fun x hx => hρ x (List.mem_cons_of_mem _ hx))
    have hw : (0 : ℚ) < (it.weight : ℚ) := by exact_mod_cast hpos it (List.mem_cons_self _ _)
    have hr := hratio it (List.mem_cons_self _ _)
    have hle := hρ it (List.mem_cons_self _ _)
    have hp : (it.profit : ℚ) = it.pw * (it.weight : ℚ) := by
      rw [hr]; field_simp
    rw [sumP_cons, sumW_cons]
    push_cast
    have : it.pw * (it.weight : ℚ) ≤ ρ * (it.weight : ℚ) :=
      mul_le_mul_of_nonneg_right hle hw.le
    linarith

/-- The relaxation dominates every selection, up to the weight by which the selection exceeds
the capacity, priced at any rate `r` above all ratios. -/
theorem sumP_le_fracBound_add :
    ∀ (L : List node), (∀ it ∈ L, 0 < it.weight ∧ 0 < it.profit) →
      (∀ it ∈ L, it.pw = (it.profit : ℚ) / (it.weight : ℚ)) →
      L.Pairwise (fun a b => b.pw ≤ a.pw) →
      ∀ (r : ℚ), 0 ≤ r → (∀ it ∈ L, it.pw ≤ r) →
      ∀ (cap : Int) (S : List node), S.Sublist L →
        (sumP S : ℚ) ≤ fracBound cap L + r * max 0 ((sumW S : ℚ) - (cap : ℚ)) := by
  intro L
  induction L with
  | nil =>
    intro _ _ _ r hr0 _ cap S hS
    have : S = [] := List.sublist_nil.mp hS
    subst this
    have : 0 ≤ r * max 0 (((sumW []) : ℚ) - (cap : ℚ)) := mul_nonneg hr0 (le_max_left _ _)
    simpa [fracBound, sumP_nil] using this
  | cons it L ih =>
    intro hpos hratio hsorted r hr0 hr cap S hS
    have hposL : ∀ x ∈ L, 0 < x.weight ∧ 0 < x.profit :=
      fun x hx => hpos x (List.mem_cons_of_mem _ hx)
    have hratioL : ∀ x ∈ L, x.pw = (x.profit : ℚ) / (x.weight : ℚ) :=
      fun x hx => hratio x (List.mem_cons_of_mem _ hx)
    have hsortedL : L.Pairwise (fun a b => b.pw ≤ a.pw) := (List.pairwise_cons.mp hsorted).2
    have hitL : ∀ x ∈ L, x.pw ≤ it.pw := (List.pairwise_cons.mp hsorted).1
    have hw : (0 : ℚ) < (it.weight : ℚ) := by
      exact_mod_cast (hpos it (List.mem_cons_self _ _)).1
    have hp : (0 : ℚ) < (it.profit : ℚ) := by
      exact_mod_cast (hpos it (List.mem_cons_self _ _)).2
    have hit : it.pw = (it.profit : ℚ) / (it.weight : ℚ) := hratio it (List.mem_cons_self _ _)
    have hit0 : 0 ≤ it.pw := by rw [hit]; positivity
    have hitr : it.pw ≤ r := hr it (List.mem_cons_self _ _)
    have hpw : (it.profit : ℚ) = it.pw * (it.weight : ℚ) := by rw [hit]; field_simp
    have hd0 : (0 : ℚ) ≤ max 0 ((sumW S : ℚ) - (cap : ℚ)) := le_max_left _ _
    have hrate : it.pw * max 0 ((sumW S : ℚ) - (cap : ℚ))
        ≤ r * max 0 ((sumW S : ℚ) - (cap : ℚ)) := mul_le_mul_of_nonneg_right hitr hd0
    by_cases hfit : it.weight ≤ cap
    · simp only [fracBound, hfit, if_true]
      cases hS with
      | cons _ hS1 =>
        have h1 := ih hposL hratioL hsortedL it.pw hit0 hitL (cap - it.weight) S hS1
        push_cast at h1
        have h3 : max 0 ((sumW S : ℚ) - ((cap : ℚ) - (it.weight : ℚ)))
            ≤ (it.weight : ℚ) + max 0 ((sumW S : ℚ) - (cap : ℚ)) := by
          apply max_le
          · linarith
          · have := le_max_right (0 : ℚ) ((sumW S : ℚ) - (cap : ℚ)); linarith
        have h4 := mul_le_mul_of_nonneg_left h3 hit0
        rw [hpw]
        linarith
      | cons₂ _ hS1 =>
        rename_i S1
        have h1 := ih hposL hratioL hsortedL r hr0 (fun x hx => hr x (List.mem_cons_of_mem _ hx))
          (cap - it.weight) S1 hS1
        rw [sumP_cons, sumW_cons]
        push_cast at h1 ⊢
        have : (it.weight : ℚ) + (sumW S1 : ℚ) - (cap : ℚ)
            = (sumW S1 : ℚ) - ((cap : ℚ) - (it.weight : ℚ)) := by ring
        rw [this]
        linarith
    · simp only [fracBound, hfit, if_false]
      have hall : ∀ x ∈ it :: L, x.pw ≤ it.pw := by
        intro x hx
        rcases List.mem_cons.mp hx with rfl | hx
        · exact le_rfl
        · exact hitL x hx
      have h1 := sumP_le_ratio_mul it.pw S (fun x hx => (hpos x (hS.subset hx)).1)
        (fun x hx => hratio x (hS.subset hx)) (fun x hx => hall x (hS.subset hx))
      have h2 : it.pw * ((sumW S : ℚ) - (cap : ℚ))
          ≤ it.pw * max 0 ((sumW S : ℚ) - (cap : ℚ)) :=
        mul_le_mul_of_nonneg_left (le_max_right _ _) hit0
      linarith

/-- The relaxation is an upper bound for every selection of the remaining items that fits. -/
theorem sumP_le_fracBound (L : List node) (hpos : ∀ it ∈ L, 0 < it.weight ∧ 0 < it.profit)
    (hratio : ∀ it ∈ L, it.pw = (it.profit : ℚ) / (it.weight : ℚ))
    (hsorted : L.Pairwise (fun a b => b.pw ≤ a.pw)) (cap : Int) (S : List node)
    (hS : S.Sublist L) (hfit : sumW S ≤ cap) : (sumP S : ℚ) ≤ fracBound cap L := by
  have hmax : max 0 ((sumW S : ℚ) - (cap : ℚ)) = 0 := by
    apply max_eq_left
    have : (sumW S : ℚ) ≤ (cap : ℚ) := by exact_mod_cast hfit
    linarith
  cases L with
  | nil =>
    have := sumP_le_fracBound_add [] hpos hratio hsorted 0 le_rfl (by simp) cap S hS
    simpa using this
  | cons it L =>
    have hit0 : 0 ≤ it.pw := by
      rw [hratio it (List.mem_cons_self _ _)]
      have h1 : (0 : ℚ) < (it.weight : ℚ) := by
        exact_mod_cast (hpos it (List.mem_cons_self _ _)).1
      have h2 : (0 : ℚ) < (it.profit : ℚ) := by
        exact_mod_cast (hpos it (List.mem_cons_self _ _)).2
      positivity
    have hall : ∀ x ∈ it :: L, x.pw ≤ it.pw := by
      intro x hx
      rcases List.mem_cons.mp hx with rfl | hx
      · exact le_rfl
      · exact (List.pairwise_cons.mp hsorted).1 x hx
    have := sumP_le_fracBound_add (it :: L) hpos hratio hsorted it.pw hit0 hall cap S hS
    rw [hmax] at this
    simpa using this

/-! ## What `bound` computes -/

theorem nodeAt_natCast (pw : List node) (j : Nat) : nodeAt pw (j : Int) = pw[j]? := by
  simp [nodeAt]

/-- The loop of `bound` followed by the fraction step is the greedy fill of the remaining
items. -/
theorem boundLoop_bind_boundFraction (pw : List node) (W : Int) :
    ∀ (fuel j : Nat) (totweight : Int) (result : ℚ), j ≤ pw.length → pw.length - j ≤ fuel →
      (boundLoop pw (pw.length : Int) W fuel (j : Int) totweight result).bind
          (boundFraction pw (pw.length : Int) W)
        = some (result + fracBound (W - totweight) (pw.drop j)) := by
  intro fuel
  induction fuel with
  | zero =>
    intro j totweight result hj hfuel
    have hjn : j = pw.length := by omega
    subst hjn
    simp [boundLoop, boundFraction, fracBound]
  | succ fuel ih =>
    intro j totweight result hj hfuel
    by_cases hlt : j < pw.length
    · have hcast : ((j : Int) < (pw.length : Int)) := by exact_mod_cast hlt
      have hget : pw[j]? = some pw[j] := List.getElem?_eq_getElem hlt
      have hdrop : pw.drop j = pw[j] :: pw.drop (j + 1) := List.drop_eq_getElem_cons hlt
      by_cases hfit : totweight + pw[j].weight ≤ W
      · have hfit2 : pw[j].weight ≤ W - totweight := by omega
        have h := ih (j + 1) (totweight + pw[j].weight) (result + (pw[j].profit : ℚ))
          (by omega) (by omega)
        have hc : ((j : Int) + 1) = ((j + 1 : Nat) : Int) := by push_cast; ring
        have hcap : W - (totweight + pw[j].weight) = W - totweight - pw[j].weight := by ring
        rw [boundLoop, if_pos hcast, nodeAt_natCast, hget]
        simp only [hfit, if_true]
        rw [hc, h, hdrop, fracBound, if_pos hfit2, hcap]
        congr 1
        ring
      · have hfit2 : ¬ pw[j].weight ≤ W - totweight := by omega
        rw [boundLoop, if_pos hcast, nodeAt_natCast, hget]
        simp only [hfit, if_false]
        rw [hdrop, fracBound, if_neg hfit2]
        simp [boundFraction, hcast, nodeAt_natCast, hget]
    · have hjn : j = pw.length := by omega
      subst hjn
      simp [boundLoop, boundFraction, fracBound]

/-- On a node of weight below `W` and level from -1 to `n - 1`, `bound` reads inside the array
and stores the profit of the node plus the greedy fill of the remaining items. -/
theorem bound_of_lt (pw : List node) (W : Int) (x : node) (hw : x.weight < W)
    (hl : -1 ≤ x.level) (hn : x.level + 1 ≤ (pw.length : Int)) :
    bound x pw (pw.length : Int) W
      = some { x with bound := (x.profit : ℚ) + fracBound (W - x.weight) (remaining pw x.level) } := by
  have hj : x.level + 1 = (((x.level + 1).toNat : Nat) : Int) := by omega
  have h := boundLoop_bind_boundFraction pw W (pw.length - (x.level + 1).toNat)
    (x.level + 1).toNat x.weight (x.profit : ℚ) (by omega) le_rfl
  have hf : ((pw.length : Int) - (x.level + 1)).toNat = pw.length - (x.level + 1).toNat := by
    omega
  unfold bound
  simp only [hw, if_true, hf]
  rw [hj] at *
  simp only [Int.toNat_ofNat] at h ⊢
  rw [h]
  simp [remaining]

/-- On a node of weight `W` or more, `bound` stores 0. -/
theorem bound_of_ge (pw : List node) (n W : Int) (x : node) (hw : W ≤ x.weight) :
    bound x pw n W = some { x with bound := 0 } := by
  have : ¬ x.weight < W := by omega
  simp [bound, this]

/-- With level in range, `bound` reads inside the array and stores `boundValue`. -/
theorem bound_eq (pw : List node) (W : Int) (x : node) (hl : -1 ≤ x.level)
    (hn : x.level + 1 ≤ (pw.length : Int)) :
    bound x pw (pw.length : Int) W = some { x with bound := boundValue pw W x } := by
  by_cases hw : x.weight < W
  · rw [bound_of_lt pw W x hw hl hn]; simp [boundValue, hw]
  · rw [bound_of_ge pw _ W x (by omega)]; simp [boundValue, hw]

/-- A node of the last level has no items left: its bound is its own profit, or 0. -/
theorem boundValue_last (pw : List node) (W : Int) (x : node)
    (hn : x.level + 1 = (pw.length : Int)) :
    boundValue pw W x = if x.weight < W then (x.profit : ℚ) else 0 := by
  have : (x.level + 1).toNat = pw.length := by omega
  simp [boundValue, remaining, this, fracBound]

/-! ## The queue -/

theorem insertNode_perm (q : PriorityQueue) (x : node) : (insertNode q x).Perm (x :: q) := by
  induction q with
  | nil => simp [insertNode]
  | cons y q ih =>
    simp only [insertNode]
    split
    · exact List.Perm.refl _
    · exact (List.Perm.cons y ih).trans (List.Perm.swap x y q)

theorem mem_insertNode (q : PriorityQueue) (x y : node) :
    y ∈ insertNode q x ↔ y = x ∨ y ∈ q := by
  rw [(insertNode_perm q x).mem_iff, List.mem_cons]

theorem removeNode_eq_some (q q1 : PriorityQueue) (v : node) (h : removeNode q = some (v, q1)) :
    q = v :: q1 := by
  cases q with
  | nil => simp [removeNode] at h
  | cons y q =>
    simp only [removeNode, Option.some.injEq, Prod.mk.injEq] at h
    rw [h.1, h.2]

/-- The modelled queue meets its specification: `insertNode` keeps the bounds descending. -/
theorem insertNode_sorted (q : PriorityQueue) (x : node)
    (h : q.Pairwise (fun a b => b.bound ≤ a.bound)) :
    (insertNode q x).Pairwise (fun a b => b.bound ≤ a.bound) := by
  induction q with
  | nil => simp [insertNode]
  | cons y q ih =>
    obtain ⟨hy, hq⟩ := List.pairwise_cons.mp h
    simp only [insertNode]
    split
    · rename_i hlt
      refine List.pairwise_cons.mpr ⟨?_, h⟩
      intro z hz
      rcases List.mem_cons.mp hz with rfl | hz
      · exact hlt.le
      · exact le_trans (hy z hz) hlt.le
    · rename_i hnlt
      refine List.pairwise_cons.mpr ⟨?_, ih hq⟩
      intro z hz
      rcases (mem_insertNode q x z).mp hz with rfl | hz
      · exact not_lt.mp hnlt
      · exact hy z hz

/-- The modelled queue meets its specification: on a queue with descending bounds `removeNode`
yields a node whose bound is at least the bound of every other queued node. -/
theorem removeNode_max (q q1 : PriorityQueue) (v : node)
    (h : q.Pairwise (fun a b => b.bound ≤ a.bound)) (hrem : removeNode q = some (v, q1)) :
    ∀ x ∈ q1, x.bound ≤ v.bound := by
  rw [removeNode_eq_some q q1 v hrem] at h
  exact (List.pairwise_cons.mp h).1

theorem workLeft_insertNode (n : Nat) (q : PriorityQueue) (x : node) :
    workLeft n (insertNode q x) = subtreeSize n x + workLeft n q := by
  unfold workLeft
  rw [((insertNode_perm q x).map (subtreeSize n)).sum_eq]
  simp

/-! ## One iteration of the loop -/

theorem recordBest_PQ (W : Int) (s : BFSState) (u : node) : (recordBest W s u).PQ = s.PQ := by
  unfold recordBest; split <;> rfl

theorem recordBest_i (W : Int) (s : BFSState) (u : node) : (recordBest W s u).i = s.i := by
  unfold recordBest; split <;> rfl

theorem recordBest_maxprofit (W : Int) (s : BFSState) (u : node) :
    (recordBest W s u).maxprofit
      = if u.weight ≤ W ∧ s.maxprofit < u.profit then u.profit else s.maxprofit := by
  unfold recordBest; split <;> rfl

theorem le_recordBest_maxprofit (W : Int) (s : BFSState) (u : node) :
    s.maxprofit ≤ (recordBest W s u).maxprofit := by
  rw [recordBest_maxprofit]; split <;> omega

theorem enqueueIfPromising_maxprofit (s : BFSState) (u : node) :
    (enqueueIfPromising s u).maxprofit = s.maxprofit := by
  unfold enqueueIfPromising; split <;> rfl

theorem enqueueIfPromising_tw (s : BFSState) (u : node) :
    (enqueueIfPromising s u).tw = s.tw := by
  unfold enqueueIfPromising; split <;> rfl

theorem enqueueIfPromising_best (s : BFSState) (u : node) :
    (enqueueIfPromising s u).best = s.best := by
  unfold enqueueIfPromising; split <;> rfl

theorem enqueueIfPromising_i (s : BFSState) (u : node) :
    (enqueueIfPromising s u).i = s.i := by
  unfold enqueueIfPromising; split <;> rfl

theorem mem_enqueueIfPromising (s : BFSState) (u x : node) :
    x ∈ (enqueueIfPromising s u).PQ ↔ (x = u ∧ (s.maxprofit : ℚ) < u.bound) ∨ x ∈ s.PQ := by
  unfold enqueueIfPromising
  split
  · rename_i h; simp [mem_insertNode, h]
  · rename_i h; simp [h]

theorem workLeft_enqueueIfPromising_le (n : Nat) (s : BFSState) (u : node) :
    workLeft n (enqueueIfPromising s u).PQ ≤ subtreeSize n u + workLeft n s.PQ := by
  unfold enqueueIfPromising
  split
  · simp [workLeft_insertNode]
  · simp

theorem bfsIter_discard (pw : List node) (n W : Int) (s : BFSState) (v : node)
    (q : PriorityQueue) (hPQ : s.PQ = v :: q) (h : ¬ (s.maxprofit : ℚ) < v.bound) :
    bfsIter pw n W s = some { s with PQ := q, i := s.i + 1 } := by
  simp [bfsIter, hPQ, removeNode, h]

/-- A queued node that passes the test `v.bound > maxprofit` weighs less than `W` and is not on
the last level. -/
theorem promising_lt (pw : List node) (W : Int) (s : BFSState) (v : node)
    (hinv : QueueInv pw W s) (hv : v ∈ s.PQ) (h : (s.maxprofit : ℚ) < v.bound) :
    v.weight < W ∧ v.level + 1 < (pw.length : Int) := by
  obtain ⟨h0, hq⟩ := hinv
  obtain ⟨hl, hn, hp, hb⟩ := hq v hv
  have h0q : (0 : ℚ) ≤ (s.maxprofit : ℚ) := by exact_mod_cast h0
  have hpq : (v.profit : ℚ) ≤ (s.maxprofit : ℚ) := by exact_mod_cast hp
  have hw : v.weight < W := by
    by_contra hw
    rw [hb] at h
    simp only [boundValue, hw, if_false] at h
    linarith
  refine ⟨hw, ?_⟩
  by_contra hlast
  have hlast2 : v.level + 1 = (pw.length : Int) := by omega
  rw [hb, boundValue_last pw W v hlast2] at h
  simp only [hw, if_true] at h
  linarith

theorem bfsIter_expand (pw : List node) (W : Int) (s : BFSState) (v : node)
    (q : PriorityQueue) (hinv : QueueInv pw W s) (hPQ : s.PQ = v :: q)
    (h : (s.maxprofit : ℚ) < v.bound) :
    ∃ it, nodeAt pw (v.level + 1) = some it ∧ it ∈ pw ∧
      remaining pw v.level = it :: remaining pw (v.level + 1) ∧
      bfsIter pw (pw.length : Int) W s = some (expandState pw W s v q it) := by
  have hv : v ∈ s.PQ := by rw [hPQ]; exact List.mem_cons_self _ _
  obtain ⟨hw, hlt⟩ := promising_lt pw W s v hinv hv h
  obtain ⟨hl, hn, hp, hb⟩ := hinv.2 v hv
  have hk : (v.level + 1).toNat < pw.length := by omega
  have hk0 : 0 ≤ v.level + 1 := by omega
  refine ⟨pw[(v.level + 1).toNat], ?_, List.getElem_mem _, ?_, ?_⟩
  · simp [nodeAt, hk0, List.getElem?_eq_getElem hk]
  · have : (v.level + 1 + 1).toNat = (v.level + 1).toNat + 1 := by omega
    simp only [remaining, this]
    exact List.drop_eq_getElem_cons hk
  · have hat : nodeAt pw (v.level + 1) = some pw[(v.level + 1).toNat] := by
      simp [nodeAt, hk0, List.getElem?_eq_getElem hk]
    have hb1 := bound_eq pw W (includeChild v pw[(v.level + 1).toNat])
      (by simp [includeChild, appendName, setName]; omega)
      (by simp [includeChild, appendName, setName]; omega)
    have hb2 := bound_eq pw W
      (excludeChild v (boundedInclude pw W v pw[(v.level + 1).toNat]))
      (by simp [excludeChild, boundedInclude, includeChild, appendName, setName]; omega)
      (by simp [excludeChild, boundedInclude, includeChild, appendName, setName]; omega)
    simp only [bfsIter, hPQ, removeNode, h, if_true, hat]
    rw [hb1]
    simp only []
    rw [show ({ includeChild v pw[(v.level + 1).toNat] with
        bound := boundValue pw W (includeChild v pw[(v.level + 1).toNat]) } : node)
        = boundedInclude pw W v pw[(v.level + 1).toNat] from rfl, hb2]
    simp [expandState, boundedExclude, enqueueIfPromising_i, recordBest_i]

/-! ## The two children -/

theorem boundedInclude_level (pw : List node) (W : Int) (v it : node) :
    (boundedInclude pw W v it).level = v.level + 1 := rfl

theorem boundedInclude_profit (pw : List node) (W : Int) (v it : node) :
    (boundedInclude pw W v it).profit = v.profit + it.profit := rfl

theorem boundedInclude_weight (pw : List node) (W : Int) (v it : node) :
    (boundedInclude pw W v it).weight = v.weight + it.weight := rfl

theorem boundedInclude_name (pw : List node) (W : Int) (v it : node) :
    (boundedInclude pw W v it).name = v.name ++ "&" ++ it.name := rfl

theorem boundedExclude_level (pw : List node) (W : Int) (v it : node) :
    (boundedExclude pw W v it).level = v.level + 1 := rfl

theorem boundedExclude_profit (pw : List node) (W : Int) (v it : node) :
    (boundedExclude pw W v it).profit = v.profit := rfl

theorem boundedExclude_weight (pw : List node) (W : Int) (v it : node) :
    (boundedExclude pw W v it).weight = v.weight := rfl

theorem boundedExclude_name (pw : List node) (W : Int) (v it : node) :
    (boundedExclude pw W v it).name = v.name ++ "-" := rfl

/-- The value of `bound` depends on the weight, profit and level of the node only. -/
theorem boundValue_congr (pw : List node) (W : Int) (x y : node) (hw : x.weight = y.weight)
    (hp : x.profit = y.profit) (hl : x.level = y.level) :
    boundValue pw W x = boundValue pw W y := by
  simp [boundValue, hw, hp, hl]

theorem boundedInclude_bound (pw : List node) (W : Int) (v it : node) :
    (boundedInclude pw W v it).bound = boundValue pw W (boundedInclude pw W v it) :=
  boundValue_congr pw W _ _ rfl rfl rfl

theorem boundedExclude_bound (pw : List node) (W : Int) (v it : node) :
    (boundedExclude pw W v it).bound = boundValue pw W (boundedExclude pw W v it) :=
  boundValue_congr pw W _ _ rfl rfl rfl

/-- An include-child that weighs `W` or more has bound 0. -/
theorem boundedInclude_bound_of_ge (pw : List node) (W : Int) (v it : node)
    (h : W ≤ v.weight + it.weight) : (boundedInclude pw W v it).bound = 0 := by
  have : ¬ (includeChild v it).weight < W := by
    show ¬ v.weight + it.weight < W
    omega
  simp [boundedInclude, boundValue, this]

/-! ## The state after an expansion -/

theorem expandState_maxprofit (pw : List node) (W : Int) (s : BFSState) (v : node)
    (q : PriorityQueue) (it : node) :
    (expandState pw W s v q it).maxprofit
      = if v.weight + it.weight ≤ W ∧ s.maxprofit < v.profit + it.profit
        then v.profit + it.profit else s.maxprofit := by
  simp only [expandState, enqueueIfPromising_maxprofit, recordBest_maxprofit]
  rfl

theorem le_expandState_maxprofit (pw : List node) (W : Int) (s : BFSState) (v : node)
    (q : PriorityQueue) (it : node) : s.maxprofit ≤ (expandState pw W s v q it).maxprofit := by
  rw [expandState_maxprofit]; split <;> omega

theorem mem_expandState (pw : List node) (W : Int) (s : BFSState) (v : node)
    (q : PriorityQueue) (it x : node) :
    x ∈ (expandState pw W s v q it).PQ ↔
      (x = boundedExclude pw W v it ∧
        ((expandState pw W s v q it).maxprofit : ℚ) < (boundedExclude pw W v it).bound) ∨
      (x = boundedInclude pw W v it ∧
        ((expandState pw W s v q it).maxprofit : ℚ) < (boundedInclude pw W v it).bound) ∨
      x ∈ q := by
  simp only [expandState, mem_enqueueIfPromising, enqueueIfPromising_maxprofit, recordBest_PQ]

theorem workLeft_expandState_le (n : Nat) (pw : List node) (W : Int) (s : BFSState) (v : node)
    (q : PriorityQueue) (it : node) :
    workLeft n (expandState pw W s v q it).PQ
      ≤ subtreeSize n (boundedExclude pw W v it) + (subtreeSize n (boundedInclude pw W v it)
          + workLeft n q) := by
  have h1 := workLeft_enqueueIfPromising_le n
    (enqueueIfPromising (recordBest W { s with PQ := q } (includeChild v it))
      (boundedInclude pw W v it)) (boundedExclude pw W v it)
  have h2 := workLeft_enqueueIfPromising_le n
    (recordBest W { s with PQ := q } (includeChild v it)) (boundedInclude pw W v it)
  rw [recordBest_PQ] at h2
  have h3 : (expandState pw W s v q it).PQ = (enqueueIfPromising
      (enqueueIfPromising (recordBest W { s with PQ := q } (includeChild v it))
        (boundedInclude pw W v it)) (boundedExclude pw W v it)).PQ := rfl
  rw [h3]
  simp only [] at h2
  omega

/-- The queue invariant holds again after an expansion. -/
theorem queueInv_expandState (pw : List node) (W : Int) (s : BFSState) (v : node)
    (q : PriorityQueue) (it : node) (hinv : QueueInv pw W s) (hPQ : s.PQ = v :: q)
    (h : (s.maxprofit : ℚ) < v.bound) : QueueInv pw W (expandState pw W s v q it) := by
  have hv : v ∈ s.PQ := by rw [hPQ]; exact List.mem_cons_self _ _
  obtain ⟨hw, hlt⟩ := promising_lt pw W s v hinv hv h
  obtain ⟨hl, hn, hp, hb⟩ := hinv.2 v hv
  have hmono := le_expandState_maxprofit pw W s v q it
  have h0 : 0 ≤ (expandState pw W s v q it).maxprofit := le_trans hinv.1 hmono
  refine ⟨h0, ?_⟩
  intro x hx
  rcases (mem_expandState pw W s v q it x).mp hx with ⟨rfl, _⟩ | ⟨rfl, hprom⟩ | hxq
  · refine ⟨?_, ?_, ?_, boundedExclude_bound pw W v it⟩
    · rw [boundedExclude_level]; omega
    · rw [boundedExclude_level]; omega
    · rw [boundedExclude_profit]; omega
  · refine ⟨?_, ?_, ?_, boundedInclude_bound pw W v it⟩
    · rw [boundedInclude_level]; omega
    · rw [boundedInclude_level]; omega
    · rw [boundedInclude_profit]
      by_cases hfit : v.weight + it.weight ≤ W
      · rw [expandState_maxprofit]
        split <;> omega
      · exfalso
        rw [boundedInclude_bound_of_ge pw W v it (by omega)] at hprom
        have : (0 : ℚ) ≤ ((expandState pw W s v q it).maxprofit : ℚ) := by exact_mod_cast h0
        linarith
  · have hxs : x ∈ s.PQ := by rw [hPQ]; exact List.mem_cons_of_mem _ hxq
    obtain ⟨a, b, c, d⟩ := hinv.2 x hxs
    exact ⟨a, b, le_trans c hmono, d⟩

/-- The queue invariant holds again after a node is discarded. -/
theorem queueInv_discard (pw : List node) (W : Int) (s : BFSState) (v : node)
    (q : PriorityQueue) (hinv : QueueInv pw W s) (hPQ : s.PQ = v :: q) :
    QueueInv pw W { s with PQ := q, i := s.i + 1 } := by
  refine ⟨hinv.1, ?_⟩
  intro x hx
  exact hinv.2 x (by rw [hPQ]; exact List.mem_cons_of_mem _ hx)

/-! ## The loop -/

theorem subtreeSize_pos (n : Nat) (x : node) (h : x.level + 1 ≤ (n : Int)) :
    1 ≤ subtreeSize n x := by
  unfold subtreeSize
  obtain ⟨k, hk⟩ : ∃ k, ((n : Int) - x.level).toNat = k + 1 := ⟨((n : Int) - x.level).toNat - 1, by omega⟩
  rw [hk, pow_succ]
  have : 1 ≤ 2 ^ k := Nat.one_le_two_pow
  omega

theorem subtreeSize_children (n : Nat) (x y z : node) (hy : y.level = x.level + 1)
    (hz : z.level = x.level + 1) (h : x.level + 1 < (n : Int)) :
    subtreeSize n y + (subtreeSize n z + 1) ≤ subtreeSize n x := by
  unfold subtreeSize
  obtain ⟨k, hk⟩ : ∃ k, ((n : Int) - x.level).toNat = k + 1 := ⟨((n : Int) - x.level).toNat - 1, by omega⟩
  have hky : ((n : Int) - y.level).toNat = k := by omega
  have hkz : ((n : Int) - z.level).toNat = k := by omega
  rw [hk, hky, hkz, pow_succ]
  have : 1 ≤ 2 ^ k := Nat.one_le_two_pow
  omega

/-- On a non-empty queue an iteration either discards the dequeued node or expands it, and it
never reads outside the array. -/
theorem bfsIter_cases (pw : List node) (W : Int) (s : BFSState) (hinv : QueueInv pw W s)
    (hne : s.PQ ≠ []) :
    ∃ v q, s.PQ = v :: q ∧
      ((¬ (s.maxprofit : ℚ) < v.bound ∧
          bfsIter pw (pw.length : Int) W s = some { s with PQ := q, i := s.i + 1 }) ∨
        ((s.maxprofit : ℚ) < v.bound ∧ v.weight < W ∧ v.level + 1 < (pw.length : Int) ∧
          ∃ it, nodeAt pw (v.level + 1) = some it ∧ it ∈ pw ∧
            remaining pw v.level = it :: remaining pw (v.level + 1) ∧
            bfsIter pw (pw.length : Int) W s = some (expandState pw W s v q it))) := by
  obtain ⟨v, q, hPQ⟩ := List.exists_cons_of_ne_nil hne
  refine ⟨v, q, hPQ, ?_⟩
  by_cases h : (s.maxprofit : ℚ) < v.bound
  · right
    have hv : v ∈ s.PQ := by rw [hPQ]; exact List.mem_cons_self _ _
    obtain ⟨hw, hlt⟩ := promising_lt pw W s v hinv hv h
    exact ⟨h, hw, hlt, bfsIter_expand pw W s v q hinv hPQ h⟩
  · left
    exact ⟨h, bfsIter_discard pw _ W s v q hPQ h⟩

/-- Induction over the loop of `bestFirstSearch`: a property that holds at the head of the loop
and is kept by a discard and by an expansion holds when the loop ends, and the loop does end,
with an empty queue, when the fuel covers the work left. -/
theorem bfsLoop_induction (pw : List node) (W : Int) (P : BFSState → Prop)
    (hdiscard : ∀ s v q, QueueInv pw W s → P s → s.PQ = v :: q → ¬ (s.maxprofit : ℚ) < v.bound →
      P { s with PQ := q, i := s.i + 1 })
    (hexpand : ∀ s v q it, QueueInv pw W s → P s → s.PQ = v :: q → (s.maxprofit : ℚ) < v.bound →
      v.weight < W → v.level + 1 < (pw.length : Int) → nodeAt pw (v.level + 1) = some it →
      it ∈ pw → remaining pw v.level = it :: remaining pw (v.level + 1) →
      P (expandState pw W s v q it)) :
    ∀ (fuel : Nat) (s : BFSState), QueueInv pw W s → P s → workLeft pw.length s.PQ ≤ fuel →
      ∃ s1, bfsLoop pw (pw.length : Int) W fuel s = some s1 ∧ s1.PQ = [] ∧ P s1 ∧
        QueueInv pw W s1 := by
  intro fuel
  induction fuel with
  | zero =>
    intro s hinv hP hfuel
    have hempty : s.PQ = [] := by
      by_contra hne
      obtain ⟨v, q, hPQ⟩ := List.exists_cons_of_ne_nil hne
      have hv : v ∈ s.PQ := by rw [hPQ]; exact List.mem_cons_self _ _
      have := subtreeSize_pos pw.length v (hinv.2 v hv).2.1
      rw [hPQ] at hfuel
      simp [workLeft] at hfuel
      omega
    exact ⟨s, by simp [bfsLoop, isEmptyQueue, hempty], hempty, hP, hinv⟩
  | succ fuel ih =>
    intro s hinv hP hfuel
    by_cases hempty : s.PQ = []
    · exact ⟨s, by simp [bfsLoop, isEmptyQueue, hempty], hempty, hP, hinv⟩
    · obtain ⟨v, q, hPQ, hcase⟩ := bfsIter_cases pw W s hinv hempty
      have hv : v ∈ s.PQ := by rw [hPQ]; exact List.mem_cons_self _ _
      have hwl : workLeft pw.length s.PQ = subtreeSize pw.length v + workLeft pw.length q := by
        rw [hPQ]; simp [workLeft]
      have hne : isEmptyQueue s.PQ = false := by simp [isEmptyQueue, hPQ]
      rcases hcase with ⟨hnp, hiter⟩ | ⟨hp, hw, hlt, it, hat, hmem, hrem, hiter⟩
      · have hpos := subtreeSize_pos pw.length v (hinv.2 v hv).2.1
        obtain ⟨s1, h1, h2, h3, h4⟩ := ih { s with PQ := q, i := s.i + 1 }
          (queueInv_discard pw W s v q hinv hPQ) (hdiscard s v q hinv hP hPQ hnp)
          (by simp only []; omega)
        exact ⟨s1, by simp only [bfsLoop, hne, hiter]; exact h1, h2, h3, h4⟩
      · have hch := subtreeSize_children pw.length v (boundedExclude pw W v it)
          (boundedInclude pw W v it) (boundedExclude_level pw W v it)
          (boundedInclude_level pw W v it) hlt
        have hle := workLeft_expandState_le pw.length pw W s v q it
        obtain ⟨s1, h1, h2, h3, h4⟩ := ih (expandState pw W s v q it)
          (queueInv_expandState pw W s v q it hinv hPQ hp)
          (hexpand s v q it hinv hP hPQ hp hw hlt hat hmem hrem) (by omega)
        exact ⟨s1, by simp only [bfsLoop, hne, hiter]; exact h1, h2, h3, h4⟩

/-- The start of `bestFirstSearch` never reads outside the array. -/
theorem bfsInit_eq (pw : List node) (W tw : Int) (best : Option String) :
    bfsInit pw (pw.length : Int) W tw best = some (initState pw W tw best) := by
  have h := bound_eq pw W rootNode (by simp [rootNode]) (by simp [rootNode])
  simp only [bfsInit, h]
  rfl

theorem queueInv_initState (pw : List node) (W tw : Int) (best : Option String) :
    QueueInv pw W (initState pw W tw best) := by
  refine ⟨le_rfl, ?_⟩
  intro x hx
  have hx1 : x = boundedRoot pw W := by simpa [initState] using hx
  subst hx1
  refine ⟨by simp [boundedRoot, rootNode], by simp [boundedRoot, rootNode],
    by simp [boundedRoot, rootNode, initState], ?_⟩
  exact boundValue_congr pw W _ _ rfl rfl rfl

theorem workLeft_initState (pw : List node) (W tw : Int) (best : Option String) :
    workLeft pw.length (initState pw W tw best).PQ = 2 ^ (pw.length + 1) - 1 := by
  have : ((pw.length : Int) - (-1)).toNat = pw.length + 1 := by omega
  simp [workLeft, initState, subtreeSize, boundedRoot, rootNode, this]

/-- Induction over a run of `bestFirstSearch`: with fuel for the `2 ^ (n + 1) - 1` vertices of
the state space tree the function returns, and a property of the loop state that holds at the
start and is kept by every iteration holds for the state it returns from. -/
theorem bestFirstSearch_induction (pw : List node) (W tw : Int) (best : Option String)
    (P : BFSState → Prop) (hinit : P (initState pw W tw best))
    (hdiscard : ∀ s v q, QueueInv pw W s → P s → s.PQ = v :: q → ¬ (s.maxprofit : ℚ) < v.bound →
      P { s with PQ := q, i := s.i + 1 })
    (hexpand : ∀ s v q it, QueueInv pw W s → P s → s.PQ = v :: q → (s.maxprofit : ℚ) < v.bound →
      v.weight < W → v.level + 1 < (pw.length : Int) → nodeAt pw (v.level + 1) = some it →
      it ∈ pw → remaining pw v.level = it :: remaining pw (v.level + 1) →
      P (expandState pw W s v q it))
    (fuel : Nat) (hfuel : 2 ^ (pw.length + 1) - 1 ≤ fuel) :
    ∃ s1, bestFirstSearch fuel pw (pw.length : Int) W tw best
        = some (s1.maxprofit, s1.tw, s1.best) ∧ s1.PQ = [] ∧ P s1 ∧ QueueInv pw W s1 := by
  obtain ⟨s1, h1, h2, h3, h4⟩ := bfsLoop_induction pw W P hdiscard hexpand fuel
    (initState pw W tw best) (queueInv_initState pw W tw best) hinit
    (by rw [workLeft_initState]; exact hfuel)
  exact ⟨s1, by simp [bestFirstSearch, bfsInit_eq, h1], h2, h3, h4⟩

/-! ## Fuel -/

theorem bfsLoop_mono (pw : List node) (n W : Int) :
    ∀ (fuel : Nat) (s r : BFSState), bfsLoop pw n W fuel s = some r →
      ∀ k, bfsLoop pw n W (fuel + k) s = some r := by
  intro fuel
  induction fuel with
  | zero =>
    intro s r h k
    by_cases he : isEmptyQueue s.PQ = true
    · simp only [bfsLoop, he, if_true] at h
      cases k <;> simp [bfsLoop, he, h]
    · simp [bfsLoop, he] at h
  | succ fuel ih =>
    intro s r h k
    have hk : fuel + 1 + k = (fuel + k) + 1 := by omega
    rw [hk]
    by_cases he : isEmptyQueue s.PQ = true
    · simp only [bfsLoop, he, if_true] at h ⊢
      exact h
    · simp only [bfsLoop, he] at h ⊢
      cases hiter : bfsIter pw n W s with
      | none => simp [hiter] at h
      | some s1 =>
        simp only [hiter] at h ⊢
        exact ih s1 r h k

theorem bestFirstSearch_mono (pw : List node) (n W tw : Int) (best : Option String)
    (fuel fuel1 : Nat) (r : Int × Int × Option String)
    (h : bestFirstSearch fuel pw n W tw best = some r) (hle : fuel ≤ fuel1) :
    bestFirstSearch fuel1 pw n W tw best = some r := by
  obtain ⟨k, rfl⟩ : ∃ k, fuel1 = fuel + k := ⟨fuel1 - fuel, by omega⟩
  unfold bestFirstSearch at h ⊢
  cases hinit : bfsInit pw n W tw best with
  | none => simp [hinit] at h
  | some s0 =>
    simp only [hinit] at h ⊢
    cases hloop : bfsLoop pw n W fuel s0 with
    | none => simp [hloop] at h
    | some s1 =>
      rw [bfsLoop_mono pw n W fuel s0 s1 hloop k]
      simpa [hloop] using h

/-- A run of the model that answers is the return of the call. -/
theorem returns_of_eq_some (pw : List node) (W tw : Int) (best : Option String) (fuel : Nat)
    (r : Int × Int × Option String)
    (h : bestFirstSearch fuel pw (pw.length : Int) W tw best = some r) :
    Returns pw W tw best r :=
  ⟨fuel, fun fuel1 hle => bestFirstSearch_mono pw _ W tw best fuel fuel1 r h hle⟩

/-- The call returns one result only. -/
theorem returns_unique (pw : List node) (W tw : Int) (best : Option String)
    (r r1 : Int × Int × Option String) (h : Returns pw W tw best r)
    (h1 : Returns pw W tw best r1) : r = r1 := by
  obtain ⟨f, hf⟩ := h
  obtain ⟨f1, hf1⟩ := h1
  have a := hf (max f f1) (le_max_left _ _)
  have b := hf1 (max f f1) (le_max_right _ _)
  rw [a] at b
  exact Option.some.inj b

/-- Induction over a run of `bestFirstSearch`, for the call: it returns, and a property of the
loop state that holds at the start and is kept by every iteration holds for the state it returns
from. -/
theorem returns_induction (pw : List node) (W tw : Int) (best : Option String)
    (P : BFSState → Prop) (hinit : P (initState pw W tw best))
    (hdiscard : ∀ s v q, QueueInv pw W s → P s → s.PQ = v :: q → ¬ (s.maxprofit : ℚ) < v.bound →
      P { s with PQ := q, i := s.i + 1 })
    (hexpand : ∀ s v q it, QueueInv pw W s → P s → s.PQ = v :: q → (s.maxprofit : ℚ) < v.bound →
      v.weight < W → v.level + 1 < (pw.length : Int) → nodeAt pw (v.level + 1) = some it →
      it ∈ pw → remaining pw v.level = it :: remaining pw (v.level + 1) →
      P (expandState pw W s v q it)) :
    ∃ s1, Returns pw W tw best (s1.maxprofit, s1.tw, s1.best) ∧ s1.PQ = [] ∧ P s1 ∧
      QueueInv pw W s1 := by
  obtain ⟨s1, h1, h2, h3, h4⟩ := bestFirstSearch_induction pw W tw best P hinit hdiscard hexpand
    (2 ^ (pw.length + 1) - 1) le_rfl
  exact ⟨s1, returns_of_eq_some pw W tw best _ _ h1, h2, h3, h4⟩

/-! ## Admissibility of the bound -/

theorem remaining_sublist (pw : List node) (level : Int) : (remaining pw level).Sublist pw :=
  List.drop_sublist _ _

/-- Below the capacity the value of `bound` is at least the profit of every feasible
completion. -/
theorem admissible_boundValue (pw : List node) (W : Int) (x : node) (hprep : Prepared pw)
    (hw : x.weight < W) : Admissible pw W x (boundValue pw W x) := by
  obtain ⟨hpos, hratio, hsorted⟩ := hprep
  intro T hT hfit
  have hsub := remaining_sublist pw x.level
  have h := sumP_le_fracBound (remaining pw x.level) (fun it hit => hpos it (hsub.subset hit))
    (fun it hit => hratio it (hsub.subset hit)) (hsorted.sublist hsub) (W - x.weight) T hT
    (by omega)
  simp only [boundValue, hw, if_true]
  push_cast
  linarith

/-- At the capacity a node without profit is its only feasible completion. -/
theorem admissible_of_eq (pw : List node) (W : Int) (x : node) (hprep : Prepared pw)
    (hw : x.weight = W) (hp : x.profit ≤ 0) : Admissible pw W x 0 := by
  intro T hT hfit
  have hsub := remaining_sublist pw x.level
  have hnil : T = [] := eq_nil_of_sumW_le_zero T
    (fun it hit => (hprep.1 it (hsub.subset (hT.subset hit))).1) (by omega)
  subst hnil
  simp only [sumP_nil, add_zero]
  exact_mod_cast hp

/-- Above the capacity a node has no feasible completion. -/
theorem admissible_of_gt (pw : List node) (W : Int) (x : node) (b : ℚ) (hprep : Prepared pw)
    (hw : W < x.weight) : Admissible pw W x b := by
  intro T hT hfit
  have hsub := remaining_sublist pw x.level
  have := sumW_nonneg T (fun it hit => (hprep.1 it (hsub.subset (hT.subset hit))).1)
  omega

/-- A node that is not promising has no feasible completion that earns more than `maxprofit`,
provided its own profit does not when it weighs `W` or more. -/
theorem completion_le_of_not_promising (pw : List node) (W mp : Int) (x : node)
    (hprep : Prepared pw) (hb : x.bound = boundValue pw W x) (hnp : ¬ (mp : ℚ) < x.bound)
    (hp : W ≤ x.weight → x.profit ≤ mp) (T : List node) (hT : T.Sublist (remaining pw x.level))
    (hfit : x.weight + sumW T ≤ W) : x.profit + sumP T ≤ mp := by
  by_cases hw : x.weight < W
  · have h := admissible_boundValue pw W x hprep hw T hT hfit
    rw [← hb] at h
    have : ((x.profit + sumP T : Int) : ℚ) ≤ (mp : ℚ) := by linarith [not_lt.mp hnp]
    exact_mod_cast this
  · have hsub := remaining_sublist pw x.level
    have hposT : ∀ it ∈ T, 0 < it.weight :=
      fun it hit => (hprep.1 it (hsub.subset (hT.subset hit))).1
    have hnil : T = [] := eq_nil_of_sumW_le_zero T hposT (by omega)
    subst hnil
    have := hp (by omega)
    simp only [sumP_nil]
    omega

/-! ## Decisions and the nodes that stand for them -/

theorem zip_snoc (it : node) (d : Bool) :
    ∀ (pw : List node) (ds : List Bool), pw[ds.length]? = some it →
      pw.zip (ds ++ [d]) = pw.zip ds ++ [(it, d)] := by
  intro pw
  induction pw with
  | nil => intro ds h; simp at h
  | cons a pw ih =>
    intro ds h
    cases ds with
    | nil =>
      simp only [List.length_nil, List.getElem?_cons_zero, Option.some.injEq] at h
      subst h
      cases pw <;> simp
    | cons b ds =>
      simp only [List.length_cons, List.getElem?_cons_succ] at h
      simp [ih ds h]

theorem selItems_snoc_true (pw : List node) (ds : List Bool) (it : node)
    (h : pw[ds.length]? = some it) : selItems pw (ds ++ [true]) = selItems pw ds ++ [it] := by
  simp [selItems, zip_snoc it true pw ds h, List.filter_append]

theorem selItems_snoc_false (pw : List node) (ds : List Bool) (it : node)
    (h : pw[ds.length]? = some it) : selItems pw (ds ++ [false]) = selItems pw ds := by
  simp [selItems, zip_snoc it false pw ds h, List.filter_append]

theorem selName_snoc_true (pw : List node) (ds : List Bool) (it : node)
    (h : pw[ds.length]? = some it) :
    selName pw (ds ++ [true]) = selName pw ds ++ "&" ++ it.name := by
  simp [selName, zip_snoc it true pw ds h, List.foldl_append]

theorem selName_snoc_false (pw : List node) (ds : List Bool) (it : node)
    (h : pw[ds.length]? = some it) : selName pw (ds ++ [false]) = selName pw ds ++ "-" := by
  simp [selName, zip_snoc it false pw ds h, List.foldl_append]

theorem map_fst_zip_sublist :
    ∀ (pw : List node) (ds : List Bool), ((pw.zip ds).map (fun p => p.1)).Sublist pw := by
  intro pw
  induction pw with
  | nil => intro ds; simp
  | cons a pw ih =>
    intro ds
    cases ds with
    | nil => simp
    | cons b ds => simpa using (ih ds).cons₂ a

/-- The items picked by a sequence of decisions are a selection of the items. -/
theorem selItems_sublist (pw : List node) (ds : List Bool) : (selItems pw ds).Sublist pw :=
  ((List.filter_sublist _).map _).trans (map_fst_zip_sublist pw ds)

theorem nodeAt_eq_getElem? (pw : List node) (j : Int) (k : Nat) (it : node)
    (h : nodeAt pw j = some it) (hk : (k : Int) = j) : pw[k]? = some it := by
  subst hk
  simpa [nodeAt] using h

theorem denotes_boundedRoot (pw : List node) (W : Int) : Denotes pw (boundedRoot pw W) [] := by
  refine ⟨by simp [boundedRoot, rootNode], by simp, ?_, ?_, ?_⟩
  · simp [boundedRoot, rootNode, selName]
  · simp [boundedRoot, rootNode, selItems, sumP_nil]
  · simp [boundedRoot, rootNode, selItems, sumW_nil]

theorem denotes_boundedInclude (pw : List node) (W : Int) (v it : node) (ds : List Bool)
    (h : Denotes pw v ds) (hat : nodeAt pw (v.level + 1) = some it) :
    Denotes pw (boundedInclude pw W v it) (ds ++ [true]) := by
  obtain ⟨hlen, hle, hname, hp, hw⟩ := h
  have hget := nodeAt_eq_getElem? pw (v.level + 1) ds.length it hat hlen
  have hlt : ds.length < pw.length := by
    by_contra hge
    rw [List.getElem?_eq_none (by omega)] at hget
    simp at hget
  refine ⟨?_, ?_, ?_, ?_, ?_⟩
  · rw [boundedInclude_level]; simp only [List.length_append, List.length_singleton]
    push_cast; omega
  · simp only [List.length_append, List.length_singleton]; omega
  · rw [boundedInclude_name, selName_snoc_true pw ds it hget, hname]
  · rw [boundedInclude_profit, selItems_snoc_true pw ds it hget, sumP_append, sumP_cons,
      sumP_nil, hp]; ring
  · rw [boundedInclude_weight, selItems_snoc_true pw ds it hget, sumW_append, sumW_cons,
      sumW_nil, hw]; ring

theorem denotes_boundedExclude (pw : List node) (W : Int) (v it : node) (ds : List Bool)
    (h : Denotes pw v ds) (hat : nodeAt pw (v.level + 1) = some it) :
    Denotes pw (boundedExclude pw W v it) (ds ++ [false]) := by
  obtain ⟨hlen, hle, hname, hp, hw⟩ := h
  have hget := nodeAt_eq_getElem? pw (v.level + 1) ds.length it hat hlen
  have hlt : ds.length < pw.length := by
    by_contra hge
    rw [List.getElem?_eq_none (by omega)] at hget
    simp at hget
  refine ⟨?_, ?_, ?_, ?_, ?_⟩
  · rw [boundedExclude_level]; simp only [List.length_append, List.length_singleton]
    push_cast; omega
  · simp only [List.length_append, List.length_singleton]; omega
  · rw [boundedExclude_name, selName_snoc_false pw ds it hget, hname]
  · rw [boundedExclude_profit, selItems_snoc_false pw ds it hget, hp]
  · rw [boundedExclude_weight, selItems_snoc_false pw ds it hget, hw]

/-! ## The recorded best selection -/

theorem expandState_tw (pw : List node) (W : Int) (s : BFSState) (v : node)
    (q : PriorityQueue) (it : node) :
    (expandState pw W s v q it).tw
      = if v.weight + it.weight ≤ W ∧ s.maxprofit < v.profit + it.profit
        then v.weight + it.weight else s.tw := by
  simp only [expandState, enqueueIfPromising_tw]
  unfold recordBest
  split <;> rename_i h
  · rw [if_pos (show v.weight + it.weight ≤ W ∧ s.maxprofit < v.profit + it.profit from h)]
    rfl
  · rw [if_neg (show ¬ (v.weight + it.weight ≤ W ∧ s.maxprofit < v.profit + it.profit) from h)]

theorem expandState_best (pw : List node) (W : Int) (s : BFSState) (v : node)
    (q : PriorityQueue) (it : node) :
    (expandState pw W s v q it).best
      = if v.weight + it.weight ≤ W ∧ s.maxprofit < v.profit + it.profit
        then some (v.name ++ "&" ++ it.name) else s.best := by
  simp only [expandState, enqueueIfPromising_best]
  unfold recordBest
  split <;> rename_i h
  · rw [if_pos (show v.weight + it.weight ≤ W ∧ s.maxprofit < v.profit + it.profit from h)]
    rfl
  · rw [if_neg (show ¬ (v.weight + it.weight ≤ W ∧ s.maxprofit < v.profit + it.profit) from h)]

theorem realised_initState (pw : List node) (W tw : Int) (best : Option String) :
    Realised pw W (initState pw W tw best) := by
  refine ⟨?_, ?_⟩
  · intro x hx
    have hx1 : x = boundedRoot pw W := by simpa [initState] using hx
    subst hx1
    exact ⟨[], denotes_boundedRoot pw W⟩
  · intro h
    simp [initState] at h

theorem realised_discard (pw : List node) (W : Int) (s : BFSState) (v : node)
    (q : PriorityQueue) (h : Realised pw W s) (hPQ : s.PQ = v :: q) :
    Realised pw W { s with PQ := q, i := s.i + 1 } :=
  ⟨fun x hx => h.1 x (by rw [hPQ]; exact List.mem_cons_of_mem _ hx), h.2⟩

theorem realised_expandState (pw : List node) (W : Int) (s : BFSState) (v : node)
    (q : PriorityQueue) (it : node) (h : Realised pw W s) (hPQ : s.PQ = v :: q)
    (hat : nodeAt pw (v.level + 1) = some it) : Realised pw W (expandState pw W s v q it) := by
  obtain ⟨ds, hds⟩ := h.1 v (by rw [hPQ]; exact List.mem_cons_self _ _)
  refine ⟨?_, ?_⟩
  · intro x hx
    rcases (mem_expandState pw W s v q it x).mp hx with ⟨rfl, _⟩ | ⟨rfl, _⟩ | hxq
    · exact ⟨_, denotes_boundedExclude pw W v it ds hds hat⟩
    · exact ⟨_, denotes_boundedInclude pw W v it ds hds hat⟩
    · exact h.1 x (by rw [hPQ]; exact List.mem_cons_of_mem _ hxq)
  · rw [expandState_maxprofit, expandState_tw, expandState_best]
    by_cases hc : v.weight + it.weight ≤ W ∧ s.maxprofit < v.profit + it.profit
    · rw [if_pos hc, if_pos hc, if_pos hc]
      intro _
      obtain ⟨hlen, hle, hname, hp, hw⟩ := denotes_boundedInclude pw W v it ds hds hat
      refine ⟨ds ++ [true], hle, ?_, ?_, ?_, hc.1⟩
      · rw [← hname, boundedInclude_name]
      · rw [← hp, boundedInclude_profit]
      · rw [← hw, boundedInclude_weight]
    · rw [if_neg hc, if_neg hc, if_neg hc]
      exact h.2

/-! ## No feasible selection is lost -/

theorem covered_initState (pw : List node) (W tw : Int) (best : Option String) :
    Covered pw W (initState pw W tw best) := by
  intro S hS hfit
  right
  refine ⟨boundedRoot pw W, by simp [initState], S, ?_, ?_, ?_⟩
  · simpa [remaining, boundedRoot, rootNode] using hS
  · simpa [boundedRoot, rootNode] using hfit
  · simp [boundedRoot, rootNode]

theorem covered_discard (pw : List node) (W : Int) (s : BFSState) (v : node)
    (q : PriorityQueue) (hprep : Prepared pw) (hinv : QueueInv pw W s) (h : Covered pw W s)
    (hPQ : s.PQ = v :: q) (hnp : ¬ (s.maxprofit : ℚ) < v.bound) :
    Covered pw W { s with PQ := q, i := s.i + 1 } := by
  intro S hS hfit
  rcases h S hS hfit with hle | ⟨x, hx, T, hT, hTfit, hST⟩
  · exact Or.inl hle
  · rw [hPQ] at hx
    rcases List.mem_cons.mp hx with rfl | hxq
    · left
      obtain ⟨_, _, hp, hb⟩ := hinv.2 x (by rw [hPQ]; exact List.mem_cons_self _ _)
      have := completion_le_of_not_promising pw W s.maxprofit x hprep hb hnp (fun _ => hp)
        T hT hTfit
      show sumP S ≤ s.maxprofit
      omega
    · exact Or.inr ⟨x, hxq, T, hT, hTfit, hST⟩

theorem covered_expandState (pw : List node) (W : Int) (s : BFSState) (v : node)
    (q : PriorityQueue) (it : node) (hprep : Prepared pw)
    (h : Covered pw W s) (hPQ : s.PQ = v :: q) (hw : v.weight < W)
    (hrem : remaining pw v.level = it :: remaining pw (v.level + 1)) :
    Covered pw W (expandState pw W s v q it) := by
  have hmono := le_expandState_maxprofit pw W s v q it
  intro S hS hfit
  rcases h S hS hfit with hle | ⟨x, hx, T, hT, hTfit, hST⟩
  · exact Or.inl (le_trans hle hmono)
  · rw [hPQ] at hx
    rcases List.mem_cons.mp hx with rfl | hxq
    · rw [hrem] at hT
      cases hT with
      | cons _ hT1 =>
        by_cases hprom : ((expandState pw W s x q it).maxprofit : ℚ)
            < (boundedExclude pw W x it).bound
        · right
          exact ⟨boundedExclude pw W x it,
            (mem_expandState pw W s x q it _).mpr (Or.inl ⟨rfl, hprom⟩), T, hT1, hTfit, hST⟩
        · left
          have := completion_le_of_not_promising pw W (expandState pw W s x q it).maxprofit
            (boundedExclude pw W x it) hprep (boundedExclude_bound pw W x it) hprom
            (fun hge => by rw [boundedExclude_weight] at hge; omega) T hT1 hTfit
          rw [boundedExclude_profit] at this
          omega
      | cons₂ _ hT1 =>
        rename_i T1
        rw [sumW_cons] at hTfit
        rw [sumP_cons] at hST
        have hfit1 : (boundedInclude pw W x it).weight + sumW T1 ≤ W := by
          rw [boundedInclude_weight]; omega
        by_cases hprom : ((expandState pw W s x q it).maxprofit : ℚ)
            < (boundedInclude pw W x it).bound
        · right
          refine ⟨boundedInclude pw W x it,
            (mem_expandState pw W s x q it _).mpr (Or.inr (Or.inl ⟨rfl, hprom⟩)), T1, hT1,
            hfit1, ?_⟩
          rw [boundedInclude_profit]; omega
        · left
          have hsub := remaining_sublist pw (x.level + 1)
          have hT1nn := sumW_nonneg T1
            (fun y hy => (hprep.1 y (hsub.subset (hT1.subset hy))).1)
          have := completion_le_of_not_promising pw W (expandState pw W s x q it).maxprofit
            (boundedInclude pw W x it) hprep (boundedInclude_bound pw W x it) hprom
            (fun hge => by
              rw [boundedInclude_weight] at hge
              rw [boundedInclude_profit, expandState_maxprofit]
              split
              · exact le_rfl
              · rename_i hc
                have : ¬ s.maxprofit < x.profit + it.profit := fun hlt => hc ⟨by omega, hlt⟩
                omega)
            T1 hT1 hfit1
          rw [boundedInclude_profit] at this
          omega
    · right
      exact ⟨x, (mem_expandState pw W s v q it x).mpr (Or.inr (Or.inr hxq)), T, hT, hTfit, hST⟩

/-- A state of the loop with a realised best selection has a feasible profit in `maxprofit`. -/
theorem feasibleProfit_of_realised (pw : List node) (W : Int) (s : BFSState) (hW : 0 ≤ W)
    (h0 : 0 ≤ s.maxprofit) (h : Realised pw W s) : FeasibleProfit pw W s.maxprofit := by
  by_cases hpos : 0 < s.maxprofit
  · obtain ⟨ds, _, _, hp, hw, hle⟩ := h.2 hpos
    exact ⟨selItems pw ds, selItems_sublist pw ds, by omega, hp⟩
  · exact ⟨[], List.nil_sublist _, by simpa [sumW_nil] using hW, by simp [sumP_nil]; omega⟩

/-! ## The claims -/

/-- Optimality in exact arithmetic: on items with positive weights and profits in
non-increasing order of their ratio `pw = profit / weight`, and for a capacity `W ≥ 0`, the call
of `bestFirstSearch` returns, and the `maxprofit` it returns is the greatest total profit of a
selection of the items whose total weight is at most `W`. -/
theorem bestFirstSearch_optimal (pw : List node) (W tw : Int) (best : Option String)
    (hprep : Prepared pw) (hW : 0 ≤ W) :
    ∃ r, Returns pw W tw best r ∧ IsGreatest {p | FeasibleProfit pw W p} r.1 := by
  obtain ⟨s1, hret, hempty, ⟨hreal, hcov⟩, hinv⟩ := returns_induction pw W tw best
    (fun s => Realised pw W s ∧ Covered pw W s)
    ⟨realised_initState pw W tw best, covered_initState pw W tw best⟩
    (fun s v q hinv hP hPQ hnp =>
      ⟨realised_discard pw W s v q hP.1 hPQ, covered_discard pw W s v q hprep hinv hP.2 hPQ hnp⟩)
    (fun s v q it _ hP hPQ _ hw _ hat _ hrem =>
      ⟨realised_expandState pw W s v q it hP.1 hPQ hat,
        covered_expandState pw W s v q it hprep hP.2 hPQ hw hrem⟩)
  refine ⟨_, hret, feasibleProfit_of_realised pw W s1 hW hinv.1 hreal, ?_⟩
  rintro p ⟨S, hS, hfit, rfl⟩
  rcases hcov S hS hfit with hle | ⟨x, hx, _⟩
  · exact hle
  · rw [hempty] at hx
    simp at hx

/-- In exact arithmetic the returned solution is realised by a selection: the call returns, and
when the `maxprofit` it returns is positive, the name left in `*best` spells a sequence of
include/exclude decisions over the items 0, 1, .., k (each item decided once), the profits of the
included items sum to the returned `maxprofit` and their weights to the value left in `*tw`. -/
theorem best_selection_realised (pw : List node) (W tw : Int) (best : Option String) :
    ∃ r, Returns pw W tw best r ∧
      (0 < r.1 → ∃ ds : List Bool, ds.length ≤ pw.length ∧ r.2.2 = some (selName pw ds) ∧
        sumP (selItems pw ds) = r.1 ∧ sumW (selItems pw ds) = r.2.1) := by
  obtain ⟨s1, hret, _, hreal, _⟩ := returns_induction pw W tw best (fun s => Realised pw W s)
    (realised_initState pw W tw best)
    (fun s v q _ hP hPQ _ => realised_discard pw W s v q hP hPQ)
    (fun s v q it _ hP hPQ _ _ _ hat _ _ => realised_expandState pw W s v q it hP hPQ hat)
  refine ⟨_, hret, fun hpos => ?_⟩
  obtain ⟨ds, hlen, hbest, hp, hw, _⟩ := hreal.2 hpos
  exact ⟨ds, hlen, hbest, hp, hw⟩

/-- C3. Feasibility: for a capacity `W ≥ 0` and `*tw` set to 0 by the caller, the call returns
and the value left in `*tw` is at most `W`. -/
theorem totalWeight_le_capacity (pw : List node) (W : Int) (best : Option String)
    (hW : 0 ≤ W) : ∃ r, Returns pw W 0 best r ∧ r.2.1 ≤ W := by
  obtain ⟨s1, hret, _, hP, _⟩ := returns_induction pw W 0 best (fun s => s.tw ≤ W)
    (by simpa [initState] using hW)
    (fun s v q _ hP _ _ => hP)
    (fun s v q it _ hP _ _ _ _ _ _ _ => by
      show (expandState pw W s v q it).tw ≤ W
      rw [expandState_tw]
      split
      · rename_i hc; exact hc.1
      · exact hP)
  exact ⟨_, hret, hP⟩

/-- C3, at the three items A, B, C with capacity 50. -/
theorem totalWeight_le_capacity_witness :
    (0 : Int) ≤ 50 ∧ ∃ r, Returns itemsABC 50 0 none r ∧ r.2.1 ≤ 50 :=
  ⟨by decide, totalWeight_le_capacity itemsABC 50 none (by decide)⟩

/-- C4 as stated fails: in the run on the items A, B, C with capacity 50 the fifth iteration
builds the include-child `root-&B&C` of weight 50; `bound` gives it 0, less than the profit 220
of the node itself, which is a feasible completion. -/
theorem bound_inadmissible_at_capacity :
    Prepared itemsABC ∧ includeChildAfter itemsABC 3 50 4 = some nodeBC ∧
      ¬ Admissible itemsABC 50 nodeBC nodeBC.bound := by
  refine ⟨by decide!, by decide!, ?_⟩
  intro h
  have h1 := h [] (List.nil_sublist _) (by decide)
  norm_num [nodeBC, sumP_nil] at h1

/-- Admissibility in exact arithmetic: on items with positive weights and profits in
non-increasing order of their ratio, for every node of level -1 to `n - 1` whose weight is not
exactly `W`, or is `W` with a profit of 0 (the root when `W = 0`), `bound` stores a value that is
at least the profit of every feasible completion of the node. -/
theorem bound_admissible_off_capacity (pw : List node) (W : Int) (x : node)
    (hprep : Prepared pw) (hl : -1 ≤ x.level) (hn : x.level + 1 ≤ (pw.length : Int))
    (hw : x.weight ≠ W ∨ x.profit ≤ 0) :
    ∃ y, bound x pw (pw.length : Int) W = some y ∧ Admissible pw W x y.bound := by
  refine ⟨_, bound_eq pw W x hl hn, ?_⟩
  rcases lt_trichotomy x.weight W with hlt | heq | hgt
  · exact admissible_boundValue pw W x hprep hlt
  · have hp : x.profit ≤ 0 := by
      rcases hw with hne | hp
      · exact absurd heq hne
      · exact hp
    have h0 : boundValue pw W x = 0 := by simp [boundValue, heq]
    show Admissible pw W x (boundValue pw W x)
    rw [h0]
    exact admissible_of_eq pw W x hprep heq hp
  · exact admissible_of_gt pw W x _ hprep hgt

/-- C5. The first scenario: on the items A (60, 10), B (100, 20), C (120, 30) with `W = 50`
the call returns `maxprofit = 220` with `*tw = 50` and `*best = "root-&B&C"`, the name of the
decisions exclude A, include B, include C, which pick exactly B and C. -/
theorem scenario_ABC :
    Returns itemsABC 50 0 none (220, 50, some "root-&B&C") ∧
      selName itemsABC [false, true, true] = "root-&B&C" ∧
      selItems itemsABC [false, true, true] = [mkItem "B" 100 20, mkItem "C" 120 30] :=
  ⟨returns_of_eq_some itemsABC 50 0 none 6 _ (by decide!), by decide!, by decide!⟩

/-- C6. When every item weighs more than `W`, the call returns `maxprofit = 0` and leaves `*tw`
and `*best` as the caller set them (0 and `NULL` in `main`): they are never written. -/
theorem nothing_fits (pw : List node) (W tw : Int) (best : Option String)
    (hheavy : ∀ it ∈ pw, W < it.weight) : Returns pw W tw best (0, tw, best) := by
  obtain ⟨s1, hret, _, ⟨h1, h2, h3, _⟩, _⟩ := returns_induction pw W tw best
    (fun s => s.maxprofit = 0 ∧ s.tw = tw ∧ s.best = best ∧ ∀ x ∈ s.PQ, x.weight = 0)
    ⟨rfl, rfl, rfl, fun x hx => by
      have hx1 : x = boundedRoot pw W := by simpa [initState] using hx
      subst hx1; rfl⟩
    (fun s v q _ hP hPQ _ =>
      ⟨hP.1, hP.2.1, hP.2.2.1, fun x hx => hP.2.2.2 x (by rw [hPQ]; exact List.mem_cons_of_mem _ hx)⟩)
    (fun s v q it _ hP hPQ _ _ _ _ hmem _ => by
      have hv0 : v.weight = 0 := hP.2.2.2 v (by rw [hPQ]; exact List.mem_cons_self _ _)
      have hit := hheavy it hmem
      have hc : ¬ (v.weight + it.weight ≤ W ∧ s.maxprofit < v.profit + it.profit) :=
        fun hc => by omega
      have hmp : (expandState pw W s v q it).maxprofit = 0 := by
        rw [expandState_maxprofit, if_neg hc]; exact hP.1
      refine ⟨hmp, ?_, ?_, ?_⟩
      · rw [expandState_tw, if_neg hc]; exact hP.2.1
      · rw [expandState_best, if_neg hc]; exact hP.2.2.1
      · intro x hx
        rcases (mem_expandState pw W s v q it x).mp hx with ⟨rfl, _⟩ | ⟨rfl, hprom⟩ | hxq
        · rw [boundedExclude_weight]; exact hv0
        · exfalso
          rw [boundedInclude_bound_of_ge pw W v it (by omega), hmp] at hprom
          simp at hprom
        · exact hP.2.2.2 x (by rw [hPQ]; exact List.mem_cons_of_mem _ hxq))
  rw [h1, h2, h3] at hret
  exact hret

/-- C6, at the second scenario: the single item X (10, 5) with `W = 1`. -/
theorem nothing_fits_witness :
    (∀ it ∈ itemsX, (1 : Int) < it.weight) ∧ Returns itemsX 1 0 none (0, 0, none) :=
  ⟨by decide, nothing_fits itemsX 1 0 none (by decide)⟩

/-- C7. Empty item set: for `n = 0` and every `W` the root is enqueued with bound 0, the first
iteration dequeues it, finds it not promising and leaves the queue empty, and the call returns
`maxprofit = 0`; the array, which has no element, is never read. -/
theorem empty_item_set (W tw : Int) (best : Option String) :
    bfsInit [] 0 W tw best
        = some { PQ := [{ rootNode with bound := 0 }], maxprofit := 0, tw := tw, best := best,
                 i := 0 } ∧
      bfsIter [] 0 W
          { PQ := [{ rootNode with bound := 0 }], maxprofit := 0, tw := tw, best := best,
            i := 0 }
        = some { PQ := [], maxprofit := 0, tw := tw, best := best, i := 1 } ∧
      Returns [] W tw best (0, tw, best) := by
  have hb : bound rootNode [] 0 W = some { rootNode with bound := 0 } := by
    by_cases hW : (0 : Int) < W
    · simp [bound, rootNode, hW, boundLoop, boundFraction]
    · simp [bound, rootNode, hW]
  have hinit : bfsInit [] 0 W tw best
      = some { PQ := [{ rootNode with bound := 0 }], maxprofit := 0, tw := tw, best := best,
               i := 0 } := by
    simp [bfsInit, hb, insertNode, initQueue]
  have hiter : bfsIter [] 0 W
        { PQ := [{ rootNode with bound := 0 }], maxprofit := 0, tw := tw, best := best,
          i := 0 }
      = some { PQ := [], maxprofit := 0, tw := tw, best := best, i := 1 } := by
    simp [bfsIter, removeNode]
  refine ⟨hinit, hiter, ?_⟩
  apply returns_of_eq_some [] W tw best 1
  simp only [bestFirstSearch, List.length_nil, Nat.cast_zero, hinit, bfsLoop, isEmptyQueue,
    hiter]
  simp

/-- C8. Degenerate capacity: for every item array, `bestFirstSearch` called with `W = 0`
returns `maxprofit = 0` (after one iteration, leaving `*tw` and `*best` untouched). -/
theorem zero_capacity (pw : List node) (tw : Int) (best : Option String) :
    bestFirstSearch 1 pw (pw.length : Int) 0 tw best = some (0, tw, best) ∧
      Returns pw 0 tw best (0, tw, best) := by
  have h : bestFirstSearch 1 pw (pw.length : Int) 0 tw best = some (0, tw, best) := by
    simp [bestFirstSearch, bfsInit, bound, rootNode, insertNode, initQueue, bfsLoop,
      isEmptyQueue, bfsIter, removeNode]
  exact ⟨h, returns_of_eq_some pw 0 tw best 1 _ h⟩

/-- C9. Monotonic best: `maxprofit` is 0 at the head of the loop; an iteration never
decreases it; and when an iteration changes it, the iteration dequeued a promising node `v`,
the include-child `u` of `v` has `u.weight ≤ W` and `u.profit > maxprofit`, and the new value
is `u.profit`. -/
theorem maxprofit_monotone (pw : List node) (n W : Int) :
    (∀ tw best s0, bfsInit pw n W tw best = some s0 → s0.maxprofit = 0) ∧
      ∀ s s1, bfsIter pw n W s = some s1 →
        s.maxprofit ≤ s1.maxprofit ∧
        (s1.maxprofit ≠ s.maxprofit →
          ∃ v q it, removeNode s.PQ = some (v, q) ∧ (s.maxprofit : ℚ) < v.bound ∧
            nodeAt pw (v.level + 1) = some it ∧ (includeChild v it).weight ≤ W ∧
            s.maxprofit < (includeChild v it).profit ∧
            s1.maxprofit = (includeChild v it).profit) := by
  constructor
  · intro tw best s0 h
    unfold bfsInit at h
    cases hb : bound rootNode pw n W with
    | none => simp [hb] at h
    | some v =>
      simp only [hb, Option.some.injEq] at h
      rw [← h]
  · intro s s1 h
    unfold bfsIter at h
    cases hrem : removeNode s.PQ with
    | none => simp [hrem] at h
    | some vq =>
      obtain ⟨v, q⟩ := vq
      simp only [hrem] at h
      by_cases hprom : (s.maxprofit : ℚ) < v.bound
      · simp only [hprom, if_true] at h
        cases hat : nodeAt pw (v.level + 1) with
        | none => simp [hat] at h
        | some it =>
          simp only [hat] at h
          cases hb1 : bound (includeChild v it) pw n W with
          | none => simp [hb1] at h
          | some u1 =>
            simp only [hb1] at h
            cases hb2 : bound (excludeChild v u1) pw n W with
            | none => simp [hb2] at h
            | some u2 =>
              simp only [hb2, Option.some.injEq] at h
              have hmp : s1.maxprofit
                  = if (includeChild v it).weight ≤ W ∧ s.maxprofit < (includeChild v it).profit
                    then (includeChild v it).profit else s.maxprofit := by
                rw [← h]
                simp only [enqueueIfPromising_maxprofit, recordBest_maxprofit]
              by_cases hc : (includeChild v it).weight ≤ W ∧
                  s.maxprofit < (includeChild v it).profit
              · rw [if_pos hc] at hmp
                exact ⟨by omega, fun _ => ⟨v, q, it, rfl, hprom, hat, hc.1, hc.2, hmp⟩⟩
              · rw [if_neg hc] at hmp
                exact ⟨by omega, fun hne => absurd hmp hne⟩
      · simp only [hprom, if_false, Option.some.injEq] at h
        rw [← h]
        exact ⟨le_rfl, fun hne => absurd rfl hne⟩

theorem compareNode_le_zero (a b : node) : compareNode a b ≤ 0 ↔ b.pw ≤ a.pw := by
  unfold compareNode
  split
  · rename_i h; simp [h.le]
  · rename_i h
    split
    · rename_i h1; simp [h1]
    · rename_i h1; simp [not_lt.mp h1]

/-- C10. Item preprocessing: the array that `main` passes to `bestFirstSearch` after
`qsort( pw, n, sizeof(node), compareNode )` is a permutation of the records it read, and the
ratio `pw` does not increase from index 0 to `n - 1`. -/
theorem sort_step_perm_sorted (pw : List node) :
    (qsort compareNode pw).Perm pw ∧
      (qsort compareNode pw).Pairwise (fun a b => b.pw ≤ a.pw) := by
  refine ⟨List.perm_insertionSort _ pw, ?_⟩
  haveI : IsTotal node (fun a b => compareNode a b ≤ 0) :=
    ⟨fun a b => by
      simp only [compareNode_le_zero]
      exact le_total b.pw a.pw⟩
  haveI : IsTrans node (fun a b => compareNode a b ≤ 0) :=
    ⟨fun a b c hab hbc => by
      simp only [compareNode_le_zero] at hab hbc ⊢
      exact le_trans hbc hab⟩
  have h := List.sorted_insertionSort (fun a b => compareNode a b ≤ 0) pw
  exact List.Pairwise.imp (fun {a b} hab => (compareNode_le_zero a b).mp hab) h

/-! ## The states a run goes through -/

theorem stateAfter_eq (pw : List node) (W tw : Int) (best : Option String) (k : Nat) :
    stateAfter pw W tw best k
      = bfsSteps pw (pw.length : Int) W k (initState pw W tw best) := by
  simp [stateAfter, bfsInit_eq]

/-- Induction over the iterations of a run: a property that holds at the head of the loop and is
kept by a discard and by an expansion holds after any number of iterations, together with the
queue invariant. -/
theorem bfsSteps_induction (pw : List node) (W : Int) (P : BFSState → Prop)
    (hdiscard : ∀ s v q, QueueInv pw W s → P s → s.PQ = v :: q → ¬ (s.maxprofit : ℚ) < v.bound →
      P { s with PQ := q, i := s.i + 1 })
    (hexpand : ∀ s v q it, QueueInv pw W s → P s → s.PQ = v :: q → (s.maxprofit : ℚ) < v.bound →
      v.weight < W → v.level + 1 < (pw.length : Int) → nodeAt pw (v.level + 1) = some it →
      it ∈ pw → remaining pw v.level = it :: remaining pw (v.level + 1) →
      P (expandState pw W s v q it)) :
    ∀ (k : Nat) (s s1 : BFSState), QueueInv pw W s → P s →
      bfsSteps pw (pw.length : Int) W k s = some s1 → P s1 ∧ QueueInv pw W s1 := by
  intro k
  induction k with
  | zero =>
    intro s s1 hinv hP h
    simp only [bfsSteps, Option.some.injEq] at h
    subst h
    exact ⟨hP, hinv⟩
  | succ k ih =>
    intro s s1 hinv hP h
    by_cases hempty : s.PQ = []
    · simp [bfsSteps, bfsIter, hempty, removeNode] at h
    · obtain ⟨v, q, hPQ, hcase⟩ := bfsIter_cases pw W s hinv hempty
      rcases hcase with ⟨hnp, hiter⟩ | ⟨hp, hw, hlt, it, hat, hmem, hrem, hiter⟩
      · simp only [bfsSteps, hiter] at h
        exact ih _ s1 (queueInv_discard pw W s v q hinv hPQ) (hdiscard s v q hinv hP hPQ hnp) h
      · simp only [bfsSteps, hiter] at h
        exact ih _ s1 (queueInv_expandState pw W s v q it hinv hPQ hp)
          (hexpand s v q it hinv hP hPQ hp hw hlt hat hmem hrem) h

/-- Induction over the iterations of a run, from the start of `bestFirstSearch`. -/
theorem stateAfter_induction (pw : List node) (W tw : Int) (best : Option String)
    (P : BFSState → Prop) (hinit : P (initState pw W tw best))
    (hdiscard : ∀ s v q, QueueInv pw W s → P s → s.PQ = v :: q → ¬ (s.maxprofit : ℚ) < v.bound →
      P { s with PQ := q, i := s.i + 1 })
    (hexpand : ∀ s v q it, QueueInv pw W s → P s → s.PQ = v :: q → (s.maxprofit : ℚ) < v.bound →
      v.weight < W → v.level + 1 < (pw.length : Int) → nodeAt pw (v.level + 1) = some it →
      it ∈ pw → remaining pw v.level = it :: remaining pw (v.level + 1) →
      P (expandState pw W s v q it))
    (k : Nat) (s : BFSState) (h : stateAfter pw W tw best k = some s) :
    P s ∧ QueueInv pw W s := by
  rw [stateAfter_eq] at h
  exact bfsSteps_induction pw W P hdiscard hexpand k _ s (queueInv_initState pw W tw best)
    hinit h

/-- Every state of a run satisfies the queue invariant. -/
theorem queueInv_stateAfter (pw : List node) (W tw : Int) (best : Option String) (k : Nat)
    (s : BFSState) (h : stateAfter pw W tw best k = some s) : QueueInv pw W s :=
  (stateAfter_induction pw W tw best (fun _ => True) trivial (fun _ _ _ _ _ _ _ => trivial)
    (fun _ _ _ _ _ _ _ _ _ _ _ _ _ => trivial) k s h).2

/-- The loop ends after as many iterations as it used fuel, with an empty queue. -/
theorem bfsLoop_eq_bfsSteps (pw : List node) (n W : Int) :
    ∀ (fuel : Nat) (s s1 : BFSState), bfsLoop pw n W fuel s = some s1 →
      ∃ k, k ≤ fuel ∧ bfsSteps pw n W k s = some s1 ∧ s1.PQ = [] := by
  intro fuel
  induction fuel with
  | zero =>
    intro s s1 h
    by_cases he : isEmptyQueue s.PQ = true
    · simp only [bfsLoop, he, if_true, Option.some.injEq] at h
      subst h
      exact ⟨0, le_rfl, rfl, by simpa [isEmptyQueue] using he⟩
    · simp [bfsLoop, he] at h
  | succ fuel ih =>
    intro s s1 h
    by_cases he : isEmptyQueue s.PQ = true
    · simp only [bfsLoop, he, if_true, Option.some.injEq] at h
      subst h
      exact ⟨0, Nat.zero_le _, rfl, by simpa [isEmptyQueue] using he⟩
    · simp only [bfsLoop, he] at h
      cases hiter : bfsIter pw n W s with
      | none => simp [hiter] at h
      | some s2 =>
        simp only [hiter] at h
        obtain ⟨k, hk, hsteps, hempty⟩ := ih s2 s1 h
        exact ⟨k + 1, by omega, by simp only [bfsSteps, hiter]; exact hsteps, hempty⟩

/-- C17. Termination: for every item array and every `W` the loop of `bestFirstSearch` reaches an
empty queue after at most `2 ^ (n + 1) - 1` iterations, the number of vertices of the state space
tree, and the call returns what the loop state then holds. -/
theorem bestFirstSearch_terminates (pw : List node) (W tw : Int) (best : Option String) :
    ∃ k s1, k ≤ 2 ^ (pw.length + 1) - 1 ∧ stateAfter pw W tw best k = some s1 ∧ s1.PQ = [] ∧
      Returns pw W tw best (s1.maxprofit, s1.tw, s1.best) := by
  obtain ⟨s1, hloop, _, _, _⟩ := bfsLoop_induction pw W (fun _ => True)
    (fun _ _ _ _ _ _ _ => trivial) (fun _ _ _ _ _ _ _ _ _ _ _ _ _ => trivial)
    (2 ^ (pw.length + 1) - 1) (initState pw W tw best) (queueInv_initState pw W tw best)
    trivial (by rw [workLeft_initState])
  obtain ⟨k, hk, hsteps, hempty⟩ := bfsLoop_eq_bfsSteps pw _ W _ _ s1 hloop
  refine ⟨k, s1, hk, by rw [stateAfter_eq]; exact hsteps, hempty, ?_⟩
  exact returns_of_eq_some pw W tw best (2 ^ (pw.length + 1) - 1) _
    (by simp [bestFirstSearch, bfsInit_eq, hloop])

/-- C18. Index safety: in every state of a run, a dequeued node `v` that passes the test
`v.bound > maxprofit` has `0 ≤ v.level + 1 < n`, so the read `pw[v.level + 1]` is inside the
array; and a queued node of level `n - 1` is the root of a run on an empty array. -/
theorem expansion_index_in_range (pw : List node) (W tw : Int) (best : Option String)
    (k : Nat) (s : BFSState) (hs : stateAfter pw W tw best k = some s) :
    (∀ v q, removeNode s.PQ = some (v, q) → (s.maxprofit : ℚ) < v.bound →
      0 ≤ v.level + 1 ∧ v.level + 1 < (pw.length : Int) ∧
        ∃ it, nodeAt pw (v.level + 1) = some it) ∧
    (∀ x ∈ s.PQ, x.level = (pw.length : Int) - 1 →
      pw = [] ∧ x = { rootNode with bound := 0 }) := by
  obtain ⟨hP, hinv⟩ := stateAfter_induction pw W tw best
    (fun s => ∀ x ∈ s.PQ, x.level + 1 < (pw.length : Int) ∨ (pw = [] ∧ x = boundedRoot pw W))
    (fun x hx => by
      have hx1 : x = boundedRoot pw W := by simpa [initState] using hx
      subst hx1
      cases pw with
      | nil => exact Or.inr ⟨rfl, rfl⟩
      | cons a pw => left; simp [boundedRoot, rootNode])
    (fun s v q _ hP hPQ _ x hx => hP x (by rw [hPQ]; exact List.mem_cons_of_mem _ hx))
    (fun s v q it hinv hP hPQ hp _ _ _ _ _ x hx => by
      have hinv1 := queueInv_expandState pw W s v q it hinv hPQ hp
      rcases (mem_expandState pw W s v q it x).mp hx with ⟨rfl, hprom⟩ | ⟨rfl, hprom⟩ | hxq
      · exact Or.inl (promising_lt pw W _ _ hinv1 hx hprom).2
      · exact Or.inl (promising_lt pw W _ _ hinv1 hx hprom).2
      · exact hP x (by rw [hPQ]; exact List.mem_cons_of_mem _ hxq))
    k s hs
  refine ⟨?_, ?_⟩
  · intro v q hrem hp
    have hPQ := removeNode_eq_some s.PQ q v hrem
    have hv : v ∈ s.PQ := by rw [hPQ]; exact List.mem_cons_self _ _
    obtain ⟨it, hat, _, _, _⟩ := bfsIter_expand pw W s v q hinv hPQ hp
    have hl := (hinv.2 v hv).1
    exact ⟨by omega, (promising_lt pw W s v hinv hv hp).2, it, hat⟩
  · intro x hx hlast
    rcases hP x hx with hlt | ⟨hnil, hroot⟩
    · omega
    · subst hnil
      refine ⟨rfl, ?_⟩
      rw [hroot]
      simp [boundedRoot, boundValue, remaining, fracBound, rootNode]

/-- C18, at the head of the loop in the first scenario: the root is dequeued and `pw[0]` read. -/
theorem expansion_index_in_range_witness :
    stateAfter itemsABC 50 0 none 0 = some stateABC0 ∧
      ((∀ v q, removeNode stateABC0.PQ = some (v, q) → (stateABC0.maxprofit : ℚ) < v.bound →
        0 ≤ v.level + 1 ∧ v.level + 1 < (itemsABC.length : Int) ∧
          ∃ it, nodeAt itemsABC (v.level + 1) = some it) ∧
      (∀ x ∈ stateABC0.PQ, x.level = (itemsABC.length : Int) - 1 →
        itemsABC = [] ∧ x = { rootNode with bound := 0 })) :=
  ⟨by decide!, expansion_index_in_range itemsABC 50 0 none 0 stateABC0 (by decide!)⟩

/-! ## The enqueue tests -/

/-- The function `bound` changes the field `bound` only, and sets it to 0 on a node that weighs
`W` or more. -/
theorem bound_fields (pw : List node) (n W : Int) (x y : node) (h : bound x pw n W = some y) :
    y = { x with bound := y.bound } ∧ (W ≤ x.weight → y.bound = 0) := by
  unfold bound at h
  by_cases hw : x.weight < W
  · simp only [hw, if_true] at h
    cases hb : (boundLoop pw n W (n - (x.level + 1)).toNat (x.level + 1) x.weight
        (x.profit : ℚ)).bind (boundFraction pw n W) with
    | none => simp [hb] at h
    | some r =>
      simp only [hb, Option.some.injEq] at h
      subst h
      exact ⟨rfl, fun hge => by omega⟩
  · simp only [hw, if_false, Option.some.injEq] at h
    subst h
    exact ⟨rfl, fun _ => rfl⟩

/-- With `maxprofit ≥ 0`, the test of the code and the test of the specification make the same
decision on a node that `bound` has returned. -/
theorem enqueueIfPromising_eq_spec (W : Int) (s : BFSState) (u : node) (h0 : 0 ≤ s.maxprofit)
    (hb : W ≤ u.weight → u.bound = 0) :
    enqueueIfPromising s u = enqueueIfFitsAndPromising W s u := by
  unfold enqueueIfPromising enqueueIfFitsAndPromising
  have h0q : (0 : ℚ) ≤ (s.maxprofit : ℚ) := by exact_mod_cast h0
  by_cases hp : (s.maxprofit : ℚ) < u.bound
  · have hfit : u.weight ≤ W := by
      by_contra hgt
      rw [hb (by omega)] at hp
      linarith
    simp [hp, hfit]
  · simp [hp]

/-- An iteration of the code and of the specification agree on a state with `maxprofit ≥ 0`. -/
theorem bfsIter_eq_bfsIterSpec (pw : List node) (n W : Int) (s : BFSState)
    (h0 : 0 ≤ s.maxprofit) : bfsIter pw n W s = bfsIterSpec pw n W s := by
  unfold bfsIter bfsIterSpec
  cases hrem : removeNode s.PQ with
  | none => rfl
  | some vq =>
    obtain ⟨v, q⟩ := vq
    simp only []
    split
    · cases hat : nodeAt pw (v.level + 1) with
      | none => rfl
      | some it =>
        simp only []
        cases hb1 : bound (includeChild v it) pw n W with
        | none => rfl
        | some u1 =>
          simp only []
          have hmp : 0 ≤ (recordBest W { s with PQ := q } (includeChild v it)).maxprofit :=
            le_trans h0 (le_recordBest_maxprofit W { s with PQ := q } (includeChild v it))
          have hzero : W ≤ u1.weight → u1.bound = 0 := by
            intro hge
            obtain ⟨hu, hz⟩ := bound_fields pw n W _ u1 hb1
            apply hz
            rw [hu] at hge
            exact hge
          rw [enqueueIfPromising_eq_spec W _ u1 hmp hzero]
    · rfl

/-- C13. An over-capacity include-child is never enqueued: in every state of a run, an iteration
of the code with its test `u.bound > maxprofit` does what the iteration with the specified test
`u.weight <= W` and `u.bound > maxProfit` does; an include-child with `u.weight > W` gets bound
0 from `bound` and is not inserted; and on the include-child the two tests are equivalent. -/
theorem overweight_child_not_enqueued (pw : List node) (W tw : Int) (best : Option String)
    (k : Nat) (s : BFSState) (hs : stateAfter pw W tw best k = some s) :
    bfsIter pw (pw.length : Int) W s = bfsIterSpec pw (pw.length : Int) W s ∧
    ∀ v q it u, removeNode s.PQ = some (v, q) → nodeAt pw (v.level + 1) = some it →
      bound (includeChild v it) pw (pw.length : Int) W = some u →
      (W < u.weight → u.bound = 0 ∧
        enqueueIfPromising (recordBest W { s with PQ := q } (includeChild v it)) u
          = recordBest W { s with PQ := q } (includeChild v it)) ∧
      (((recordBest W { s with PQ := q } (includeChild v it)).maxprofit : ℚ) < u.bound ↔
        u.weight ≤ W ∧
          ((recordBest W { s with PQ := q } (includeChild v it)).maxprofit : ℚ) < u.bound) := by
  have h0 : 0 ≤ s.maxprofit := (queueInv_stateAfter pw W tw best k s hs).1
  refine ⟨bfsIter_eq_bfsIterSpec pw _ W s h0, ?_⟩
  intro v q it u _ _ hb
  have hmp : 0 ≤ (recordBest W { s with PQ := q } (includeChild v it)).maxprofit :=
    le_trans h0 (le_recordBest_maxprofit W { s with PQ := q } (includeChild v it))
  have hmpq : (0 : ℚ) ≤ ((recordBest W { s with PQ := q } (includeChild v it)).maxprofit : ℚ) := by
    exact_mod_cast hmp
  obtain ⟨hu, hz⟩ := bound_fields pw _ W _ u hb
  have hzero : W ≤ u.weight → u.bound = 0 := by
    intro hge
    apply hz
    rw [hu] at hge
    exact hge
  refine ⟨fun hgt => ?_, ?_⟩
  · have hb0 := hzero (by omega)
    refine ⟨hb0, ?_⟩
    unfold enqueueIfPromising
    rw [hb0, if_neg (by linarith)]
  · constructor
    · intro hp
      refine ⟨?_, hp⟩
      by_contra hgt
      rw [hzero (by omega)] at hp
      linarith
    · exact fun h => h.2

/-- C13, in the first scenario after two iterations: the third iteration builds the
include-child `root&A&B&C` of weight 60 > 50. -/
theorem overweight_child_not_enqueued_witness :
    stateAfter itemsABC 50 0 none 2 = some stateABC2 ∧
    (bfsIter itemsABC (itemsABC.length : Int) 50 stateABC2
        = bfsIterSpec itemsABC (itemsABC.length : Int) 50 stateABC2 ∧
      ∀ v q it u, removeNode stateABC2.PQ = some (v, q) →
        nodeAt itemsABC (v.level + 1) = some it →
        bound (includeChild v it) itemsABC (itemsABC.length : Int) 50 = some u →
        ((50 : Int) < u.weight → u.bound = 0 ∧
          enqueueIfPromising (recordBest 50 { stateABC2 with PQ := q } (includeChild v it)) u
            = recordBest 50 { stateABC2 with PQ := q } (includeChild v it)) ∧
        (((recordBest 50 { stateABC2 with PQ := q } (includeChild v it)).maxprofit : ℚ)
            < u.bound ↔
          u.weight ≤ 50 ∧
            ((recordBest 50 { stateABC2 with PQ := q } (includeChild v it)).maxprofit : ℚ)
              < u.bound)) :=
  ⟨by decide!, overweight_child_not_enqueued itemsABC 50 0 none 2 stateABC2 (by decide!)⟩

/-! ## Insertions -/

/-- What `enqueueIfPromising` adds to the queue: the node, when it passes the test. -/
theorem enqueueIfPromising_perm (s : BFSState) (u : node) :
    (enqueueIfPromising s u).PQ.Perm
      ((if (s.maxprofit : ℚ) < u.bound then [u] else []) ++ s.PQ) := by
  unfold enqueueIfPromising
  split
  · exact insertNode_perm s.PQ u
  · exact List.Perm.refl _

/-- C14 as stated fails: on the empty item array with `W = 100` (third scenario) the root is
inserted into the queue with bound 0 while `maxprofit` is 0; line 259 inserts the root without a
test. -/
theorem root_inserted_unconditionally :
    bfsInit [] 0 100 0 none
        = some { PQ := insertNode initQueue { rootNode with bound := 0 }, maxprofit := 0,
                 tw := 0, best := none, i := 0 } ∧
      ¬ (((0 : Int) : ℚ) < ({ rootNode with bound := 0 } : node).bound) := by
  decide!

/-- C14, amended. In every state of a run, the queue after an iteration is the rest of the queue
(the old queue without the dequeued node) together with the nodes the iteration inserted, and
each of these has a bound greater than `maxprofit` as it stands at its insertion, which is the
`maxprofit` the iteration ends with. -/
theorem loop_insertions_promising (pw : List node) (W tw : Int) (best : Option String)
    (k : Nat) (s s1 : BFSState) (hs : stateAfter pw W tw best k = some s)
    (hiter : bfsIter pw (pw.length : Int) W s = some s1) :
    ∃ v q inserted, s.PQ = v :: q ∧ s1.PQ.Perm (inserted ++ q) ∧
      ∀ x ∈ inserted, (s1.maxprofit : ℚ) < x.bound := by
  have hinv := queueInv_stateAfter pw W tw best k s hs
  have hne : s.PQ ≠ [] := by
    intro hempty
    simp [bfsIter, hempty, removeNode] at hiter
  obtain ⟨v, q, hPQ, hcase⟩ := bfsIter_cases pw W s hinv hne
  refine ⟨v, q, ?_⟩
  rcases hcase with ⟨_, hd⟩ | ⟨_, _, _, it, _, _, _, he⟩
  · rw [hd] at hiter
    have h1 : s1 = { s with PQ := q, i := s.i + 1 } := (Option.some.inj hiter).symm
    refine ⟨[], hPQ, ?_, fun x hx => by simp at hx⟩
    rw [h1]
    exact List.Perm.refl _
  · rw [he] at hiter
    have h1 : s1 = expandState pw W s v q it := (Option.some.inj hiter).symm
    subst h1
    refine ⟨(if ((expandState pw W s v q it).maxprofit : ℚ) < (boundedExclude pw W v it).bound
        then [boundedExclude pw W v it] else []) ++
      (if ((expandState pw W s v q it).maxprofit : ℚ) < (boundedInclude pw W v it).bound
        then [boundedInclude pw W v it] else []), hPQ, ?_, ?_⟩
    · have hmp1 : (expandState pw W s v q it).maxprofit
          = (recordBest W { s with PQ := q } (includeChild v it)).maxprofit := by
        simp only [expandState, enqueueIfPromising_maxprofit]
      have p2 := enqueueIfPromising_perm
        (enqueueIfPromising (recordBest W { s with PQ := q } (includeChild v it))
          (boundedInclude pw W v it)) (boundedExclude pw W v it)
      have p1 := enqueueIfPromising_perm (recordBest W { s with PQ := q } (includeChild v it))
        (boundedInclude pw W v it)
      rw [enqueueIfPromising_maxprofit, ← hmp1] at p2
      rw [← hmp1, recordBest_PQ] at p1
      have hq : (expandState pw W s v q it).PQ = (enqueueIfPromising
          (enqueueIfPromising (recordBest W { s with PQ := q } (includeChild v it))
            (boundedInclude pw W v it)) (boundedExclude pw W v it)).PQ := rfl
      rw [hq, List.append_assoc]
      exact p2.trans (List.Perm.append_left _ p1)
    · intro x hx
      rcases List.mem_append.mp hx with hx | hx
      · split at hx
        · rename_i hp
          rw [List.mem_singleton.mp hx]; exact hp
        · simp at hx
      · split at hx
        · rename_i hp
          rw [List.mem_singleton.mp hx]; exact hp
        · simp at hx

/-- C14 amended, at the first iteration of the first scenario, which inserts both children of
the root. -/
theorem loop_insertions_promising_witness :
    stateAfter itemsABC 50 0 none 0 = some stateABC0 ∧
      bfsIter itemsABC (itemsABC.length : Int) 50 stateABC0 = some stateABC1 ∧
      ∃ v q inserted, stateABC0.PQ = v :: q ∧ stateABC1.PQ.Perm (inserted ++ q) ∧
        ∀ x ∈ inserted, (stateABC1.maxprofit : ℚ) < x.bound :=
  ⟨by decide!, by decide!,
    loop_insertions_promising itemsABC 50 0 none 0 stateABC0 stateABC1 (by decide!)
      (by decide!)⟩

/-! ## The exclude-child -/

/-- On the exclude-child of `v`, `bound` scans the items from index `v.level + 2` on, starting
from the weight and profit of `v`. -/
theorem bound_excludeChild (pw : List node) (n W : Int) (v u : node)
    (hu : u.level = v.level + 1) :
    bound (excludeChild v u) pw n W
      = if v.weight < W then
          ((boundLoop pw n W (n - (v.level + 2)).toNat (v.level + 2) v.weight
              (v.profit : ℚ)).bind (boundFraction pw n W)).map
            (fun r => { excludeChild v u with bound := r })
        else some { excludeChild v u with bound := 0 } := by
  have hl : (excludeChild v u).level + 1 = v.level + 2 := by
    show u.level + 1 = v.level + 2
    omega
  unfold bound
  rw [hl]
  show (if v.weight < W then _ else _) = _
  split
  · show (match (boundLoop pw n W (n - (v.level + 2)).toNat (v.level + 2) v.weight
        (v.profit : ℚ)).bind (boundFraction pw n W) with
      | none => none
      | some result => some { excludeChild v u with bound := result }) = _
    cases (boundLoop pw n W (n - (v.level + 2)).toNat (v.level + 2) v.weight
        (v.profit : ℚ)).bind (boundFraction pw n W) <;> rfl
  · rfl

/-- C16. Exclude-child state: in every iteration that expands a dequeued node `v`, the node
handed to `bound` as the exclude-child, and the node `bound` returns for the enqueue test, have
level `v.level + 1`, the weight of `v` and the profit of `v`, whatever the weight and profit of
the include-child built before; its bound is computed by the scan from index `v.level + 2`. -/
theorem excludeChild_state (pw : List node) (n W : Int) (s s1 : BFSState) (v : node)
    (q : PriorityQueue) (hrem : removeNode s.PQ = some (v, q))
    (hp : (s.maxprofit : ℚ) < v.bound) (hiter : bfsIter pw n W s = some s1) :
    ∃ it u1 u2, nodeAt pw (v.level + 1) = some it ∧
      bound (includeChild v it) pw n W = some u1 ∧
      bound (excludeChild v u1) pw n W = some u2 ∧
      s1 = { enqueueIfPromising
              (enqueueIfPromising (recordBest W { s with PQ := q } (includeChild v it)) u1) u2
             with i := s.i + 1 } ∧
      (excludeChild v u1).level = v.level + 1 ∧ (excludeChild v u1).weight = v.weight ∧
      (excludeChild v u1).profit = v.profit ∧
      u2.level = v.level + 1 ∧ u2.weight = v.weight ∧ u2.profit = v.profit ∧
      bound (excludeChild v u1) pw n W
        = if v.weight < W then
            ((boundLoop pw n W (n - (v.level + 2)).toNat (v.level + 2) v.weight
                (v.profit : ℚ)).bind (boundFraction pw n W)).map
              (fun r => { excludeChild v u1 with bound := r })
          else some { excludeChild v u1 with bound := 0 } := by
  unfold bfsIter at hiter
  simp only [hrem, hp, if_true] at hiter
  cases hat : nodeAt pw (v.level + 1) with
  | none => simp [hat] at hiter
  | some it =>
    simp only [hat] at hiter
    cases hb1 : bound (includeChild v it) pw n W with
    | none => simp [hb1] at hiter
    | some u1 =>
      simp only [hb1] at hiter
      cases hb2 : bound (excludeChild v u1) pw n W with
      | none => simp [hb2] at hiter
      | some u2 =>
        simp only [hb2, Option.some.injEq] at hiter
        have hu1 : u1.level = v.level + 1 := by
          rw [(bound_fields pw n W _ u1 hb1).1]; rfl
        have hu2 := (bound_fields pw n W _ u2 hb2).1
        have hi : (enqueueIfPromising (recordBest W { s with PQ := q } (includeChild v it))
            u1).i = s.i := by
          rw [enqueueIfPromising_i, recordBest_i]
        refine ⟨it, u1, u2, rfl, hb1, hb2, ?_, hu1, rfl, rfl, ?_, ?_, ?_, ?_⟩
        · rw [← hiter, hi]
        · rw [hu2]; exact hu1
        · rw [hu2]; rfl
        · rw [hu2]; rfl
        · exact bound_excludeChild pw n W v u1 hu1

/-- C16, at the first iteration of the first scenario: the exclude-child `root-` of the root has
level 0, weight 0 and profit 0, while the include-child `root&A` has weight 10, profit 60. -/
theorem excludeChild_state_witness :
    removeNode stateABC0.PQ = some ({ rootNode with bound := 240 }, []) ∧
      (stateABC0.maxprofit : ℚ) < ({ rootNode with bound := 240 } : node).bound ∧
      bfsIter itemsABC 3 50 stateABC0 = some stateABC1 ∧
      ∃ it u1 u2, nodeAt itemsABC (rootNode.level + 1) = some it ∧
        bound (includeChild { rootNode with bound := 240 } it) itemsABC 3 50 = some u1 ∧
        bound (excludeChild { rootNode with bound := 240 } u1) itemsABC 3 50 = some u2 ∧
        stateABC1 = { enqueueIfPromising
                (enqueueIfPromising (recordBest 50 { stateABC0 with PQ := [] }
                  (includeChild { rootNode with bound := 240 } it)) u1) u2
               with i := stateABC0.i + 1 } ∧
        (excludeChild { rootNode with bound := 240 } u1).level = rootNode.level + 1 ∧
        (excludeChild { rootNode with bound := 240 } u1).weight = rootNode.weight ∧
        (excludeChild { rootNode with bound := 240 } u1).profit = rootNode.profit ∧
        u2.level = rootNode.level + 1 ∧ u2.weight = rootNode.weight ∧
        u2.profit = rootNode.profit ∧
        bound (excludeChild { rootNode with bound := 240 } u1) itemsABC 3 50
          = if rootNode.weight < 50 then
              ((boundLoop itemsABC 3 50 (3 - (rootNode.level + 2)).toNat (rootNode.level + 2)
                  rootNode.weight (rootNode.profit : ℚ)).bind (boundFraction itemsABC 3 50)).map
                (fun r => { excludeChild { rootNode with bound := 240 } u1 with bound := r })
            else some { excludeChild { rootNode with bound := 240 } u1 with bound := 0 } :=
  ⟨by decide!, by decide!, by decide!,
    excludeChild_state itemsABC 3 50 stateABC0 stateABC1 { rootNode with bound := 240 } []
      (by decide!) (by decide!) (by decide!)⟩

/-! ## The bound when all remaining items fit -/

theorem sumW_nonneg_of_nonneg (S : List node) (h : ∀ it ∈ S, 0 ≤ it.weight) : 0 ≤ sumW S := by
  induction S with
  | nil => simp [sumW_nil]
  | cons it S ih =>
    rw [sumW_cons]
    have h1 := h it (List.mem_cons_self _ _)
    have h2 := ih (fun x hx => h x (List.mem_cons_of_mem _ hx))
    omega

/-- When all remaining items fit together, the loop of `bound` takes every one of them and ends
with `j = n`. -/
theorem boundLoop_of_all_fit (pw : List node) (W : Int) :
    ∀ (fuel j : Nat) (totweight : Int) (result : ℚ), j ≤ pw.length → pw.length - j ≤ fuel →
      (∀ it ∈ pw.drop j, 0 ≤ it.weight) → totweight + sumW (pw.drop j) ≤ W →
      boundLoop pw (pw.length : Int) W fuel (j : Int) totweight result
        = some ((pw.length : Int), totweight + sumW (pw.drop j),
            result + ((sumP (pw.drop j) : Int) : ℚ)) := by
  intro fuel
  induction fuel with
  | zero =>
    intro j totweight result hj hfuel _ _
    have hjn : j = pw.length := by omega
    subst hjn
    simp [boundLoop, sumW_nil, sumP_nil]
  | succ fuel ih =>
    intro j totweight result hj hfuel hnn hfit
    by_cases hlt : j < pw.length
    · have hcast : ((j : Int) < (pw.length : Int)) := by exact_mod_cast hlt
      have hget : pw[j]? = some pw[j] := List.getElem?_eq_getElem hlt
      have hdrop : pw.drop j = pw[j] :: pw.drop (j + 1) := List.drop_eq_getElem_cons hlt
      rw [hdrop] at hnn hfit
      rw [sumW_cons] at hfit
      have hrest := sumW_nonneg_of_nonneg (pw.drop (j + 1))
        (fun x hx => hnn x (List.mem_cons_of_mem _ hx))
      have hhead : totweight + pw[j].weight ≤ W := by omega
      have h := ih (j + 1) (totweight + pw[j].weight) (result + (pw[j].profit : ℚ))
        (by omega) (by omega) (fun x hx => hnn x (List.mem_cons_of_mem _ hx)) (by omega)
      have hc : ((j : Int) + 1) = ((j + 1 : Nat) : Int) := by push_cast; ring
      rw [boundLoop, if_pos hcast, nodeAt_natCast, hget]
      simp only [hhead, if_true]
      rw [hc, h, hdrop, sumW_cons, sumP_cons]
      push_cast
      simp only [Option.some.injEq, Prod.mk.injEq, true_and]
      constructor <;> ring
    · have hjn : j = pw.length := by omega
      subst hjn
      simp [boundLoop, sumW_nil, sumP_nil]

/-- The bound when everything fits, in exact arithmetic: on items whose weights are not
negative, for a node of weight below `W` such that its weight plus the total weight of all items
after its level is at most `W`, the loop of `bound` ends with `j = n`, so that no fraction is
added, and `bound` stores the profit of the node plus the total profit of those items. -/
theorem bound_exact_when_all_fit (pw : List node) (W : Int) (x : node) (hw : x.weight < W)
    (hl : -1 ≤ x.level) (hn : x.level + 1 ≤ (pw.length : Int))
    (hnn : ∀ it ∈ remaining pw x.level, 0 ≤ it.weight)
    (hfit : x.weight + sumW (remaining pw x.level) ≤ W) :
    boundLoop pw (pw.length : Int) W ((pw.length : Int) - (x.level + 1)).toNat (x.level + 1)
        x.weight (x.profit : ℚ)
      = some ((pw.length : Int), x.weight + sumW (remaining pw x.level),
          ((x.profit + sumP (remaining pw x.level) : Int) : ℚ)) ∧
    bound x pw (pw.length : Int) W
      = some { x with bound := ((x.profit + sumP (remaining pw x.level) : Int) : ℚ) } := by
  have hj : x.level + 1 = (((x.level + 1).toNat : Nat) : Int) := by omega
  have hf : ((pw.length : Int) - (x.level + 1)).toNat = pw.length - (x.level + 1).toNat := by
    omega
  have h := boundLoop_of_all_fit pw W (pw.length - (x.level + 1).toNat) (x.level + 1).toNat
    x.weight (x.profit : ℚ) (by omega) le_rfl hnn hfit
  have hloop : boundLoop pw (pw.length : Int) W ((pw.length : Int) - (x.level + 1)).toNat
      (x.level + 1) x.weight (x.profit : ℚ)
      = some ((pw.length : Int), x.weight + sumW (remaining pw x.level),
          ((x.profit + sumP (remaining pw x.level) : Int) : ℚ)) := by
    rw [hf]
    rw [hj]
    simp only [Int.toNat_ofNat]
    rw [h]
    simp [remaining]
  refine ⟨hloop, ?_⟩
  unfold bound
  simp only [hw, if_true]
  rw [hloop]
  simp [boundFraction]

/-! ## The relaxed problem -/

theorem fracProfit_nil (xs : List ℝ) : fracProfit [] xs = 0 := by
  simp [fracProfit]

theorem fracWeight_nil (xs : List ℝ) : fracWeight [] xs = 0 := by
  simp [fracWeight]

theorem fracProfit_cons (it : node) (L : List node) (a : ℝ) (xs : List ℝ) :
    fracProfit (it :: L) (a :: xs) = a * (it.profit : ℝ) + fracProfit L xs := by
  simp [fracProfit]

theorem fracWeight_cons (it : node) (L : List node) (a : ℝ) (xs : List ℝ) :
    fracWeight (it :: L) (a :: xs) = a * (it.weight : ℝ) + fracWeight L xs := by
  simp [fracWeight]

theorem fracBound_cons_cast (cap : Int) (it : node) (L : List node) :
    ((fracBound cap (it :: L) : ℚ) : ℝ)
      = if it.weight ≤ cap then (it.profit : ℝ) + ((fracBound (cap - it.weight) L : ℚ) : ℝ)
        else (cap : ℝ) * ((it.pw : ℚ) : ℝ) := by
  simp only [fracBound]
  split <;> push_cast <;> rfl

/-- The ratio of an item, in the reals. -/
theorem profit_eq_ratio_mul (it : node) (hw : 0 < it.weight)
    (hr : it.pw = (it.profit : ℚ) / (it.weight : ℚ)) :
    (it.profit : ℝ) = ((it.pw : ℚ) : ℝ) * (it.weight : ℝ) := by
  have hw1 : ((it.weight : Int) : ℝ) ≠ 0 := by
    have : (0 : ℝ) < (it.weight : ℝ) := by exact_mod_cast hw
    exact ne_of_gt this
  rw [hr]
  push_cast
  field_simp

theorem ratio_nonneg (it : node) (hw : 0 < it.weight) (hp : 0 ≤ it.profit)
    (hr : it.pw = (it.profit : ℚ) / (it.weight : ℚ)) : (0 : ℝ) ≤ ((it.pw : ℚ) : ℝ) := by
  have h1 : (0 : ℚ) < (it.weight : ℚ) := by exact_mod_cast hw
  have h2 : (0 : ℚ) ≤ (it.profit : ℚ) := by exact_mod_cast hp
  have : (0 : ℚ) ≤ it.pw := by rw [hr]; positivity
  exact_mod_cast this

/-- A fractional selection whose ratios are all at most `ρ` earns at most `ρ` per unit of
weight. -/
theorem fracProfit_le_ratio_mul (ρ : ℝ) :
    ∀ (L : List node), (∀ it ∈ L, 0 < it.weight) →
      (∀ it ∈ L, it.pw = (it.profit : ℚ) / (it.weight : ℚ)) →
      (∀ it ∈ L, ((it.pw : ℚ) : ℝ) ≤ ρ) →
      ∀ xs : List ℝ, (∀ a ∈ xs, 0 ≤ a ∧ a ≤ 1) →
        fracProfit L xs ≤ ρ * fracWeight L xs := by
  intro L
  induction L with
  | nil => intro _ _ _ xs _; simp [fracProfit_nil, fracWeight_nil]
  | cons it L ih =>
    intro hpos hratio hρ xs hx
    cases xs with
    | nil => simp [fracProfit, fracWeight]
    | cons a xs =>
      have ih1 := ih (fun x hx => hpos x (List.mem_cons_of_mem _ hx))
        (fun x hx => hratio x (List.mem_cons_of_mem _ hx))
        (fun x hx => hρ x (List.mem_cons_of_mem _ hx)) xs
        (fun b hb => hx b (List.mem_cons_of_mem _ hb))
      have ha := (hx a (List.mem_cons_self _ _)).1
      have hw : (0 : ℝ) < (it.weight : ℝ) := by
        exact_mod_cast hpos it (List.mem_cons_self _ _)
      have hp := profit_eq_ratio_mul it (hpos it (List.mem_cons_self _ _))
        (hratio it (List.mem_cons_self _ _))
      have hle := hρ it (List.mem_cons_self _ _)
      rw [fracProfit_cons, fracWeight_cons, hp]
      have h1 : a * (((it.pw : ℚ) : ℝ) * (it.weight : ℝ)) ≤ a * (ρ * (it.weight : ℝ)) :=
        mul_le_mul_of_nonneg_left (mul_le_mul_of_nonneg_right hle hw.le) ha
      nlinarith [h1, ih1]

/-- The greedy fill dominates every fractional selection, up to the weight by which the
selection exceeds the capacity, priced at any rate `r` above all ratios. -/
theorem fracProfit_le_fracBound_add :
    ∀ (L : List node), (∀ it ∈ L, 0 < it.weight ∧ 0 ≤ it.profit) →
      (∀ it ∈ L, it.pw = (it.profit : ℚ) / (it.weight : ℚ)) →
      L.Pairwise (fun a b => b.pw ≤ a.pw) →
      ∀ (r : ℝ), 0 ≤ r → (∀ it ∈ L, ((it.pw : ℚ) : ℝ) ≤ r) →
      ∀ (cap : Int) (xs : List ℝ), xs.length = L.length → (∀ a ∈ xs, 0 ≤ a ∧ a ≤ 1) →
        fracProfit L xs
          ≤ ((fracBound cap L : ℚ) : ℝ) + r * max 0 (fracWeight L xs - (cap : ℝ)) := by
  intro L
  induction L with
  | nil =>
    intro _ _ _ r hr0 _ cap xs _ _
    have : 0 ≤ r * max 0 (fracWeight [] xs - (cap : ℝ)) := mul_nonneg hr0 (le_max_left _ _)
    simpa [fracBound, fracProfit_nil] using this
  | cons it L ih =>
    intro hpos hratio hsorted r hr0 hr cap xs hlen hx
    cases xs with
    | nil => simp at hlen
    | cons a xs =>
      have hlen1 : xs.length = L.length := by simpa using hlen
      have hx1 : ∀ b ∈ xs, 0 ≤ b ∧ b ≤ 1 := fun b hb => hx b (List.mem_cons_of_mem _ hb)
      obtain ⟨ha0, ha1⟩ := hx a (List.mem_cons_self _ _)
      have hposL : ∀ x ∈ L, 0 < x.weight ∧ 0 ≤ x.profit :=
        fun x hx => hpos x (List.mem_cons_of_mem _ hx)
      have hratioL : ∀ x ∈ L, x.pw = (x.profit : ℚ) / (x.weight : ℚ) :=
        fun x hx => hratio x (List.mem_cons_of_mem _ hx)
      have hsortedL : L.Pairwise (fun a b => b.pw ≤ a.pw) := (List.pairwise_cons.mp hsorted).2
      have hitL : ∀ x ∈ L, ((x.pw : ℚ) : ℝ) ≤ ((it.pw : ℚ) : ℝ) := fun x hx => by
        exact_mod_cast (List.pairwise_cons.mp hsorted).1 x hx
      obtain ⟨hwpos, hpnn⟩ := hpos it (List.mem_cons_self _ _)
      have hit := hratio it (List.mem_cons_self _ _)
      have hw : (0 : ℝ) < (it.weight : ℝ) := by exact_mod_cast hwpos
      have hit0 := ratio_nonneg it hwpos hpnn hit
      have hitr : ((it.pw : ℚ) : ℝ) ≤ r := hr it (List.mem_cons_self _ _)
      have hpw := profit_eq_ratio_mul it hwpos hit
      rw [fracProfit_cons, fracWeight_cons, fracBound_cons_cast]
      have hd0 : (0 : ℝ) ≤ max 0 (a * (it.weight : ℝ) + fracWeight L xs - (cap : ℝ)) :=
        le_max_left _ _
      have hrate : ((it.pw : ℚ) : ℝ) * max 0 (a * (it.weight : ℝ) + fracWeight L xs - (cap : ℝ))
          ≤ r * max 0 (a * (it.weight : ℝ) + fracWeight L xs - (cap : ℝ)) :=
        mul_le_mul_of_nonneg_right hitr hd0
      by_cases hfit : it.weight ≤ cap
      · rw [if_pos hfit]
        have h1 := ih hposL hratioL hsortedL ((it.pw : ℚ) : ℝ) hit0 hitL (cap - it.weight) xs
          hlen1 hx1
        push_cast at h1
        have h3 : max 0 (fracWeight L xs - ((cap : ℝ) - (it.weight : ℝ)))
            ≤ (1 - a) * (it.weight : ℝ)
              + max 0 (a * (it.weight : ℝ) + fracWeight L xs - (cap : ℝ)) := by
          apply max_le
          · have : 0 ≤ (1 - a) * (it.weight : ℝ) := mul_nonneg (by linarith) hw.le
            linarith
          · have := le_max_right (0 : ℝ) (a * (it.weight : ℝ) + fracWeight L xs - (cap : ℝ))
            linarith
        have h4 := mul_le_mul_of_nonneg_left h3 hit0
        have h5 : ((it.pw : ℚ) : ℝ) * ((1 - a) * (it.weight : ℝ))
            = (1 - a) * (it.profit : ℝ) := by rw [hpw]; ring
        nlinarith [h1, h4, h5, hrate]
      · rw [if_neg hfit]
        have hall : ∀ x ∈ it :: L, ((x.pw : ℚ) : ℝ) ≤ ((it.pw : ℚ) : ℝ) := by
          intro x hx
          rcases List.mem_cons.mp hx with rfl | hx
          · exact le_rfl
          · exact hitL x hx
        have h1 := fracProfit_le_ratio_mul ((it.pw : ℚ) : ℝ) (it :: L)
          (fun x hx => (hpos x hx).1) hratio hall (a :: xs) hx
        rw [fracProfit_cons, fracWeight_cons] at h1
        have h2 : ((it.pw : ℚ) : ℝ) * (a * (it.weight : ℝ) + fracWeight L xs - (cap : ℝ))
            ≤ ((it.pw : ℚ) : ℝ)
              * max 0 (a * (it.weight : ℝ) + fracWeight L xs - (cap : ℝ)) :=
          mul_le_mul_of_nonneg_left (le_max_right _ _) hit0
        nlinarith [h1, h2, hrate]

/-- The greedy fill is an upper bound of the relaxed problem. -/
theorem fracProfit_le_fracBound (L : List node)
    (hpos : ∀ it ∈ L, 0 < it.weight ∧ 0 ≤ it.profit)
    (hratio : ∀ it ∈ L, it.pw = (it.profit : ℚ) / (it.weight : ℚ))
    (hsorted : L.Pairwise (fun a b => b.pw ≤ a.pw)) (cap : Int) (xs : List ℝ)
    (hx : Relaxed L cap xs) : fracProfit L xs ≤ ((fracBound cap L : ℚ) : ℝ) := by
  obtain ⟨hlen, hrange, hfit⟩ := hx
  have hmax : max 0 (fracWeight L xs - (cap : ℝ)) = 0 := max_eq_left (by linarith)
  cases L with
  | nil => simp [fracProfit_nil, fracBound]
  | cons it L =>
    obtain ⟨hwpos, hpnn⟩ := hpos it (List.mem_cons_self _ _)
    have hit0 := ratio_nonneg it hwpos hpnn (hratio it (List.mem_cons_self _ _))
    have hall : ∀ x ∈ it :: L, ((x.pw : ℚ) : ℝ) ≤ ((it.pw : ℚ) : ℝ) := by
      intro x hx
      rcases List.mem_cons.mp hx with rfl | hx
      · exact le_rfl
      · exact_mod_cast (List.pairwise_cons.mp hsorted).1 x hx
    have := fracProfit_le_fracBound_add (it :: L) hpos hratio hsorted _ hit0 hall cap xs hlen
      hrange
    rw [hmax] at this
    simpa using this

theorem fracProfit_replicate_zero (L : List node) (m : Nat) :
    fracProfit L (List.replicate m (0 : ℝ)) = 0 := by
  induction L generalizing m with
  | nil => exact fracProfit_nil _
  | cons it L ih =>
    cases m with
    | zero => simp [fracProfit]
    | succ m => rw [List.replicate_succ, fracProfit_cons, ih]; ring

theorem fracWeight_replicate_zero (L : List node) (m : Nat) :
    fracWeight L (List.replicate m (0 : ℝ)) = 0 := by
  induction L generalizing m with
  | nil => exact fracWeight_nil _
  | cons it L ih =>
    cases m with
    | zero => simp [fracWeight]
    | succ m => rw [List.replicate_succ, fracWeight_cons, ih]; ring

/-- The greedy fill is attained in the relaxed problem: whole items while they fit, then the
fraction `cap / weight` of the first item that does not, and nothing of the others. -/
theorem exists_relaxed_eq_fracBound :
    ∀ (L : List node), (∀ it ∈ L, 0 < it.weight) →
      (∀ it ∈ L, it.pw = (it.profit : ℚ) / (it.weight : ℚ)) →
      ∀ cap : Int, 0 ≤ cap →
        ∃ xs : List ℝ, Relaxed L cap xs ∧ fracProfit L xs = ((fracBound cap L : ℚ) : ℝ) := by
  intro L
  induction L with
  | nil =>
    intro _ _ cap hcap
    refine ⟨[], ⟨rfl, fun a ha => by simp at ha, ?_⟩, by simp [fracProfit_nil, fracBound]⟩
    rw [fracWeight_nil]
    exact_mod_cast hcap
  | cons it L ih =>
    intro hpos hratio cap hcap
    have hwpos := hpos it (List.mem_cons_self _ _)
    have hw : (0 : ℝ) < (it.weight : ℝ) := by exact_mod_cast hwpos
    have hpw := profit_eq_ratio_mul it hwpos (hratio it (List.mem_cons_self _ _))
    rw [fracBound_cons_cast]
    by_cases hfit : it.weight ≤ cap
    · rw [if_pos hfit]
      obtain ⟨xs, ⟨hlen, hrange, hwt⟩, hval⟩ := ih
        (fun x hx => hpos x (List.mem_cons_of_mem _ hx))
        (fun x hx => hratio x (List.mem_cons_of_mem _ hx)) (cap - it.weight) (by omega)
      refine ⟨1 :: xs, ⟨by simp [hlen], ?_, ?_⟩, ?_⟩
      · intro a ha
        rcases List.mem_cons.mp ha with rfl | ha
        · exact ⟨zero_le_one, le_rfl⟩
        · exact hrange a ha
      · rw [fracWeight_cons]
        push_cast at hwt
        linarith
      · rw [fracProfit_cons, hval]; ring
    · rw [if_neg hfit]
      have hlt : (cap : ℝ) < (it.weight : ℝ) := by exact_mod_cast not_le.mp hfit
      have hcap0 : (0 : ℝ) ≤ (cap : ℝ) := by exact_mod_cast hcap
      refine ⟨((cap : ℝ) / (it.weight : ℝ)) :: List.replicate L.length 0,
        ⟨by simp, ?_, ?_⟩, ?_⟩
      · intro a ha
        rcases List.mem_cons.mp ha with rfl | ha
        · exact ⟨div_nonneg hcap0 hw.le, (div_le_one hw).mpr hlt.le⟩
        · rw [(List.mem_replicate.mp ha).2]
          exact ⟨le_rfl, zero_le_one⟩
      · rw [fracWeight_cons, fracWeight_replicate_zero]
        field_simp
      · rw [fracProfit_cons, fracProfit_replicate_zero, hpw]
        field_simp
        ring

/-- C11. Bound equals the fractional relaxation: on items of positive weight (and profit not
negative) in non-increasing order of their ratio `pw = profit / weight`, for a node of weight
below `W`, `bound` stores the profit of the node plus the maximum of `Σ x_j * profit_j` over the
real vectors `x` with `0 ≤ x_j ≤ 1` on the items after the level of the node and
`Σ x_j * weight_j ≤ W - weight`. -/
theorem bound_eq_relaxation (pw : List node) (W : Int) (x : node) (hw : x.weight < W)
    (hl : -1 ≤ x.level) (hn : x.level + 1 ≤ (pw.length : Int))
    (hpos : ∀ it ∈ pw, 0 < it.weight ∧ 0 ≤ it.profit)
    (hratio : ∀ it ∈ pw, it.pw = (it.profit : ℚ) / (it.weight : ℚ))
    (hsorted : pw.Pairwise (fun a b => b.pw ≤ a.pw)) :
    ∃ y, bound x pw (pw.length : Int) W = some y ∧
      IsGreatest
        {v : ℝ | ∃ xs : List ℝ, Relaxed (remaining pw x.level) (W - x.weight) xs ∧
          v = (x.profit : ℝ) + fracProfit (remaining pw x.level) xs}
        ((y.bound : ℚ) : ℝ) := by
  have hsub := remaining_sublist pw x.level
  have hposR : ∀ it ∈ remaining pw x.level, 0 < it.weight ∧ 0 ≤ it.profit :=
    fun it hit => hpos it (hsub.subset hit)
  have hratioR : ∀ it ∈ remaining pw x.level, it.pw = (it.profit : ℚ) / (it.weight : ℚ) :=
    fun it hit => hratio it (hsub.subset hit)
  refine ⟨_, bound_of_lt pw W x hw hl hn, ?_, ?_⟩
  · obtain ⟨xs, hrel, hval⟩ := exists_relaxed_eq_fracBound (remaining pw x.level)
      (fun it hit => (hposR it hit).1) hratioR (W - x.weight) (by omega)
    refine ⟨xs, hrel, ?_⟩
    show (((x.profit : ℚ) + fracBound (W - x.weight) (remaining pw x.level) : ℚ) : ℝ) = _
    rw [hval]
    push_cast
    rfl
  · rintro v ⟨xs, hrel, rfl⟩
    have h := fracProfit_le_fracBound (remaining pw x.level) hposR hratioR
      (hsorted.sublist hsub) (W - x.weight) xs hrel
    show _ ≤ (((x.profit : ℚ) + fracBound (W - x.weight) (remaining pw x.level) : ℚ) : ℝ)
    push_cast
    linarith

/-- C11, at the root of the items A, B, C with `W = 50`. -/
theorem bound_eq_relaxation_witness :
    rootNode.weight < 50 ∧ Prepared itemsABC ∧
      ∃ y, bound rootNode itemsABC (itemsABC.length : Int) 50 = some y ∧
        IsGreatest
          {v : ℝ | ∃ xs : List ℝ, Relaxed (remaining itemsABC rootNode.level)
              (50 - rootNode.weight) xs ∧
            v = (rootNode.profit : ℝ) + fracProfit (remaining itemsABC rootNode.level) xs}
          ((y.bound : ℚ) : ℝ) :=
  ⟨by decide, by decide!,
    bound_eq_relaxation itemsABC 50 rootNode (by decide) (by decide) (by decide) (by decide)
      (by decide!) (by decide!)⟩

/-! ## Bounds down the tree -/

theorem fracBound_nonneg :
    ∀ (L : List node), (∀ it ∈ L, 0 < it.weight ∧ 0 ≤ it.profit) →
      (∀ it ∈ L, it.pw = (it.profit : ℚ) / (it.weight : ℚ)) →
      ∀ cap : Int, 0 ≤ cap → 0 ≤ fracBound cap L := by
  intro L
  induction L with
  | nil => intro _ _ cap _; simp [fracBound]
  | cons it L ih =>
    intro hpos hratio cap hcap
    obtain ⟨hwpos, hpnn⟩ := hpos it (List.mem_cons_self _ _)
    have hp : (0 : ℚ) ≤ (it.profit : ℚ) := by exact_mod_cast hpnn
    have hw : (0 : ℚ) < (it.weight : ℚ) := by exact_mod_cast hwpos
    have hc : (0 : ℚ) ≤ (cap : ℚ) := by exact_mod_cast hcap
    simp only [fracBound]
    split
    · have := ih (fun x hx => hpos x (List.mem_cons_of_mem _ hx))
        (fun x hx => hratio x (List.mem_cons_of_mem _ hx)) (cap - it.weight) (by omega)
      linarith
    · rw [hratio it (List.mem_cons_self _ _)]
      positivity

/-- Leaving out the first item does not raise the greedy fill. -/
theorem fracBound_tail_le (it : node) (L : List node)
    (hpos : ∀ x ∈ it :: L, 0 < x.weight ∧ 0 ≤ x.profit)
    (hratio : ∀ x ∈ it :: L, x.pw = (x.profit : ℚ) / (x.weight : ℚ))
    (hsorted : (it :: L).Pairwise (fun a b => b.pw ≤ a.pw)) (cap : Int) (hcap : 0 ≤ cap) :
    fracBound cap L ≤ fracBound cap (it :: L) := by
  obtain ⟨xs, ⟨hlen, hrange, hwt⟩, hval⟩ := exists_relaxed_eq_fracBound L
    (fun x hx => (hpos x (List.mem_cons_of_mem _ hx)).1)
    (fun x hx => hratio x (List.mem_cons_of_mem _ hx)) cap hcap
  have hrel : Relaxed (it :: L) cap (0 :: xs) := by
    refine ⟨by simp [hlen], ?_, ?_⟩
    · intro a ha
      rcases List.mem_cons.mp ha with rfl | ha
      · exact ⟨le_rfl, zero_le_one⟩
      · exact hrange a ha
    · rw [fracWeight_cons]; linarith
  have h := fracProfit_le_fracBound (it :: L) hpos hratio hsorted cap (0 :: xs) hrel
  rw [fracProfit_cons, hval] at h
  have h1 : ((fracBound cap L : ℚ) : ℝ) ≤ ((fracBound cap (it :: L) : ℚ) : ℝ) := by linarith
  exact_mod_cast h1

/-- The two children of a node of level -1 to `n - 2` are bounded without a read outside the
array. -/
theorem children_bound_eq (pw : List node) (W : Int) (v : node) (hl : -1 ≤ v.level)
    (hlt : v.level + 1 < (pw.length : Int)) :
    ∃ it, nodeAt pw (v.level + 1) = some it ∧ it ∈ pw ∧
      remaining pw v.level = it :: remaining pw (v.level + 1) ∧
      bound (includeChild v it) pw (pw.length : Int) W = some (boundedInclude pw W v it) ∧
      bound (excludeChild v (boundedInclude pw W v it)) pw (pw.length : Int) W
        = some (boundedExclude pw W v it) := by
  have hk : (v.level + 1).toNat < pw.length := by omega
  have hk0 : 0 ≤ v.level + 1 := by omega
  refine ⟨pw[(v.level + 1).toNat], ?_, List.getElem_mem _, ?_, ?_, ?_⟩
  · simp [nodeAt, hk0, List.getElem?_eq_getElem hk]
  · have : (v.level + 1 + 1).toNat = (v.level + 1).toNat + 1 := by omega
    simp only [remaining, this]
    exact List.drop_eq_getElem_cons hk
  · exact bound_eq pw W (includeChild v pw[(v.level + 1).toNat])
      (by simp [includeChild, appendName, setName]; omega)
      (by simp [includeChild, appendName, setName]; omega)
  · exact bound_eq pw W (excludeChild v (boundedInclude pw W v pw[(v.level + 1).toNat]))
      (by simp [excludeChild, boundedInclude, includeChild, appendName, setName]; omega)
      (by simp [excludeChild, boundedInclude, includeChild, appendName, setName]; omega)

theorem boundValue_boundedInclude (pw : List node) (W : Int) (v it : node) :
    boundValue pw W (boundedInclude pw W v it)
      = if v.weight + it.weight < W then
          ((v.profit + it.profit : Int) : ℚ)
            + fracBound (W - (v.weight + it.weight)) (remaining pw (v.level + 1))
        else 0 := rfl

theorem boundValue_boundedExclude (pw : List node) (W : Int) (v it : node) :
    boundValue pw W (boundedExclude pw W v it)
      = if v.weight < W then
          (v.profit : ℚ) + fracBound (W - v.weight) (remaining pw (v.level + 1))
        else 0 := rfl

/-- The bounds of the children of a node whose profit is not negative. -/
theorem children_boundValue_le (pw : List node) (W : Int) (v it : node) (hprep : Prepared pw)
    (hw : v.weight < W) (hp : 0 ≤ v.profit)
    (hrem : remaining pw v.level = it :: remaining pw (v.level + 1)) :
    (boundedInclude pw W v it).bound ≤ boundValue pw W v ∧
      (boundedExclude pw W v it).bound ≤ boundValue pw W v ∧
      ((boundedInclude pw W v it).weight < W →
        (boundedInclude pw W v it).bound = boundValue pw W v) := by
  obtain ⟨hpos, hratio, hsorted⟩ := hprep
  have hsub := remaining_sublist pw v.level
  have hposR : ∀ x ∈ it :: remaining pw (v.level + 1), 0 < x.weight ∧ 0 ≤ x.profit := by
    intro x hx
    rw [← hrem] at hx
    exact ⟨(hpos x (hsub.subset hx)).1, (hpos x (hsub.subset hx)).2.le⟩
  have hratioR : ∀ x ∈ it :: remaining pw (v.level + 1),
      x.pw = (x.profit : ℚ) / (x.weight : ℚ) := by
    intro x hx
    rw [← hrem] at hx
    exact hratio x (hsub.subset hx)
  have hsortedR : (it :: remaining pw (v.level + 1)).Pairwise (fun a b => b.pw ≤ a.pw) := by
    rw [← hrem]
    exact hsorted.sublist hsub
  have hv : boundValue pw W v
      = (v.profit : ℚ) + fracBound (W - v.weight) (it :: remaining pw (v.level + 1)) := by
    simp only [boundValue, hw, if_true, hrem]
  have hvnn : 0 ≤ boundValue pw W v := by
    rw [hv]
    have h1 := fracBound_nonneg _ hposR hratioR (W - v.weight) (by omega)
    have h2 : (0 : ℚ) ≤ (v.profit : ℚ) := by exact_mod_cast hp
    linarith
  have hin : (boundedInclude pw W v it).weight < W →
      (boundedInclude pw W v it).bound = boundValue pw W v := by
    intro hlt
    rw [boundedInclude_weight] at hlt
    have hfit : it.weight ≤ W - v.weight := by omega
    have hcap : W - (v.weight + it.weight) = W - v.weight - it.weight := by ring
    rw [boundedInclude_bound, hv, boundValue_boundedInclude, if_pos hlt, fracBound,
      if_pos hfit, hcap]
    push_cast
    ring
  refine ⟨?_, ?_, hin⟩
  · by_cases hlt : (boundedInclude pw W v it).weight < W
    · exact le_of_eq (hin hlt)
    · rw [boundedInclude_weight] at hlt
      rw [boundedInclude_bound_of_ge pw W v it (by omega)]
      exact hvnn
  · rw [boundedExclude_bound, hv, boundValue_boundedExclude, if_pos hw]
    have := fracBound_tail_le it (remaining pw (v.level + 1)) hposR hratioR hsortedR
      (W - v.weight) (by omega)
    linarith

/-- In exact arithmetic bounds do not grow down the tree: on items with positive weights and
profits in non-increasing order of their ratio, for every node `v` that a run of
`bestFirstSearch` holds in its queue, with `v.weight < W` and `v.level + 1 < n`, the bound the
node carries is the one `bound` computes, both children are bounded without a read outside the
array and their bounds are at most the bound of `v`; the include-child has exactly the bound of
`v` if its weight is still below `W`. -/
theorem children_bound_le (pw : List node) (W tw : Int) (best : Option String) (k : Nat)
    (s : BFSState) (v : node) (hprep : Prepared pw)
    (hs : stateAfter pw W tw best k = some s) (hv : v ∈ s.PQ) (hw : v.weight < W)
    (hlt : v.level + 1 < (pw.length : Int)) :
    bound v pw (pw.length : Int) W = some v ∧
    ∃ it u1 u2, nodeAt pw (v.level + 1) = some it ∧
      bound (includeChild v it) pw (pw.length : Int) W = some u1 ∧
      bound (excludeChild v u1) pw (pw.length : Int) W = some u2 ∧
      u1.bound ≤ v.bound ∧ u2.bound ≤ v.bound ∧ (u1.weight < W → u1.bound = v.bound) := by
  obtain ⟨hnn, hinv⟩ := stateAfter_induction pw W tw best (fun s => ∀ x ∈ s.PQ, 0 ≤ x.profit)
    (fun x hx => by
      have hx1 : x = boundedRoot pw W := by simpa [initState] using hx
      subst hx1
      exact le_rfl)
    (fun s v q _ hP hPQ _ x hx => hP x (by rw [hPQ]; exact List.mem_cons_of_mem _ hx))
    (fun s v q it _ hP hPQ _ _ _ _ hmem _ x hx => by
      have hv0 := hP v (by rw [hPQ]; exact List.mem_cons_self _ _)
      have hit := (hprep.1 it hmem).2
      rcases (mem_expandState pw W s v q it x).mp hx with ⟨rfl, _⟩ | ⟨rfl, _⟩ | hxq
      · rw [boundedExclude_profit]; exact hv0
      · rw [boundedInclude_profit]; omega
      · exact hP x (by rw [hPQ]; exact List.mem_cons_of_mem _ hxq))
    k s hs
  obtain ⟨hl, hn, _, hb⟩ := hinv.2 v hv
  obtain ⟨it, hat, _, hrem, hb1, hb2⟩ := children_bound_eq pw W v hl hlt
  obtain ⟨h1, h2, h3⟩ := children_boundValue_le pw W v it hprep hw (hnn v hv) hrem
  refine ⟨?_, it, _, _, hat, hb1, hb2, ?_, ?_, ?_⟩
  · rw [bound_eq pw W v hl hn, ← hb]
  · rw [hb]; exact h1
  · rw [hb]; exact h2
  · rw [hb]; exact h3

/-! ## Items of weight 0 -/

/-- C12 as stated fails: on the items A (10, 5), B (9, 5), Z (100, 0), in non-increasing order
of their ratios 2, 9/5, 0, with `W = 7`, `bestFirstSearch` returns 109 (B and Z) although A and Z
fit and earn 110.  The node `root&A` gets the bound 10 + 2 * 9/5, which leaves out Z, and is
discarded once `maxprofit` is 109. -/
theorem zero_weight_item_loses_optimum :
    PreparedDegenerate itemsABZ ∧ Returns itemsABZ 7 0 none (109, 5, some "root-&B&Z") ∧
      FeasibleProfit itemsABZ 7 110 ∧ ¬ IsGreatest {p | FeasibleProfit itemsABZ 7 p} 109 := by
  have hfeas : FeasibleProfit itemsABZ 7 110 :=
    ⟨[mkItem "A" 10 5, mkItem "Z" 100 0],
      List.Sublist.cons₂ _ (List.Sublist.cons _ (List.Sublist.cons₂ _ List.Sublist.slnil)),
      by decide, by decide⟩
  refine ⟨by decide!, returns_of_eq_some itemsABZ 7 0 none 10 _ (by decide!), hfeas, ?_⟩
  intro h
  have := h.2 hfeas
  omega

/-- In exact arithmetic, for every item array, items of weight 0 included, and every `W ≥ 0`
the call of `bestFirstSearch` returns, and the `maxprofit` it returns is the total profit of a
selection of the items whose total weight is at most `W`. -/
theorem returns_feasible_profit (pw : List node) (W tw : Int) (best : Option String)
    (hW : 0 ≤ W) : ∃ r, Returns pw W tw best r ∧ FeasibleProfit pw W r.1 := by
  obtain ⟨s1, hret, _, hreal, hinv⟩ := returns_induction pw W tw best
    (fun s => Realised pw W s) (realised_initState pw W tw best)
    (fun s v q _ hP hPQ _ => realised_discard pw W s v q hP hPQ)
    (fun s v q it _ hP hPQ _ _ _ hat _ _ => realised_expandState pw W s v q it hP hPQ hat)
  exact ⟨_, hret, feasibleProfit_of_realised pw W s1 hW hinv.1 hreal⟩

/-! ## Machine arithmetic -/

namespace Machine

/-! ### Rounding to binary32 -/

theorem log2Aux_spec : ∀ (fuel n : Nat), n ≤ fuel → 1 ≤ n →
    2 ^ log2Aux fuel n ≤ n ∧ n < 2 ^ (log2Aux fuel n + 1) := by
  intro fuel
  induction fuel with
  | zero => intro n h1 h2; omega
  | succ fuel ih =>
    intro n h1 h2
    by_cases hn : n < 2
    · have : n = 1 := by omega
      subst this
      simp [log2Aux]
    · have h := ih (n / 2) (by omega) (by omega)
      simp only [log2Aux, hn, if_false]
      obtain ⟨ha, hb⟩ := h
      rw [pow_succ] at hb ⊢
      rw [pow_succ]
      constructor <;> omega

theorem natLog2_spec (n : Nat) (h : 1 ≤ n) :
    2 ^ natLog2 n ≤ n ∧ n < 2 ^ (natLog2 n + 1) :=
  log2Aux_spec n n le_rfl h

theorem pow2_eq_zpow (k : Int) : pow2 k = (2 : ℚ) ^ k := by
  unfold pow2
  split
  · rename_i h
    obtain ⟨m, rfl⟩ := Int.eq_ofNat_of_zero_le h
    simp
  · rename_i h
    obtain ⟨m, hm⟩ : ∃ m : Nat, -k = (m : Int) := Int.eq_ofNat_of_zero_le (by omega)
    have hk : k = -(m : Int) := by omega
    rw [hm, hk]
    simp [zpow_neg]

theorem pow2_pos (k : Int) : 0 < pow2 k := by
  rw [pow2_eq_zpow]; positivity

theorem pow2_add (a b : Int) : pow2 (a + b) = pow2 a * pow2 b := by
  simp only [pow2_eq_zpow]
  exact zpow_add₀ (by norm_num) a b

theorem pow2_le_pow2 (a b : Int) (h : a ≤ b) : pow2 a ≤ pow2 b := by
  simp only [pow2_eq_zpow]
  exact zpow_le_zpow_right₀ (by norm_num) h

theorem pow2_lt_pow2_iff (a b : Int) : pow2 a < pow2 b ↔ a < b := by
  simp only [pow2_eq_zpow]
  exact zpow_lt_zpow_iff_right₀ (by norm_num)

theorem ilog2_spec (q : ℚ) (hq : q ≠ 0) :
    pow2 (ilog2 q) ≤ |q| ∧ |q| < pow2 (ilog2 q + 1) := by
  have ha : 1 ≤ q.num.natAbs := by
    have : q.num ≠ 0 := Rat.num_ne_zero.mpr hq
    omega
  have hb : 1 ≤ q.den := q.den_pos
  obtain ⟨a1, a2⟩ := natLog2_spec _ ha
  obtain ⟨b1, b2⟩ := natLog2_spec _ hb
  have habs : |q| = (q.num.natAbs : ℚ) / (q.den : ℚ) := by
    conv_lhs => rw [← Rat.num_div_den q]
    rw [abs_div, Nat.abs_cast, ← Int.cast_abs, Int.abs_eq_natAbs, Int.cast_natCast]
  have hbpos : (0 : ℚ) < (q.den : ℚ) := by exact_mod_cast hb
  have a1q : (2 : ℚ) ^ natLog2 q.num.natAbs ≤ (q.num.natAbs : ℚ) := by exact_mod_cast a1
  have a2q : (q.num.natAbs : ℚ) < (2 : ℚ) ^ (natLog2 q.num.natAbs + 1) := by exact_mod_cast a2
  have b1q : (2 : ℚ) ^ natLog2 q.den ≤ (q.den : ℚ) := by exact_mod_cast b1
  have b2q : (q.den : ℚ) < (2 : ℚ) ^ (natLog2 q.den + 1) := by exact_mod_cast b2
  have hlow : pow2 ((natLog2 q.num.natAbs : Int) - (natLog2 q.den : Int) - 1) ≤ |q| := by
    rw [habs, pow2_eq_zpow, le_div_iff₀ hbpos]
    have h1 : (2 : ℚ) ^ ((natLog2 q.num.natAbs : Int) - (natLog2 q.den : Int) - 1)
        * (2 : ℚ) ^ (natLog2 q.den + 1) = (2 : ℚ) ^ natLog2 q.num.natAbs := by
      rw [← zpow_natCast (2 : ℚ) (natLog2 q.den + 1), ← zpow_add₀ (by norm_num),
        ← zpow_natCast (2 : ℚ) (natLog2 q.num.natAbs)]
      congr 1
      push_cast
      ring
    have h2 : (2 : ℚ) ^ ((natLog2 q.num.natAbs : Int) - (natLog2 q.den : Int) - 1) * (q.den : ℚ)
        ≤ (2 : ℚ) ^ ((natLog2 q.num.natAbs : Int) - (natLog2 q.den : Int) - 1)
          * (2 : ℚ) ^ (natLog2 q.den + 1) :=
      mul_le_mul_of_nonneg_left b2q.le (by positivity)
    linarith
  have hhigh : |q| < pow2 ((natLog2 q.num.natAbs : Int) - (natLog2 q.den : Int) + 1) := by
    rw [habs, pow2_eq_zpow, div_lt_iff₀ hbpos]
    have h1 : (2 : ℚ) ^ ((natLog2 q.num.natAbs : Int) - (natLog2 q.den : Int) + 1)
        * (2 : ℚ) ^ (natLog2 q.den) = (2 : ℚ) ^ (natLog2 q.num.natAbs + 1) := by
      rw [← zpow_natCast (2 : ℚ) (natLog2 q.den), ← zpow_add₀ (by norm_num),
        ← zpow_natCast (2 : ℚ) (natLog2 q.num.natAbs + 1)]
      congr 1
      push_cast
      ring
    have h2 : (2 : ℚ) ^ ((natLog2 q.num.natAbs : Int) - (natLog2 q.den : Int) + 1)
        * (2 : ℚ) ^ (natLog2 q.den)
        ≤ (2 : ℚ) ^ ((natLog2 q.num.natAbs : Int) - (natLog2 q.den : Int) + 1) * (q.den : ℚ) :=
      mul_le_mul_of_nonneg_left b1q (by positivity)
    linarith
  unfold ilog2
  split
  · rename_i hlt
    refine ⟨hlow, ?_⟩
    have : (natLog2 q.num.natAbs : Int) - (natLog2 q.den : Int) - 1 + 1
        = (natLog2 q.num.natAbs : Int) - (natLog2 q.den : Int) := by ring
    rw [this]
    exact hlt
  · rename_i hge
    exact ⟨not_lt.mp hge, hhigh⟩

/-- The binade of a positive rational is determined by the powers of two around it. -/
theorem ilog2_unique (q : ℚ) (e : Int) (h1 : pow2 e ≤ |q|) (h2 : |q| < pow2 (e + 1)) :
    ilog2 q = e := by
  have hq : q ≠ 0 := by
    intro h0
    rw [h0, abs_zero] at h1
    exact absurd h1 (not_le.mpr (pow2_pos e))
  obtain ⟨s1, s2⟩ := ilog2_spec q hq
  have a : ilog2 q < e + 1 := (pow2_lt_pow2_iff _ _).mp (lt_of_le_of_lt s1 h2)
  have b : e < ilog2 q + 1 := (pow2_lt_pow2_iff _ _).mp (lt_of_le_of_lt h1 s2)
  omega

theorem roundEven_sub_le (m : ℚ) : |(roundEven m : ℚ) - m| ≤ 1 / 2 := by
  have h1 := Int.floor_le m
  have h2 := Int.lt_floor_add_one m
  unfold roundEven
  split
  · rename_i h
    rw [abs_le]; constructor <;> linarith
  · rename_i h
    split
    · rename_i h3
      push_cast
      rw [abs_le]; constructor <;> linarith
    · rename_i h3
      have heq : m - (⌊m⌋ : ℚ) = 1 / 2 := le_antisymm (not_lt.mp h3) (not_lt.mp h)
      split
      · rw [abs_le]; constructor <;> linarith
      · push_cast
        rw [abs_le]; constructor <;> linarith

theorem roundEven_intCast (k : Int) : roundEven (k : ℚ) = k := by
  unfold roundEven
  simp

theorem roundEven_mono (m m1 : ℚ) (h : m ≤ m1) : roundEven m ≤ roundEven m1 := by
  have hf : ⌊m⌋ ≤ ⌊m1⌋ := Int.floor_mono h
  have a1 := Int.floor_le m
  have a2 := Int.lt_floor_add_one m
  have b1 := Int.floor_le m1
  have b2 := Int.lt_floor_add_one m1
  have hlo : ∀ x : ℚ, ⌊x⌋ ≤ roundEven x := by
    intro x; unfold roundEven
    split
    · exact le_rfl
    · split
      · omega
      · split <;> omega
  have hhi : ∀ x : ℚ, roundEven x ≤ ⌊x⌋ + 1 := by
    intro x; unfold roundEven
    split
    · omega
    · split
      · exact le_rfl
      · split <;> omega
  rcases lt_or_eq_of_le hf with hlt | heq
  · calc roundEven m ≤ ⌊m⌋ + 1 := hhi m
      _ ≤ ⌊m1⌋ := by omega
      _ ≤ roundEven m1 := hlo m1
  · unfold roundEven
    rw [← heq]
    have hd : m - (⌊m⌋ : ℚ) ≤ m1 - (⌊m⌋ : ℚ) := by linarith
    by_cases c1 : m1 - (⌊m⌋ : ℚ) < 1 / 2
    · have c0 : m - (⌊m⌋ : ℚ) < 1 / 2 := lt_of_le_of_lt hd c1
      rw [if_pos c0, if_pos c1]
    · rw [if_neg c1]
      by_cases c2 : (1 : ℚ) / 2 < m1 - (⌊m⌋ : ℚ)
      · rw [if_pos c2]
        split
        · omega
        · split
          · exact le_rfl
          · split <;> omega
      · rw [if_neg c2]
        have e1 : m1 - (⌊m⌋ : ℚ) = 1 / 2 := le_antisymm (not_lt.mp c2) (not_lt.mp c1)
        by_cases c0 : m - (⌊m⌋ : ℚ) < 1 / 2
        · rw [if_pos c0]
          split <;> omega
        · rw [if_neg c0]
          have c3 : ¬ (1 : ℚ) / 2 < m - (⌊m⌋ : ℚ) := by
            intro hc; linarith
          rw [if_neg c3]

theorem le_roundEven (k : Int) (m : ℚ) (h : (k : ℚ) ≤ m) : k ≤ roundEven m := by
  have := roundEven_mono _ _ h
  rwa [roundEven_intCast] at this

theorem roundEven_le (k : Int) (m : ℚ) (h : m ≤ (k : ℚ)) : roundEven m ≤ k := by
  have := roundEven_mono _ _ h
  rwa [roundEven_intCast] at this

theorem pow2_zero : pow2 0 = 1 := by rw [pow2_eq_zpow]; simp

theorem pow2_natCast (k : Nat) : pow2 (k : Int) = (2 : ℚ) ^ k := by
  rw [pow2_eq_zpow, zpow_natCast]

/-- The scaled significand of a positive number lies between `2 ^ 23` and `2 ^ 24`. -/
theorem scaled_bounds (q : ℚ) (hq : 0 < q) :
    (8388608 : ℚ) ≤ q / pow2 (ilog2 q - 23) ∧ q / pow2 (ilog2 q - 23) < 16777216 := by
  obtain ⟨h1, h2⟩ := ilog2_spec q hq.ne.symm
  rw [abs_of_pos hq] at h1 h2
  have hp := pow2_pos (ilog2 q - 23)
  have e1 : pow2 (ilog2 q) = 8388608 * pow2 (ilog2 q - 23) := by
    have := pow2_add 23 (ilog2 q - 23)
    rw [show (23 : Int) + (ilog2 q - 23) = ilog2 q from by ring] at this
    rw [this, show (23 : Int) = ((23 : Nat) : Int) from rfl, pow2_natCast]
    norm_num
  have e2 : pow2 (ilog2 q + 1) = 16777216 * pow2 (ilog2 q - 23) := by
    have := pow2_add 24 (ilog2 q - 23)
    rw [show (24 : Int) + (ilog2 q - 23) = ilog2 q + 1 from by ring] at this
    rw [this, show (24 : Int) = ((24 : Nat) : Int) from rfl, pow2_natCast]
    norm_num
  constructor
  · rw [le_div_iff₀ hp]; linarith
  · rw [div_lt_iff₀ hp]; linarith

theorem flPos_bounds (q : ℚ) (hq : 0 < q) :
    pow2 (ilog2 q) ≤ flPos q ∧ flPos q ≤ pow2 (ilog2 q + 1) := by
  obtain ⟨h1, h2⟩ := scaled_bounds q hq
  have hp := pow2_pos (ilog2 q - 23)
  have e1 : pow2 (ilog2 q) = 8388608 * pow2 (ilog2 q - 23) := by
    have := pow2_add 23 (ilog2 q - 23)
    rw [show (23 : Int) + (ilog2 q - 23) = ilog2 q from by ring] at this
    rw [this, show (23 : Int) = ((23 : Nat) : Int) from rfl, pow2_natCast]
    norm_num
  have e2 : pow2 (ilog2 q + 1) = 16777216 * pow2 (ilog2 q - 23) := by
    have := pow2_add 24 (ilog2 q - 23)
    rw [show (24 : Int) + (ilog2 q - 23) = ilog2 q + 1 from by ring] at this
    rw [this, show (24 : Int) = ((24 : Nat) : Int) from rfl, pow2_natCast]
    norm_num
  have r1 : (8388608 : Int) ≤ roundEven (q / pow2 (ilog2 q - 23)) :=
    le_roundEven _ _ (by push_cast; exact h1)
  have r2 : roundEven (q / pow2 (ilog2 q - 23)) ≤ (16777216 : Int) :=
    roundEven_le _ _ (by push_cast; exact h2.le)
  have r1q : (8388608 : ℚ) ≤ (roundEven (q / pow2 (ilog2 q - 23)) : ℚ) := by exact_mod_cast r1
  have r2q : (roundEven (q / pow2 (ilog2 q - 23)) : ℚ) ≤ (16777216 : ℚ) := by exact_mod_cast r2
  unfold flPos
  rw [e1, e2]
  exact ⟨mul_le_mul_of_nonneg_right r1q hp.le, mul_le_mul_of_nonneg_right r2q hp.le⟩

theorem flPos_pos (q : ℚ) (hq : 0 < q) : 0 < flPos q :=
  lt_of_lt_of_le (pow2_pos _) (flPos_bounds q hq).1

/-- Rounding moves a positive number by at most the fraction `2 ^ -24` of it. -/
theorem flPos_error (q : ℚ) (hq : 0 < q) : |flPos q - q| ≤ q / 16777216 := by
  obtain ⟨h1, h2⟩ := scaled_bounds q hq
  have hp := pow2_pos (ilog2 q - 23)
  have hr := roundEven_sub_le (q / pow2 (ilog2 q - 23))
  have hq2 : q = q / pow2 (ilog2 q - 23) * pow2 (ilog2 q - 23) := by
    field_simp
  have e : flPos q - q
      = ((roundEven (q / pow2 (ilog2 q - 23)) : ℚ) - q / pow2 (ilog2 q - 23))
        * pow2 (ilog2 q - 23) := by
    unfold flPos
    rw [sub_mul, ← hq2]
  rw [e, abs_mul, abs_of_pos hp]
  have h3 : pow2 (ilog2 q - 23) ≤ q / 8388608 := by
    rw [le_div_iff₀ (by norm_num)]
    rw [le_div_iff₀ hp] at h1
    linarith
  calc |(roundEven (q / pow2 (ilog2 q - 23)) : ℚ) - q / pow2 (ilog2 q - 23)|
        * pow2 (ilog2 q - 23)
      ≤ 1 / 2 * pow2 (ilog2 q - 23) := mul_le_mul_of_nonneg_right hr hp.le
    _ ≤ 1 / 2 * (q / 8388608) := by linarith
    _ = q / 16777216 := by ring

theorem flPos_mono (q q1 : ℚ) (hq : 0 < q) (h : q ≤ q1) : flPos q ≤ flPos q1 := by
  have hq1 : 0 < q1 := lt_of_lt_of_le hq h
  obtain ⟨a1, a2⟩ := ilog2_spec q hq.ne.symm
  obtain ⟨b1, b2⟩ := ilog2_spec q1 hq1.ne.symm
  rw [abs_of_pos hq] at a1 a2
  rw [abs_of_pos hq1] at b1 b2
  have hle : ilog2 q < ilog2 q1 + 1 :=
    (pow2_lt_pow2_iff _ _).mp (lt_of_le_of_lt a1 (lt_of_le_of_lt h b2))
  rcases eq_or_lt_of_le (Int.lt_add_one_iff.mp hle) with heq | hlt
  · unfold flPos
    rw [← heq]
    have hp := pow2_pos (ilog2 q - 23)
    apply mul_le_mul_of_nonneg_right _ hp.le
    have : q / pow2 (ilog2 q - 23) ≤ q1 / pow2 (ilog2 q - 23) :=
      div_le_div_of_nonneg_right h hp.le
    exact_mod_cast roundEven_mono _ _ this
  · calc flPos q ≤ pow2 (ilog2 q + 1) := (flPos_bounds q hq).2
      _ ≤ pow2 (ilog2 q1) := pow2_le_pow2 _ _ (by omega)
      _ ≤ flPos q1 := (flPos_bounds q1 hq1).1

theorem fl_zero : fl 0 = 0 := by simp [fl]

theorem fl_of_pos (q : ℚ) (hq : 0 < q) : fl q = flPos q := by
  simp [fl, hq.ne.symm, hq]

theorem fl_of_neg (q : ℚ) (hq : q < 0) : fl q = -flPos (-q) := by
  have : ¬ 0 < q := not_lt.mpr hq.le
  simp [fl, hq.ne, this]

theorem fl_neg (q : ℚ) : fl (-q) = -fl q := by
  rcases lt_trichotomy q 0 with h | h | h
  · rw [fl_of_neg q h, fl_of_pos (-q) (by linarith), neg_neg]
  · subst h; simp [fl_zero]
  · rw [fl_of_pos q h, fl_of_neg (-q) (by linarith), neg_neg]

theorem fl_pos (q : ℚ) (hq : 0 < q) : 0 < fl q := by
  rw [fl_of_pos q hq]; exact flPos_pos q hq

theorem fl_nonneg (q : ℚ) (hq : 0 ≤ q) : 0 ≤ fl q := by
  rcases eq_or_lt_of_le hq with h | h
  · rw [← h, fl_zero]
  · exact (fl_pos q h).le

/-- Rounding is monotone. -/
theorem fl_mono (q q1 : ℚ) (h : q ≤ q1) : fl q ≤ fl q1 := by
  rcases lt_trichotomy q 0 with hq | hq | hq
  · rcases lt_trichotomy q1 0 with hq1 | hq1 | hq1
    · rw [fl_of_neg q hq, fl_of_neg q1 hq1]
      have := flPos_mono (-q1) (-q) (by linarith) (by linarith)
      linarith
    · subst hq1
      rw [fl_of_neg q hq, fl_zero]
      have := flPos_pos (-q) (by linarith)
      linarith
    · have a := fl_pos q1 hq1
      rw [fl_of_neg q hq]
      have := flPos_pos (-q) (by linarith)
      linarith
  · subst hq
    rw [fl_zero]
    exact fl_nonneg q1 h
  · rw [fl_of_pos q hq, fl_of_pos q1 (lt_of_lt_of_le hq h)]
    exact flPos_mono q q1 hq h

/-- The relative error of a rounding is at most `2 ^ -24`. -/
theorem fl_error (q : ℚ) : |fl q - q| ≤ |q| / 16777216 := by
  rcases lt_trichotomy q 0 with hq | hq | hq
  · rw [fl_of_neg q hq, abs_of_neg hq]
    have := flPos_error (-q) (by linarith)
    rw [show -flPos (-q) - q = -(flPos (-q) - -q) from by ring, abs_neg]
    exact this
  · subst hq; simp [fl_zero]
  · rw [fl_of_pos q hq, abs_of_pos hq]
    exact flPos_error q hq

theorem fl_ge (q : ℚ) (hq : 0 ≤ q) : (1 - 1 / 16777216) * q ≤ fl q := by
  have := fl_error q
  rw [abs_of_nonneg hq, abs_le] at this
  linarith [this.1]

theorem fl_le (q : ℚ) (hq : 0 ≤ q) : fl q ≤ (1 + 1 / 16777216) * q := by
  have := fl_error q
  rw [abs_of_nonneg hq, abs_le] at this
  linarith [this.2]

/-- A number whose scaled significand is an integer is not changed by rounding. -/
theorem flPos_of_scaled_int (q : ℚ) (k : Int)
    (hk : q / pow2 (ilog2 q - 23) = (k : ℚ)) : flPos q = q := by
  have hp := pow2_pos (ilog2 q - 23)
  unfold flPos
  rw [hk, roundEven_intCast, ← hk]
  field_simp

/-- Integers of absolute value up to `2 ^ 24` are floating-point numbers. -/
theorem fl_natCast (n : Nat) (h : n ≤ 16777216) : fl (n : ℚ) = (n : ℚ) := by
  rcases Nat.eq_zero_or_pos n with h0 | hpos
  · subst h0; simp [fl_zero]
  rcases eq_or_lt_of_le h with heq | hlt
  · subst heq; decide!
  have hq : (0 : ℚ) < (n : ℚ) := by exact_mod_cast hpos
  rw [fl_of_pos _ hq]
  obtain ⟨s1, s2⟩ := ilog2_spec (n : ℚ) hq.ne.symm
  rw [abs_of_pos hq] at s1 s2
  have he : ilog2 (n : ℚ) < 24 := by
    apply (pow2_lt_pow2_iff _ _).mp
    apply lt_of_le_of_lt s1
    rw [show (24 : Int) = ((24 : Nat) : Int) from rfl, pow2_natCast]
    norm_num
    exact hlt
  obtain ⟨d, hd⟩ : ∃ d : Nat, (d : Int) = 23 - ilog2 (n : ℚ) := ⟨(23 - ilog2 (n : ℚ)).toNat, by omega⟩
  apply flPos_of_scaled_int _ ((n * 2 ^ d : Nat) : Int)
  have hinv : pow2 (ilog2 (n : ℚ) - 23) * pow2 (d : Int) = 1 := by
    rw [← pow2_add, hd, show ilog2 (n : ℚ) - 23 + (23 - ilog2 (n : ℚ)) = 0 from by ring, pow2_zero]
  have hp := pow2_pos (ilog2 (n : ℚ) - 23)
  rw [div_eq_iff hp.ne.symm]
  push_cast
  rw [← pow2_natCast, mul_assoc, mul_comm (pow2 (d : Int)), hinv, mul_one]

theorem fl_intCast (n : Int) (h1 : -16777216 ≤ n) (h2 : n ≤ 16777216) : fl (n : ℚ) = (n : ℚ) := by
  rcases le_or_lt 0 n with h | h
  · obtain ⟨m, rfl⟩ := Int.eq_ofNat_of_zero_le h
    have := fl_natCast m (by omega)
    exact_mod_cast this
  · obtain ⟨m, hm⟩ := Int.eq_ofNat_of_zero_le (show 0 ≤ -n by omega)
    have h3 := fl_natCast m (by omega)
    have h4 : (n : ℚ) = -((m : Nat) : ℚ) := by
      have : n = -(m : Int) := by omega
      rw [this]; push_cast; ring
    rw [h4, fl_neg, h3]

/-! ### What `bound` computes in machine arithmetic -/

/-- The loop of `bound` followed by the fraction step is the greedy fill of the remaining
items. -/
theorem machine_boundLoop_bind_boundFraction (pw : List node) (W : Int) :
    ∀ (fuel j : Nat) (totweight : Int) (result : ℚ), j ≤ pw.length → pw.length - j ≤ fuel →
      (boundLoop pw (pw.length : Int) W fuel (j : Int) totweight result).bind
          (boundFraction pw (pw.length : Int) W)
        = some (greedyFill W totweight result (pw.drop j)) := by
  intro fuel
  induction fuel with
  | zero =>
    intro j totweight result hj hfuel
    have hjn : j = pw.length := by omega
    subst hjn
    simp [boundLoop, boundFraction, greedyFill]
  | succ fuel ih =>
    intro j totweight result hj hfuel
    by_cases hlt : j < pw.length
    · have hcast : ((j : Int) < (pw.length : Int)) := by exact_mod_cast hlt
      have hget : pw[j]? = some pw[j] := List.getElem?_eq_getElem hlt
      have hdrop : pw.drop j = pw[j] :: pw.drop (j + 1) := List.drop_eq_getElem_cons hlt
      by_cases hfit : wrap (totweight + pw[j].weight) ≤ W
      · have h := ih (j + 1) (wrap (totweight + pw[j].weight))
          (fl (result + toFloat pw[j].profit)) (by omega) (by omega)
        have hc : ((j : Int) + 1) = ((j + 1 : Nat) : Int) := by push_cast; ring
        rw [boundLoop, if_pos hcast, nodeAt_natCast, hget]
        simp only [hfit, if_true]
        rw [hc, h, hdrop, greedyFill, if_pos hfit]
      · rw [boundLoop, if_pos hcast, nodeAt_natCast, hget]
        simp only [hfit, if_false]
        rw [hdrop, greedyFill, if_neg hfit]
        simp [boundFraction, hcast, nodeAt_natCast, hget]
    · have hjn : j = pw.length := by omega
      subst hjn
      simp [boundLoop, boundFraction, greedyFill]

/-- On a node of weight below `W` and level from -1 to `n - 1`, `bound` reads inside the array
and stores the greedy fill of the remaining items. -/
theorem machine_bound_of_lt (pw : List node) (W : Int) (x : node) (hw : x.weight < W)
    (hl : -1 ≤ x.level) (hn : x.level + 1 ≤ (pw.length : Int)) :
    bound x pw (pw.length : Int) W
      = some { x with
          bound := greedyFill W x.weight (toFloat x.profit) (remaining pw x.level) } := by
  have hj : x.level + 1 = (((x.level + 1).toNat : Nat) : Int) := by omega
  have h := machine_boundLoop_bind_boundFraction pw W (pw.length - (x.level + 1).toNat)
    (x.level + 1).toNat x.weight (toFloat x.profit) (by omega) le_rfl
  have hf : ((pw.length : Int) - (x.level + 1)).toNat = pw.length - (x.level + 1).toNat := by
    omega
  unfold bound
  simp only [hw, if_true, hf]
  rw [hj] at *
  simp only [Int.toNat_ofNat] at h ⊢
  rw [h]
  simp [remaining]

/-- On a node of weight `W` or more, `bound` stores 0. -/
theorem machine_bound_of_ge (pw : List node) (n W : Int) (x : node) (hw : W ≤ x.weight) :
    bound x pw n W = some { x with bound := 0 } := by
  have : ¬ x.weight < W := by omega
  simp [bound, this]

/-- With level in range, `bound` reads inside the array and stores `boundValue`. -/
theorem machine_bound_eq (pw : List node) (W : Int) (x : node) (hl : -1 ≤ x.level)
    (hn : x.level + 1 ≤ (pw.length : Int)) :
    bound x pw (pw.length : Int) W = some { x with bound := boundValue pw W x } := by
  by_cases hw : x.weight < W
  · rw [machine_bound_of_lt pw W x hw hl hn]; simp [boundValue, hw]
  · rw [machine_bound_of_ge pw _ W x (by omega)]; simp [boundValue, hw]

/-- A node of the last level has no items left: its bound is its own profit, or 0. -/
theorem machine_boundValue_last (pw : List node) (W : Int) (x : node)
    (hn : x.level + 1 = (pw.length : Int)) :
    boundValue pw W x = if x.weight < W then toFloat x.profit else 0 := by
  have : (x.level + 1).toNat = pw.length := by omega
  simp [boundValue, remaining, this, greedyFill]

theorem toFloat_zero : toFloat 0 = 0 := by simp [toFloat, fl_zero]

theorem toFloat_nonneg (x : Int) (h : 0 ≤ x) : 0 ≤ toFloat x :=
  fl_nonneg _ (by exact_mod_cast h)

theorem toFloat_mono (x y : Int) (h : x ≤ y) : toFloat x ≤ toFloat y :=
  fl_mono _ _ (by exact_mod_cast h)

/-! ### One iteration of the loop in machine arithmetic -/

theorem machine_enqueueIfPromising_maxprofit (s : BFSState) (u : node) :
    (enqueueIfPromising s u).maxprofit = s.maxprofit := by
  unfold enqueueIfPromising; split <;> rfl

theorem machine_enqueueIfPromising_tw (s : BFSState) (u : node) :
    (enqueueIfPromising s u).tw = s.tw := by
  unfold enqueueIfPromising; split <;> rfl

theorem machine_enqueueIfPromising_best (s : BFSState) (u : node) :
    (enqueueIfPromising s u).best = s.best := by
  unfold enqueueIfPromising; split <;> rfl

theorem machine_enqueueIfPromising_i (s : BFSState) (u : node) :
    (enqueueIfPromising s u).i = s.i := by
  unfold enqueueIfPromising; split <;> rfl

theorem machine_mem_enqueueIfPromising (s : BFSState) (u x : node) :
    x ∈ (enqueueIfPromising s u).PQ ↔ (x = u ∧ toFloat s.maxprofit < u.bound) ∨ x ∈ s.PQ := by
  unfold enqueueIfPromising
  split
  · rename_i h; simp [mem_insertNode, h]
  · rename_i h; simp [h]

theorem machine_workLeft_enqueueIfPromising_le (n : Nat) (s : BFSState) (u : node) :
    workLeft n (enqueueIfPromising s u).PQ ≤ subtreeSize n u + workLeft n s.PQ := by
  unfold enqueueIfPromising
  split
  · simp [workLeft_insertNode]
  · simp

theorem machine_bfsIter_discard (pw : List node) (n W : Int) (s : BFSState) (v : node)
    (q : PriorityQueue) (hPQ : s.PQ = v :: q) (h : ¬ toFloat s.maxprofit < v.bound) :
    bfsIter pw n W s = some { s with PQ := q, i := wrap (s.i + 1) } := by
  simp [bfsIter, hPQ, removeNode, h]

/-- A queued node that passes the test `v.bound > maxprofit` weighs less than `W` and is not on
the last level. -/
theorem machine_promising_lt (pw : List node) (W : Int) (s : BFSState) (v : node)
    (hinv : QueueInv pw W s) (hv : v ∈ s.PQ) (h : toFloat s.maxprofit < v.bound) :
    v.weight < W ∧ v.level + 1 < (pw.length : Int) := by
  obtain ⟨h0, hq⟩ := hinv
  obtain ⟨hl, hn, hp, hb⟩ := hq v hv
  have h0q : (0 : ℚ) ≤ toFloat s.maxprofit := toFloat_nonneg _ h0
  have hpq : toFloat v.profit ≤ toFloat s.maxprofit := toFloat_mono _ _ hp
  have hw : v.weight < W := by
    by_contra hw
    rw [hb] at h
    simp only [boundValue, hw, if_false] at h
    linarith
  refine ⟨hw, ?_⟩
  by_contra hlast
  have hlast2 : v.level + 1 = (pw.length : Int) := by omega
  rw [hb, machine_boundValue_last pw W v hlast2] at h
  simp only [hw, if_true] at h
  linarith

theorem machine_bfsIter_expand (pw : List node) (W : Int) (s : BFSState) (v : node)
    (q : PriorityQueue) (hinv : QueueInv pw W s) (hPQ : s.PQ = v :: q)
    (h : toFloat s.maxprofit < v.bound) :
    ∃ it, nodeAt pw (v.level + 1) = some it ∧ it ∈ pw ∧
      remaining pw v.level = it :: remaining pw (v.level + 1) ∧
      bfsIter pw (pw.length : Int) W s = some (expandState pw W s v q it) := by
  have hv : v ∈ s.PQ := by rw [hPQ]; exact List.mem_cons_self _ _
  obtain ⟨hw, hlt⟩ := machine_promising_lt pw W s v hinv hv h
  obtain ⟨hl, hn, hp, hb⟩ := hinv.2 v hv
  have hk : (v.level + 1).toNat < pw.length := by omega
  have hk0 : 0 ≤ v.level + 1 := by omega
  refine ⟨pw[(v.level + 1).toNat], ?_, List.getElem_mem _, ?_, ?_⟩
  · simp [nodeAt, hk0, List.getElem?_eq_getElem hk]
  · have : (v.level + 1 + 1).toNat = (v.level + 1).toNat + 1 := by omega
    simp only [remaining, this]
    exact List.drop_eq_getElem_cons hk
  · have hat : nodeAt pw (v.level + 1) = some pw[(v.level + 1).toNat] := by
      simp [nodeAt, hk0, List.getElem?_eq_getElem hk]
    have hb1 := machine_bound_eq pw W (includeChild v pw[(v.level + 1).toNat])
      (by simp [includeChild, appendName, setName]; omega)
      (by simp [includeChild, appendName, setName]; omega)
    have hb2 := machine_bound_eq pw W
      (excludeChild v (boundedInclude pw W v pw[(v.level + 1).toNat]))
      (by simp [excludeChild, boundedInclude, includeChild, appendName, setName]; omega)
      (by simp [excludeChild, boundedInclude, includeChild, appendName, setName]; omega)
    simp only [bfsIter, hPQ, removeNode, h, if_true, hat]
    rw [hb1]
    simp only []
    rw [show ({ includeChild v pw[(v.level + 1).toNat] with
        bound := boundValue pw W (includeChild v pw[(v.level + 1).toNat]) } : node)
        = boundedInclude pw W v pw[(v.level + 1).toNat] from rfl, hb2]
    simp [expandState, boundedExclude, machine_enqueueIfPromising_i, recordBest_i]

/-! ### The two children in machine arithmetic -/

theorem machine_boundedInclude_level (pw : List node) (W : Int) (v it : node) :
    (boundedInclude pw W v it).level = v.level + 1 := rfl

theorem machine_boundedInclude_profit (pw : List node) (W : Int) (v it : node) :
    (boundedInclude pw W v it).profit = wrap (v.profit + it.profit) := rfl

theorem machine_boundedInclude_weight (pw : List node) (W : Int) (v it : node) :
    (boundedInclude pw W v it).weight = wrap (v.weight + it.weight) := rfl

theorem machine_boundedInclude_name (pw : List node) (W : Int) (v it : node) :
    (boundedInclude pw W v it).name = v.name ++ "&" ++ it.name := rfl

theorem machine_boundedExclude_level (pw : List node) (W : Int) (v it : node) :
    (boundedExclude pw W v it).level = v.level + 1 := rfl

theorem machine_boundedExclude_profit (pw : List node) (W : Int) (v it : node) :
    (boundedExclude pw W v it).profit = v.profit := rfl

theorem machine_boundedExclude_weight (pw : List node) (W : Int) (v it : node) :
    (boundedExclude pw W v it).weight = v.weight := rfl

theorem machine_boundedExclude_name (pw : List node) (W : Int) (v it : node) :
    (boundedExclude pw W v it).name = v.name ++ "-" := rfl

/-- The value of `bound` depends on the weight, profit and level of the node only. -/
theorem machine_boundValue_congr (pw : List node) (W : Int) (x y : node) (hw : x.weight = y.weight)
    (hp : x.profit = y.profit) (hl : x.level = y.level) :
    boundValue pw W x = boundValue pw W y := by
  simp [boundValue, hw, hp, hl]

theorem machine_boundedInclude_bound (pw : List node) (W : Int) (v it : node) :
    (boundedInclude pw W v it).bound = boundValue pw W (boundedInclude pw W v it) :=
  machine_boundValue_congr pw W _ _ rfl rfl rfl

theorem machine_boundedExclude_bound (pw : List node) (W : Int) (v it : node) :
    (boundedExclude pw W v it).bound = boundValue pw W (boundedExclude pw W v it) :=
  machine_boundValue_congr pw W _ _ rfl rfl rfl

/-- An include-child that weighs `W` or more has bound 0. -/
theorem machine_boundedInclude_bound_of_ge (pw : List node) (W : Int) (v it : node)
    (h : W ≤ wrap (v.weight + it.weight)) : (boundedInclude pw W v it).bound = 0 := by
  have : ¬ (includeChild v it).weight < W := by
    show ¬ wrap (v.weight + it.weight) < W
    omega
  simp [boundedInclude, boundValue, this]

/-! ### The state after an expansion in machine arithmetic -/

theorem machine_expandState_maxprofit (pw : List node) (W : Int) (s : BFSState) (v : node)
    (q : PriorityQueue) (it : node) :
    (expandState pw W s v q it).maxprofit
      = if wrap (v.weight + it.weight) ≤ W ∧ s.maxprofit < wrap (v.profit + it.profit)
        then wrap (v.profit + it.profit) else s.maxprofit := by
  simp only [expandState, machine_enqueueIfPromising_maxprofit, recordBest_maxprofit]
  rfl

theorem machine_le_expandState_maxprofit (pw : List node) (W : Int) (s : BFSState) (v : node)
    (q : PriorityQueue) (it : node) : s.maxprofit ≤ (expandState pw W s v q it).maxprofit := by
  rw [machine_expandState_maxprofit]; split <;> omega

theorem machine_mem_expandState (pw : List node) (W : Int) (s : BFSState) (v : node)
    (q : PriorityQueue) (it x : node) :
    x ∈ (expandState pw W s v q it).PQ ↔
      (x = boundedExclude pw W v it ∧
        toFloat (expandState pw W s v q it).maxprofit < (boundedExclude pw W v it).bound) ∨
      (x = boundedInclude pw W v it ∧
        toFloat (expandState pw W s v q it).maxprofit < (boundedInclude pw W v it).bound) ∨
      x ∈ q := by
  simp only [expandState, machine_mem_enqueueIfPromising, machine_enqueueIfPromising_maxprofit, recordBest_PQ]

theorem machine_workLeft_expandState_le (n : Nat) (pw : List node) (W : Int) (s : BFSState) (v : node)
    (q : PriorityQueue) (it : node) :
    workLeft n (expandState pw W s v q it).PQ
      ≤ subtreeSize n (boundedExclude pw W v it) + (subtreeSize n (boundedInclude pw W v it)
          + workLeft n q) := by
  have h1 := machine_workLeft_enqueueIfPromising_le n
    (enqueueIfPromising (recordBest W { s with PQ := q } (includeChild v it))
      (boundedInclude pw W v it)) (boundedExclude pw W v it)
  have h2 := machine_workLeft_enqueueIfPromising_le n
    (recordBest W { s with PQ := q } (includeChild v it)) (boundedInclude pw W v it)
  rw [recordBest_PQ] at h2
  have h3 : (expandState pw W s v q it).PQ = (enqueueIfPromising
      (enqueueIfPromising (recordBest W { s with PQ := q } (includeChild v it))
        (boundedInclude pw W v it)) (boundedExclude pw W v it)).PQ := rfl
  rw [h3]
  simp only [] at h2
  omega

/-- The queue invariant holds again after an expansion. -/
theorem machine_queueInv_expandState (pw : List node) (W : Int) (s : BFSState) (v : node)
    (q : PriorityQueue) (it : node) (hinv : QueueInv pw W s) (hPQ : s.PQ = v :: q)
    (h : toFloat s.maxprofit < v.bound) : QueueInv pw W (expandState pw W s v q it) := by
  have hv : v ∈ s.PQ := by rw [hPQ]; exact List.mem_cons_self _ _
  obtain ⟨hw, hlt⟩ := machine_promising_lt pw W s v hinv hv h
  obtain ⟨hl, hn, hp, hb⟩ := hinv.2 v hv
  have hmono := machine_le_expandState_maxprofit pw W s v q it
  have h0 : 0 ≤ (expandState pw W s v q it).maxprofit := le_trans hinv.1 hmono
  refine ⟨h0, ?_⟩
  intro x hx
  rcases (machine_mem_expandState pw W s v q it x).mp hx with ⟨rfl, _⟩ | ⟨rfl, hprom⟩ | hxq
  · refine ⟨?_, ?_, ?_, machine_boundedExclude_bound pw W v it⟩
    · rw [machine_boundedExclude_level]; omega
    · rw [machine_boundedExclude_level]; omega
    · rw [machine_boundedExclude_profit]; omega
  · refine ⟨?_, ?_, ?_, machine_boundedInclude_bound pw W v it⟩
    · rw [machine_boundedInclude_level]; omega
    · rw [machine_boundedInclude_level]; omega
    · rw [machine_boundedInclude_profit]
      by_cases hfit : wrap (v.weight + it.weight) ≤ W
      · rw [machine_expandState_maxprofit]
        split <;> omega
      · exfalso
        rw [machine_boundedInclude_bound_of_ge pw W v it (by omega)] at hprom
        have : (0 : ℚ) ≤ toFloat (expandState pw W s v q it).maxprofit := toFloat_nonneg _ h0
        linarith
  · have hxs : x ∈ s.PQ := by rw [hPQ]; exact List.mem_cons_of_mem _ hxq
    obtain ⟨a, b, c, d⟩ := hinv.2 x hxs
    exact ⟨a, b, le_trans c hmono, d⟩

/-- The queue invariant holds again after a node is discarded. -/
theorem machine_queueInv_discard (pw : List node) (W : Int) (s : BFSState) (v : node)
    (q : PriorityQueue) (hinv : QueueInv pw W s) (hPQ : s.PQ = v :: q) :
    QueueInv pw W { s with PQ := q, i := wrap (s.i + 1) } := by
  refine ⟨hinv.1, ?_⟩
  intro x hx
  exact hinv.2 x (by rw [hPQ]; exact List.mem_cons_of_mem _ hx)

/-! ### The loop in machine arithmetic -/

/-- On a non-empty queue an iteration either discards the dequeued node or expands it, and it
never reads outside the array. -/
theorem machine_bfsIter_cases (pw : List node) (W : Int) (s : BFSState) (hinv : QueueInv pw W s)
    (hne : s.PQ ≠ []) :
    ∃ v q, s.PQ = v :: q ∧
      ((¬ toFloat s.maxprofit < v.bound ∧
          bfsIter pw (pw.length : Int) W s = some { s with PQ := q, i := wrap (s.i + 1) }) ∨
        (toFloat s.maxprofit < v.bound ∧ v.weight < W ∧ v.level + 1 < (pw.length : Int) ∧
          ∃ it, nodeAt pw (v.level + 1) = some it ∧ it ∈ pw ∧
            remaining pw v.level = it :: remaining pw (v.level + 1) ∧
            bfsIter pw (pw.length : Int) W s = some (expandState pw W s v q it))) := by
  obtain ⟨v, q, hPQ⟩ := List.exists_cons_of_ne_nil hne
  refine ⟨v, q, hPQ, ?_⟩
  by_cases h : toFloat s.maxprofit < v.bound
  · right
    have hv : v ∈ s.PQ := by rw [hPQ]; exact List.mem_cons_self _ _
    obtain ⟨hw, hlt⟩ := machine_promising_lt pw W s v hinv hv h
    exact ⟨h, hw, hlt, machine_bfsIter_expand pw W s v q hinv hPQ h⟩
  · left
    exact ⟨h, machine_bfsIter_discard pw _ W s v q hPQ h⟩

/-- Induction over the loop of `bestFirstSearch`: a property that holds at the head of the loop
and is kept by a discard and by an expansion holds when the loop ends, and the loop does end,
with an empty queue, when the fuel covers the work left. -/
theorem machine_bfsLoop_induction (pw : List node) (W : Int) (P : BFSState → Prop)
    (hdiscard : ∀ s v q, QueueInv pw W s → P s → s.PQ = v :: q → ¬ toFloat s.maxprofit < v.bound →
      P { s with PQ := q, i := wrap (s.i + 1) })
    (hexpand : ∀ s v q it, QueueInv pw W s → P s → s.PQ = v :: q → toFloat s.maxprofit < v.bound →
      v.weight < W → v.level + 1 < (pw.length : Int) → nodeAt pw (v.level + 1) = some it →
      it ∈ pw → remaining pw v.level = it :: remaining pw (v.level + 1) →
      P (expandState pw W s v q it)) :
    ∀ (fuel : Nat) (s : BFSState), QueueInv pw W s → P s → workLeft pw.length s.PQ ≤ fuel →
      ∃ s1, bfsLoop pw (pw.length : Int) W fuel s = some s1 ∧ s1.PQ = [] ∧ P s1 ∧
        QueueInv pw W s1 := by
  intro fuel
  induction fuel with
  | zero =>
    intro s hinv hP hfuel
    have hempty : s.PQ = [] := by
      by_contra hne
      obtain ⟨v, q, hPQ⟩ := List.exists_cons_of_ne_nil hne
      have hv : v ∈ s.PQ := by rw [hPQ]; exact List.mem_cons_self _ _
      have := subtreeSize_pos pw.length v (hinv.2 v hv).2.1
      rw [hPQ] at hfuel
      simp [workLeft] at hfuel
      omega
    exact ⟨s, by simp [bfsLoop, isEmptyQueue, hempty], hempty, hP, hinv⟩
  | succ fuel ih =>
    intro s hinv hP hfuel
    by_cases hempty : s.PQ = []
    · exact ⟨s, by simp [bfsLoop, isEmptyQueue, hempty], hempty, hP, hinv⟩
    · obtain ⟨v, q, hPQ, hcase⟩ := machine_bfsIter_cases pw W s hinv hempty
      have hv : v ∈ s.PQ := by rw [hPQ]; exact List.mem_cons_self _ _
      have hwl : workLeft pw.length s.PQ = subtreeSize pw.length v + workLeft pw.length q := by
        rw [hPQ]; simp [workLeft]
      have hne : isEmptyQueue s.PQ = false := by simp [isEmptyQueue, hPQ]
      rcases hcase with ⟨hnp, hiter⟩ | ⟨hp, hw, hlt, it, hat, hmem, hrem, hiter⟩
      · have hpos := subtreeSize_pos pw.length v (hinv.2 v hv).2.1
        obtain ⟨s1, h1, h2, h3, h4⟩ := ih { s with PQ := q, i := wrap (s.i + 1) }
          (machine_queueInv_discard pw W s v q hinv hPQ) (hdiscard s v q hinv hP hPQ hnp)
          (by simp only []; omega)
        exact ⟨s1, by simp only [bfsLoop, hne, hiter]; exact h1, h2, h3, h4⟩
      · have hch := subtreeSize_children pw.length v (boundedExclude pw W v it)
          (boundedInclude pw W v it) (machine_boundedExclude_level pw W v it)
          (machine_boundedInclude_level pw W v it) hlt
        have hle := machine_workLeft_expandState_le pw.length pw W s v q it
        obtain ⟨s1, h1, h2, h3, h4⟩ := ih (expandState pw W s v q it)
          (machine_queueInv_expandState pw W s v q it hinv hPQ hp)
          (hexpand s v q it hinv hP hPQ hp hw hlt hat hmem hrem) (by omega)
        exact ⟨s1, by simp only [bfsLoop, hne, hiter]; exact h1, h2, h3, h4⟩

/-- The start of `bestFirstSearch` never reads outside the array. -/
theorem machine_bfsInit_eq (pw : List node) (W tw : Int) (best : Option String) :
    bfsInit pw (pw.length : Int) W tw best = some (initState pw W tw best) := by
  have h := machine_bound_eq pw W rootNode (by simp [rootNode]) (by simp [rootNode])
  simp only [bfsInit, h]
  rfl

theorem machine_queueInv_initState (pw : List node) (W tw : Int) (best : Option String) :
    QueueInv pw W (initState pw W tw best) := by
  refine ⟨le_rfl, ?_⟩
  intro x hx
  have hx1 : x = boundedRoot pw W := by simpa [initState] using hx
  subst hx1
  refine ⟨by simp [boundedRoot, rootNode], by simp [boundedRoot, rootNode],
    by simp [boundedRoot, rootNode, initState], ?_⟩
  exact machine_boundValue_congr pw W _ _ rfl rfl rfl

theorem machine_workLeft_initState (pw : List node) (W tw : Int) (best : Option String) :
    workLeft pw.length (initState pw W tw best).PQ = 2 ^ (pw.length + 1) - 1 := by
  have : ((pw.length : Int) - (-1)).toNat = pw.length + 1 := by omega
  simp [workLeft, initState, subtreeSize, boundedRoot, rootNode, this]

/-- Induction over a run of `bestFirstSearch`: with fuel for the `2 ^ (n + 1) - 1` vertices of
the state space tree the function returns, and a property of the loop state that holds at the
start and is kept by every iteration holds for the state it returns from. -/
theorem machine_bestFirstSearch_induction (pw : List node) (W tw : Int) (best : Option String)
    (P : BFSState → Prop) (hinit : P (initState pw W tw best))
    (hdiscard : ∀ s v q, QueueInv pw W s → P s → s.PQ = v :: q → ¬ toFloat s.maxprofit < v.bound →
      P { s with PQ := q, i := wrap (s.i + 1) })
    (hexpand : ∀ s v q it, QueueInv pw W s → P s → s.PQ = v :: q → toFloat s.maxprofit < v.bound →
      v.weight < W → v.level + 1 < (pw.length : Int) → nodeAt pw (v.level + 1) = some it →
      it ∈ pw → remaining pw v.level = it :: remaining pw (v.level + 1) →
      P (expandState pw W s v q it))
    (fuel : Nat) (hfuel : 2 ^ (pw.length + 1) - 1 ≤ fuel) :
    ∃ s1, bestFirstSearch fuel pw (pw.length : Int) W tw best
        = some (s1.maxprofit, s1.tw, s1.best) ∧ s1.PQ = [] ∧ P s1 ∧ QueueInv pw W s1 := by
  obtain ⟨s1, h1, h2, h3, h4⟩ := machine_bfsLoop_induction pw W P hdiscard hexpand fuel
    (initState pw W tw best) (machine_queueInv_initState pw W tw best) hinit
    (by rw [machine_workLeft_initState]; exact hfuel)
  exact ⟨s1, by simp [bestFirstSearch, machine_bfsInit_eq, h1], h2, h3, h4⟩

/-! ### Fuel in machine arithmetic -/

theorem machine_bfsLoop_mono (pw : List node) (n W : Int) :
    ∀ (fuel : Nat) (s r : BFSState), bfsLoop pw n W fuel s = some r →
      ∀ k, bfsLoop pw n W (fuel + k) s = some r := by
  intro fuel
  induction fuel with
  | zero =>
    intro s r h k
    by_cases he : isEmptyQueue s.PQ = true
    · simp only [bfsLoop, he, if_true] at h
      cases k <;> simp [bfsLoop, he, h]
    · simp [bfsLoop, he] at h
  | succ fuel ih =>
    intro s r h k
    have hk : fuel + 1 + k = (fuel + k) + 1 := by omega
    rw [hk]
    by_cases he : isEmptyQueue s.PQ = true
    · simp only [bfsLoop, he, if_true] at h ⊢
      exact h
    · simp only [bfsLoop, he] at h ⊢
      cases hiter : bfsIter pw n W s with
      | none => simp [hiter] at h
      | some s1 =>
        simp only [hiter] at h ⊢
        exact ih s1 r h k

theorem machine_bestFirstSearch_mono (pw : List node) (n W tw : Int) (best : Option String)
    (fuel fuel1 : Nat) (r : Int × Int × Option String)
    (h : bestFirstSearch fuel pw n W tw best = some r) (hle : fuel ≤ fuel1) :
    bestFirstSearch fuel1 pw n W tw best = some r := by
  obtain ⟨k, rfl⟩ : ∃ k, fuel1 = fuel + k := ⟨fuel1 - fuel, by omega⟩
  unfold bestFirstSearch at h ⊢
  cases hinit : bfsInit pw n W tw best with
  | none => simp [hinit] at h
  | some s0 =>
    simp only [hinit] at h ⊢
    cases hloop : bfsLoop pw n W fuel s0 with
    | none => simp [hloop] at h
    | some s1 =>
      rw [machine_bfsLoop_mono pw n W fuel s0 s1 hloop k]
      simpa [hloop] using h

/-- A run of the model that answers is the return of the call. -/
theorem machine_returns_of_eq_some (pw : List node) (W tw : Int) (best : Option String) (fuel : Nat)
    (r : Int × Int × Option String)
    (h : bestFirstSearch fuel pw (pw.length : Int) W tw best = some r) :
    Returns pw W tw best r :=
  ⟨fuel, fun fuel1 hle => machine_bestFirstSearch_mono pw _ W tw best fuel fuel1 r h hle⟩

/-- The call returns one result only. -/
theorem machine_returns_unique (pw : List node) (W tw : Int) (best : Option String)
    (r r1 : Int × Int × Option String) (h : Returns pw W tw best r)
    (h1 : Returns pw W tw best r1) : r = r1 := by
  obtain ⟨f, hf⟩ := h
  obtain ⟨f1, hf1⟩ := h1
  have a := hf (max f f1) (le_max_left _ _)
  have b := hf1 (max f f1) (le_max_right _ _)
  rw [a] at b
  exact Option.some.inj b

/-- Induction over a run of `bestFirstSearch`, for the call: it returns, and a property of the
loop state that holds at the start and is kept by every iteration holds for the state it returns
from. -/
theorem machine_returns_induction (pw : List node) (W tw : Int) (best : Option String)
    (P : BFSState → Prop) (hinit : P (initState pw W tw best))
    (hdiscard : ∀ s v q, QueueInv pw W s → P s → s.PQ = v :: q → ¬ toFloat s.maxprofit < v.bound →
      P { s with PQ := q, i := wrap (s.i + 1) })
    (hexpand : ∀ s v q it, QueueInv pw W s → P s → s.PQ = v :: q → toFloat s.maxprofit < v.bound →
      v.weight < W → v.level + 1 < (pw.length : Int) → nodeAt pw (v.level + 1) = some it →
      it ∈ pw → remaining pw v.level = it :: remaining pw (v.level + 1) →
      P (expandState pw W s v q it)) :
    ∃ s1, Returns pw W tw best (s1.maxprofit, s1.tw, s1.best) ∧ s1.PQ = [] ∧ P s1 ∧
      QueueInv pw W s1 := by
  obtain ⟨s1, h1, h2, h3, h4⟩ := machine_bestFirstSearch_induction pw W tw best P hinit hdiscard hexpand
    (2 ^ (pw.length + 1) - 1) le_rfl
  exact ⟨s1, machine_returns_of_eq_some pw W tw best _ _ h1, h2, h3, h4⟩

/-! ### The error of the fraction step -/

theorem wrap_of_inRange (x : Int) (h1 : -2147483648 ≤ x) (h2 : x < 2147483648) : wrap x = x := by
  unfold wrap; omega

theorem toFloat_of_small (x : Int) (h1 : -16777216 ≤ x) (h2 : x ≤ 16777216) :
    toFloat x = (x : ℚ) := fl_intCast x h1 h2

theorem toFloat_ge (x : Int) (h : 0 ≤ x) : (1 - 1 / 16777216) * (x : ℚ) ≤ toFloat x :=
  fl_ge _ (by exact_mod_cast h)

theorem toFloat_le (x : Int) (h : 0 ≤ x) : toFloat x ≤ (1 + 1 / 16777216) * (x : ℚ) :=
  fl_le _ (by exact_mod_cast h)

/-- The fraction step of `bound` in machine arithmetic stays within the factors `1 - 5 * 2^-24`
and `1 + 6 * 2^-24` of its exact value `R + c * (p / w)`. -/
theorem fraction_near (R c p w : Int) (hR : 0 ≤ R) (hc : 0 ≤ c) (hp0 : 0 ≤ p)
    (hp : p ≤ 16777216) (hw : 0 < w) :
    (1 - 5 / 16777216) * ((R : ℚ) + (c : ℚ) * ((p : ℚ) / (w : ℚ)))
        ≤ fl ((R : ℚ) + fl (toFloat c * fl (toFloat p / toFloat w))) ∧
      fl ((R : ℚ) + fl (toFloat c * fl (toFloat p / toFloat w)))
        ≤ (1 + 6 / 16777216) * ((R : ℚ) + (c : ℚ) * ((p : ℚ) / (w : ℚ))) := by
  have hRq : (0 : ℚ) ≤ (R : ℚ) := by exact_mod_cast hR
  have hcq : (0 : ℚ) ≤ (c : ℚ) := by exact_mod_cast hc
  have hpq : (0 : ℚ) ≤ (p : ℚ) := by exact_mod_cast hp0
  have hwq : (0 : ℚ) < (w : ℚ) := by exact_mod_cast hw
  have hfp : toFloat p = (p : ℚ) := toFloat_of_small p (by omega) hp
  have hfc1 := toFloat_ge c hc
  have hfc2 := toFloat_le c hc
  have hfc0 := toFloat_nonneg c hc
  have hfw1 := toFloat_ge w hw.le
  have hfw2 := toFloat_le w hw.le
  have hfw0 : 0 < toFloat w := fl_pos _ hwq
  rw [hfp]
  have hr0 : 0 ≤ (p : ℚ) / toFloat w := div_nonneg hpq hfw0.le
  have hρ0 : 0 ≤ (p : ℚ) / (w : ℚ) := div_nonneg hpq hwq.le
  have hrw : (p : ℚ) / toFloat w * toFloat w = (p : ℚ) := div_mul_cancel₀ _ hfw0.ne.symm
  have hρw : (p : ℚ) / (w : ℚ) * (w : ℚ) = (p : ℚ) := div_mul_cancel₀ _ hwq.ne.symm
  -- the quotient against the exact ratio
  have hq1 : (1 - 1 / 16777216) * ((p : ℚ) / toFloat w) ≤ (p : ℚ) / (w : ℚ) := by
    have h1 : (p : ℚ) / toFloat w * ((1 - 1 / 16777216) * (w : ℚ)) ≤ (p : ℚ) / toFloat w * toFloat w :=
      mul_le_mul_of_nonneg_left hfw1 hr0
    rw [hrw] at h1
    rw [le_div_iff₀ hwq]
    linarith
  have hq2 : (p : ℚ) / (w : ℚ) ≤ (1 + 1 / 16777216) * ((p : ℚ) / toFloat w) := by
    have h1 : (p : ℚ) / toFloat w * toFloat w ≤ (p : ℚ) / toFloat w * ((1 + 1 / 16777216) * (w : ℚ)) :=
      mul_le_mul_of_nonneg_left hfw2 hr0
    rw [hrw] at h1
    rw [div_le_iff₀ hwq]
    linarith
  have hs1 := fl_ge _ hr0
  have hs2 := fl_le _ hr0
  have hs0 := fl_nonneg _ hr0
  have hm0 : 0 ≤ toFloat c * fl ((p : ℚ) / toFloat w) := mul_nonneg hfc0 hs0
  have ht1 := fl_ge _ hm0
  have ht2 := fl_le _ hm0
  have ht0 := fl_nonneg _ hm0
  have hz0 : 0 ≤ (R : ℚ) + fl (toFloat c * fl ((p : ℚ) / toFloat w)) := add_nonneg hRq ht0
  have hf1 := fl_ge _ hz0
  have hf2 := fl_le _ hz0
  -- products, one factor at a time
  have a1 : (c : ℚ) * ((p : ℚ) / (w : ℚ)) ≤ (c : ℚ) * ((1 + 1 / 16777216) * ((p : ℚ) / toFloat w)) :=
    mul_le_mul_of_nonneg_left hq2 hcq
  have a2 : (1 - 1 / 16777216) * (c : ℚ) * ((p : ℚ) / toFloat w) ≤ toFloat c * ((p : ℚ) / toFloat w) :=
    mul_le_mul_of_nonneg_right hfc1 hr0
  have a3 : toFloat c * ((1 - 1 / 16777216) * ((p : ℚ) / toFloat w))
      ≤ toFloat c * fl ((p : ℚ) / toFloat w) := mul_le_mul_of_nonneg_left hs1 hfc0
  have b1 : (c : ℚ) * ((1 - 1 / 16777216) * ((p : ℚ) / toFloat w)) ≤ (c : ℚ) * ((p : ℚ) / (w : ℚ)) :=
    mul_le_mul_of_nonneg_left hq1 hcq
  have b2 : toFloat c * ((p : ℚ) / toFloat w) ≤ (1 + 1 / 16777216) * (c : ℚ) * ((p : ℚ) / toFloat w) :=
    mul_le_mul_of_nonneg_right hfc2 hr0
  have b3 : toFloat c * fl ((p : ℚ) / toFloat w)
      ≤ toFloat c * ((1 + 1 / 16777216) * ((p : ℚ) / toFloat w)) :=
    mul_le_mul_of_nonneg_left hs2 hfc0
  have hY0 : 0 ≤ (c : ℚ) * ((p : ℚ) / (w : ℚ)) := mul_nonneg hcq hρ0
  have hX0 : 0 ≤ (c : ℚ) * ((p : ℚ) / toFloat w) := mul_nonneg hcq hr0
  have hA0 : 0 ≤ toFloat c * ((p : ℚ) / toFloat w) := mul_nonneg hfc0 hr0
  generalize (c : ℚ) * ((p : ℚ) / (w : ℚ)) = Y at *
  generalize fl ((R : ℚ) + fl (toFloat c * fl ((p : ℚ) / toFloat w))) = f at *
  generalize fl (toFloat c * fl ((p : ℚ) / toFloat w)) = t at *
  generalize toFloat c * fl ((p : ℚ) / toFloat w) = m at *
  have a1x : Y ≤ (1 + 1 / 16777216) * ((c : ℚ) * ((p : ℚ) / toFloat w)) := by linarith
  have a2x : (1 - 1 / 16777216) * ((c : ℚ) * ((p : ℚ) / toFloat w))
      ≤ toFloat c * ((p : ℚ) / toFloat w) := by linarith
  have a3x : (1 - 1 / 16777216) * (toFloat c * ((p : ℚ) / toFloat w)) ≤ m := by linarith
  have b1x : (1 - 1 / 16777216) * ((c : ℚ) * ((p : ℚ) / toFloat w)) ≤ Y := by linarith
  have b2x : toFloat c * ((p : ℚ) / toFloat w)
      ≤ (1 + 1 / 16777216) * ((c : ℚ) * ((p : ℚ) / toFloat w)) := by linarith
  have b3x : m ≤ (1 + 1 / 16777216) * (toFloat c * ((p : ℚ) / toFloat w)) := by linarith
  generalize (c : ℚ) * ((p : ℚ) / toFloat w) = X at *
  generalize toFloat c * ((p : ℚ) / toFloat w) = A at *
  constructor
  · -- t ≥ (1-u)^3 X, X ≥ Y / (1+u)
    have e1 : (1 - 1 / 16777216) * ((1 - 1 / 16777216) * ((1 - 1 / 16777216) * X)) ≤ t := by
      have := mul_le_mul_of_nonneg_left a2x (show (0 : ℚ) ≤ 1 - 1 / 16777216 by norm_num)
      have := mul_le_mul_of_nonneg_left a3x (show (0 : ℚ) ≤ 1 - 1 / 16777216 by norm_num)
      linarith
    linarith
  · have e1 : t ≤ (1 + 1 / 16777216) * ((1 + 1 / 16777216) * ((1 + 1 / 16777216) * X)) := by
      have := mul_le_mul_of_nonneg_left b2x (show (0 : ℚ) ≤ 1 + 1 / 16777216 by norm_num)
      have := mul_le_mul_of_nonneg_left b3x (show (0 : ℚ) ≤ 1 + 1 / 16777216 by norm_num)
      linarith
    linarith

/-! ### The greedy fill against its exact value -/

theorem sumW_map_exactItem (L : List node) : sumW (L.map exactItem) = sumW L := by
  induction L with
  | nil => rfl
  | cons it L ih => simp only [List.map_cons, sumW_cons, ih]; rfl

theorem sumP_map_exactItem (L : List node) : sumP (L.map exactItem) = sumP L := by
  induction L with
  | nil => rfl
  | cons it L ih => simp only [List.map_cons, sumP_cons, ih]; rfl

theorem sumP_nonneg_of_nonneg (S : List node) (h : ∀ it ∈ S, 0 ≤ it.profit) : 0 ≤ sumP S := by
  induction S with
  | nil => simp [sumP_nil]
  | cons it S ih =>
    rw [sumP_cons]
    have h1 := h it (List.mem_cons_self _ _)
    have h2 := ih (fun x hx => h x (List.mem_cons_of_mem _ hx))
    omega

/-- The greedy fill of `bound` in machine arithmetic stays within the factors `1 - 5 * 2^-24`
and `1 + 6 * 2^-24` of the greedy fill in exact arithmetic with exact ratios, as long as the
`int` sums do not overflow and the sums of profits are at most `2 ^ 24`. -/
theorem greedyFill_near (W : Int) (hW : W < 2147483648) :
    ∀ (L : List node), (∀ it ∈ L, 0 ≤ it.weight ∧ 0 ≤ it.profit) →
      (∀ it ∈ L, it.pw
        = if it.weight > 0 then fl (toFloat it.profit / toFloat it.weight) else 0) →
      ∀ (tot R : Int), 0 ≤ tot → tot ≤ W → tot + sumW L < 2147483648 → 0 ≤ R →
        R + sumP L ≤ 16777216 →
        (1 - 5 / 16777216) * ((R : ℚ) + fracBound (W - tot) (L.map exactItem))
            ≤ greedyFill W tot (R : ℚ) L ∧
          greedyFill W tot (R : ℚ) L
            ≤ (1 + 6 / 16777216) * ((R : ℚ) + fracBound (W - tot) (L.map exactItem)) := by
  intro L
  induction L with
  | nil =>
    intro _ _ tot R _ _ _ hR _
    have hRq : (0 : ℚ) ≤ (R : ℚ) := by exact_mod_cast hR
    simp only [List.map_nil, fracBound, greedyFill, add_zero]
    constructor <;> linarith
  | cons it L ih =>
    intro hnn hst tot R htot htotW hsum hR hRsum
    obtain ⟨hw0, hp0⟩ := hnn it (List.mem_cons_self _ _)
    have hnnL : ∀ x ∈ L, 0 ≤ x.weight ∧ 0 ≤ x.profit :=
      fun x hx => hnn x (List.mem_cons_of_mem _ hx)
    have hstL : ∀ x ∈ L, x.pw
        = if x.weight > 0 then fl (toFloat x.profit / toFloat x.weight) else 0 :=
      fun x hx => hst x (List.mem_cons_of_mem _ hx)
    have hsW := sumW_nonneg_of_nonneg L (fun x hx => (hnnL x hx).1)
    have hsP := sumP_nonneg_of_nonneg L (fun x hx => (hnnL x hx).2)
    rw [sumW_cons] at hsum
    rw [sumP_cons] at hRsum
    have hwrap : wrap (tot + it.weight) = tot + it.weight :=
      wrap_of_inRange _ (by omega) (by omega)
    by_cases hfit : tot + it.weight ≤ W
    · have hfit2 : it.weight ≤ W - tot := by omega
      have hfp : toFloat it.profit = (it.profit : ℚ) :=
        toFloat_of_small _ (by omega) (by omega)
      have hadd : fl ((R : ℚ) + toFloat it.profit) = ((R + it.profit : Int) : ℚ) := by
        rw [hfp]
        have := fl_intCast (R + it.profit) (by omega) (by omega)
        push_cast at this ⊢
        exact this
      have h := ih hnnL hstL (tot + it.weight) (R + it.profit) (by omega) hfit (by omega)
        (by omega) (by omega)
      have hcap : W - (tot + it.weight) = W - tot - it.weight := by ring
      rw [hcap] at h
      have hfb : fracBound (W - tot) ((it :: L).map exactItem)
          = (it.profit : ℚ) + fracBound (W - tot - it.weight) (L.map exactItem) := by
        rw [List.map_cons, fracBound]
        exact if_pos hfit2
      rw [greedyFill, hwrap, if_pos hfit, hadd, hfb]
      push_cast at h ⊢
      constructor
      · linarith [h.1]
      · linarith [h.2]
    · have hfit2 : ¬ it.weight ≤ W - tot := by omega
      have hwpos : 0 < it.weight := by omega
      have hc : wrap (W - tot) = W - tot := wrap_of_inRange _ (by omega) (by omega)
      have hpw : it.pw = fl (toFloat it.profit / toFloat it.weight) := by
        rw [hst it (List.mem_cons_self _ _)]
        exact if_pos hwpos
      have hfb : fracBound (W - tot) ((it :: L).map exactItem)
          = ((W - tot : Int) : ℚ) * ((it.profit : ℚ) / (it.weight : ℚ)) := by
        rw [List.map_cons, fracBound]
        rw [if_neg (show ¬ (exactItem it).weight ≤ W - tot from hfit2)]
        show ((W - tot : Int) : ℚ) * ratio it = _
        rw [ratio, if_pos hwpos]
      rw [greedyFill, hwrap, if_neg hfit, hc, hpw, hfb]
      exact fraction_near R (W - tot) it.profit it.weight hR (by omega) hp0 (by omega) hwpos

/-- When all remaining items fit together and the sums of profits stay within `2 ^ 24`, the
greedy fill in machine arithmetic is the exact sum of the profits. -/
theorem greedyFill_of_all_fit (W : Int) (hW : W < 2147483648) :
    ∀ (L : List node), (∀ it ∈ L, 0 ≤ it.weight ∧ 0 ≤ it.profit) →
      ∀ (tot R : Int), -2147483648 ≤ tot → tot + sumW L ≤ W → 0 ≤ R →
        R + sumP L ≤ 16777216 →
        greedyFill W tot (R : ℚ) L = ((R + sumP L : Int) : ℚ) := by
  intro L
  induction L with
  | nil =>
    intro _ tot R _ _ _ _
    simp [greedyFill, sumP_nil]
  | cons it L ih =>
    intro hnn tot R htot hsum hR hRsum
    obtain ⟨hw0, hp0⟩ := hnn it (List.mem_cons_self _ _)
    have hnnL : ∀ x ∈ L, 0 ≤ x.weight ∧ 0 ≤ x.profit :=
      fun x hx => hnn x (List.mem_cons_of_mem _ hx)
    have hsW := sumW_nonneg_of_nonneg L (fun x hx => (hnnL x hx).1)
    have hsP := sumP_nonneg_of_nonneg L (fun x hx => (hnnL x hx).2)
    rw [sumW_cons] at hsum
    rw [sumP_cons] at hRsum ⊢
    have hwrap : wrap (tot + it.weight) = tot + it.weight :=
      wrap_of_inRange _ (by omega) (by omega)
    have hfit : tot + it.weight ≤ W := by omega
    have hfp : toFloat it.profit = (it.profit : ℚ) :=
      toFloat_of_small _ (by omega) (by omega)
    have hadd : fl ((R : ℚ) + toFloat it.profit) = ((R + it.profit : Int) : ℚ) := by
      rw [hfp]
      have := fl_intCast (R + it.profit) (by omega) (by omega)
      push_cast at this ⊢
      exact this
    have h := ih hnnL (tot + it.weight) (R + it.profit) (by omega) (by omega) (by omega)
      (by omega)
    rw [greedyFill, hwrap, if_pos hfit, hadd, h]
    push_cast
    ring

/-! ### The exact greedy fill on items of weight 0 or more -/

/-- Leaving out the items of weight 0 does not raise the exact greedy fill. -/
theorem fracBound_filter_le :
    ∀ (L : List node), (∀ it ∈ L, 0 ≤ it.weight ∧ 0 ≤ it.profit) → ∀ cap : Int, 0 ≤ cap →
      fracBound cap (L.filter (fun it => decide (0 < it.weight))) ≤ fracBound cap L := by
  intro L
  induction L with
  | nil => intro _ cap _; simp [fracBound]
  | cons it L ih =>
    intro hnn cap hcap
    obtain ⟨hw0, hp0⟩ := hnn it (List.mem_cons_self _ _)
    have hnnL : ∀ x ∈ L, 0 ≤ x.weight ∧ 0 ≤ x.profit :=
      fun x hx => hnn x (List.mem_cons_of_mem _ hx)
    have hpq : (0 : ℚ) ≤ (it.profit : ℚ) := by exact_mod_cast hp0
    by_cases hpos : 0 < it.weight
    · rw [List.filter_cons_of_pos (by simpa using hpos)]
      by_cases hfit : it.weight ≤ cap
      · rw [fracBound, if_pos hfit, fracBound, if_pos hfit]
        have := ih hnnL (cap - it.weight) (by omega)
        linarith
      · rw [fracBound, if_neg hfit, fracBound, if_neg hfit]
    · rw [List.filter_cons_of_neg (by simpa using hpos)]
      have hw : it.weight = 0 := by omega
      have h := ih hnnL cap hcap
      have hfit : it.weight ≤ cap := by omega
      rw [fracBound, if_pos hfit, hw, sub_zero]
      linarith

/-! ### Selections of items that are not negative -/

theorem sumW_le_of_sublist (S L : List node) (h : S.Sublist L) (hnn : ∀ it ∈ L, 0 ≤ it.weight) :
    sumW S ≤ sumW L := by
  induction h with
  | slnil => exact le_rfl
  | cons a _ ih =>
    rw [sumW_cons]
    have := ih (fun x hx => hnn x (List.mem_cons_of_mem _ hx))
    have := hnn a (List.mem_cons_self _ _)
    omega
  | cons₂ a _ ih =>
    rw [sumW_cons, sumW_cons]
    have := ih (fun x hx => hnn x (List.mem_cons_of_mem _ hx))
    omega

theorem sumP_le_of_sublist (S L : List node) (h : S.Sublist L) (hnn : ∀ it ∈ L, 0 ≤ it.profit) :
    sumP S ≤ sumP L := by
  induction h with
  | slnil => exact le_rfl
  | cons a _ ih =>
    rw [sumP_cons]
    have := ih (fun x hx => hnn x (List.mem_cons_of_mem _ hx))
    have := hnn a (List.mem_cons_self _ _)
    omega
  | cons₂ a _ ih =>
    rw [sumP_cons, sumP_cons]
    have := ih (fun x hx => hnn x (List.mem_cons_of_mem _ hx))
    omega

/-- The exact greedy fill with exact ratios is an upper bound for every selection of items of
positive weight that fits, also when the array holds items of weight 0. -/
theorem sumP_le_fracBound_exact (L : List node) (hnn : ∀ it ∈ L, 0 ≤ it.weight ∧ 0 < it.profit)
    (hsorted : L.Pairwise (fun a b => ratio b ≤ ratio a)) (cap : Int) (hcap : 0 ≤ cap)
    (T : List node) (hT : T.Sublist L) (hTpos : ∀ it ∈ T, 0 < it.weight)
    (hfit : sumW T ≤ cap) : (sumP T : ℚ) ≤ fracBound cap (L.map exactItem) := by
  have hTf : T.Sublist (L.filter (fun it => decide (0 < it.weight))) := by
    have h1 := hT.filter (fun it => decide (0 < it.weight))
    have h2 : T.filter (fun it => decide (0 < it.weight)) = T :=
      List.filter_eq_self.mpr (fun a ha => by simpa using hTpos a ha)
    rwa [h2] at h1
  have hsubF : (L.filter (fun it => decide (0 < it.weight))).Sublist L := List.filter_sublist _
  have hposM : ∀ it ∈ (L.filter (fun it => decide (0 < it.weight))).map exactItem,
      0 < it.weight ∧ 0 < it.profit := by
    intro it hit
    obtain ⟨a, ha, rfl⟩ := List.mem_map.mp hit
    have ha2 := List.mem_filter.mp ha
    exact ⟨by simpa using ha2.2, (hnn a ha2.1).2⟩
  have hratioM : ∀ it ∈ (L.filter (fun it => decide (0 < it.weight))).map exactItem,
      it.pw = (it.profit : ℚ) / (it.weight : ℚ) := by
    intro it hit
    obtain ⟨a, ha, rfl⟩ := List.mem_map.mp hit
    have ha2 := List.mem_filter.mp ha
    have hw : 0 < a.weight := by simpa using ha2.2
    show ratio a = (a.profit : ℚ) / (a.weight : ℚ)
    rw [ratio, if_pos hw]
  have hsortedM : ((L.filter (fun it => decide (0 < it.weight))).map exactItem).Pairwise
      (fun a b => b.pw ≤ a.pw) := by
    rw [List.pairwise_map]
    exact hsorted.sublist hsubF
  have h := sumP_le_fracBound _ hposM hratioM hsortedM cap (T.map exactItem)
    (hTf.map exactItem) (by rw [sumW_map_exactItem]; exact hfit)
  rw [sumP_map_exactItem] at h
  have hfil : (L.map exactItem).filter (fun it => decide (0 < it.weight))
      = (L.filter (fun it => decide (0 < it.weight))).map exactItem := by
    rw [List.filter_map]
    rfl
  have h2 := fracBound_filter_le (L.map exactItem) (by
    intro it hit
    obtain ⟨a, ha, rfl⟩ := List.mem_map.mp hit
    exact ⟨(hnn a ha).1, (hnn a ha).2.le⟩) cap hcap
  rw [hfil] at h2
  exact le_trans h h2

/-- Below the capacity the value of `bound` in machine arithmetic stays within the factors
`1 - 5 * 2^-24` and `1 + 6 * 2^-24` of the exact greedy fill with exact ratios, for a node whose
weight and profit are not negative and, together with the remaining items, stay below `2 ^ 31`
and within `2 ^ 24`. -/
theorem boundValue_near (pw : List node) (W : Int) (x : node) (hprep : Prepared pw)
    (hW : W < 2147483648) (hx1 : 0 ≤ x.weight)
    (hx2 : x.weight + sumW (remaining pw x.level) < 2147483648) (hx3 : 0 ≤ x.profit)
    (hx4 : x.profit + sumP (remaining pw x.level) ≤ 16777216) (hw : x.weight < W) :
    (1 - 5 / 16777216)
        * ((x.profit : ℚ) + fracBound (W - x.weight) ((remaining pw x.level).map exactItem))
        ≤ boundValue pw W x ∧
      boundValue pw W x ≤ (1 + 6 / 16777216)
        * ((x.profit : ℚ) + fracBound (W - x.weight) ((remaining pw x.level).map exactItem)) := by
  obtain ⟨hnn, hst, _⟩ := hprep
  have hsub := remaining_sublist pw x.level
  have hsP := sumP_nonneg_of_nonneg (remaining pw x.level)
    (fun it hit => (hnn it (hsub.subset hit)).2.le)
  have hfp : toFloat x.profit = (x.profit : ℚ) := toFloat_of_small _ (by omega) (by omega)
  have h := greedyFill_near W hW (remaining pw x.level)
    (fun it hit => ⟨(hnn it (hsub.subset hit)).1, (hnn it (hsub.subset hit)).2.le⟩)
    (fun it hit => hst it (hsub.subset hit)) x.weight x.profit hx1 hw.le hx2 hx3 hx4
  simp only [boundValue, hw, if_true, hfp]
  exact h

/-- A node that is not promising has no feasible completion by items of positive weight that
earns more than `maxprofit`, provided its own profit does not when it weighs `W` or more: the
rounding of the bound is less than one unit of profit as long as the total profit is below
`2 ^ 24 / 5`. -/
theorem machine_completion_le_of_not_promising (pw : List node) (W mp : Int) (x : node)
    (hprep : Prepared pw) (hW : W < 2147483648) (hsw : sumW pw < 2147483648)
    (hsp : 5 * sumP pw < 16777216)
    (hx : 0 ≤ x.weight ∧ x.weight + sumW (remaining pw x.level) ≤ sumW pw ∧
      0 ≤ x.profit ∧ x.profit + sumP (remaining pw x.level) ≤ sumP pw)
    (hmp0 : 0 ≤ mp) (hmp : mp ≤ sumP pw)
    (hb : x.bound = boundValue pw W x) (hnp : ¬ toFloat mp < x.bound)
    (hp : W ≤ x.weight → x.profit ≤ mp) (T : List node)
    (hT : T.Sublist (remaining pw x.level)) (hTpos : ∀ it ∈ T, 0 < it.weight)
    (hfit : x.weight + sumW T ≤ W) : x.profit + sumP T ≤ mp := by
  by_cases hw : x.weight < W
  · have hnear := (boundValue_near pw W x hprep hW hx.1 (by omega) hx.2.2.1 (by omega) hw).1
    obtain ⟨hnn, hst, hsorted⟩ := hprep
    have hsub := remaining_sublist pw x.level
    have hadm := sumP_le_fracBound_exact (remaining pw x.level)
      (fun it hit => hnn it (hsub.subset hit)) (hsorted.sublist hsub) (W - x.weight) (by omega)
      T hT hTpos (by omega)
    have hTle := sumP_le_of_sublist T (remaining pw x.level) hT
      (fun it hit => (hnn it (hsub.subset hit)).2.le)
    have hfm : toFloat mp = (mp : ℚ) := toFloat_of_small _ (by omega) (by omega)
    rw [← hb] at hnear
    rw [hfm] at hnp
    have hle := not_lt.mp hnp
    by_contra hcon
    have hV : mp + 1 ≤ x.profit + sumP T := by omega
    have hVq : ((mp : ℚ) + 1) ≤ (x.profit : ℚ) + (sumP T : ℚ) := by exact_mod_cast hV
    have hVu : 5 * ((x.profit : ℚ) + (sumP T : ℚ)) < 16777216 := by
      have : 5 * (x.profit + sumP T) < 16777216 := by omega
      exact_mod_cast this
    linarith
  · have hsub := remaining_sublist pw x.level
    have hnil : T = [] := eq_nil_of_sumW_le_zero T hTpos (by omega)
    subst hnil
    have := hp (by omega)
    simp only [sumP_nil]
    omega

/-! ### The sums behind the loop state -/

theorem remaining_root (pw : List node) : remaining pw rootNode.level = pw := by
  simp [remaining, rootNode]

theorem ranged_initState (pw : List node) (W tw : Int) (best : Option String)
    (hnn : ∀ it ∈ pw, 0 ≤ it.weight ∧ 0 ≤ it.profit) : Ranged pw (initState pw W tw best) := by
  refine ⟨?_, ?_⟩
  · exact sumP_nonneg_of_nonneg pw (fun it hit => (hnn it hit).2)
  · intro x hx
    have hx1 : x = boundedRoot pw W := by simpa [initState] using hx
    subst hx1
    have hrem : remaining pw (boundedRoot pw W).level = pw := remaining_root pw
    rw [hrem]
    refine ⟨le_rfl, ?_, le_rfl, ?_⟩
    · show (0 : Int) + sumW pw ≤ sumW pw
      omega
    · show (0 : Int) + sumP pw ≤ sumP pw
      omega

theorem ranged_discard (pw : List node) (s : BFSState) (v : node) (q : PriorityQueue)
    (h : Ranged pw s) (hPQ : s.PQ = v :: q) :
    Ranged pw { s with PQ := q, i := wrap (s.i + 1) } :=
  ⟨h.1, fun x hx => h.2 x (by rw [hPQ]; exact List.mem_cons_of_mem _ hx)⟩

/-- As long as the totals of the array are inside the range of `int`, the sums that build the
include-child do not overflow. -/
theorem includeChild_no_overflow (pw : List node) (v it : node) (hrange : InRange pw)
    (hv : 0 ≤ v.weight ∧ v.weight + sumW (remaining pw v.level) ≤ sumW pw ∧
      0 ≤ v.profit ∧ v.profit + sumP (remaining pw v.level) ≤ sumP pw)
    (hrem : remaining pw v.level = it :: remaining pw (v.level + 1)) :
    wrap (v.weight + it.weight) = v.weight + it.weight ∧
      wrap (v.profit + it.profit) = v.profit + it.profit := by
  obtain ⟨hnn, hsw, hsp⟩ := hrange
  obtain ⟨h1, h2, h3, h4⟩ := hv
  rw [hrem, sumW_cons] at h2
  rw [hrem, sumP_cons] at h4
  have hsub := remaining_sublist pw (v.level + 1)
  have hit : it ∈ pw := (remaining_sublist pw v.level).subset (by rw [hrem]; exact List.mem_cons_self _ _)
  have hW := sumW_nonneg_of_nonneg (remaining pw (v.level + 1))
    (fun x hx => (hnn x (hsub.subset hx)).1)
  have hP := sumP_nonneg_of_nonneg (remaining pw (v.level + 1))
    (fun x hx => (hnn x (hsub.subset hx)).2)
  have := hnn it hit
  exact ⟨wrap_of_inRange _ (by omega) (by omega), wrap_of_inRange _ (by omega) (by omega)⟩

theorem ranged_expandState (pw : List node) (W : Int) (s : BFSState) (v : node)
    (q : PriorityQueue) (it : node) (hrange : InRange pw) (h : Ranged pw s)
    (hPQ : s.PQ = v :: q) (hrem : remaining pw v.level = it :: remaining pw (v.level + 1)) :
    Ranged pw (expandState pw W s v q it) := by
  have hv := h.2 v (by rw [hPQ]; exact List.mem_cons_self _ _)
  obtain ⟨hwW, hwP⟩ := includeChild_no_overflow pw v it hrange hv hrem
  obtain ⟨hnn, hsw, hsp⟩ := hrange
  obtain ⟨h1, h2, h3, h4⟩ := hv
  rw [hrem, sumW_cons] at h2
  rw [hrem, sumP_cons] at h4
  have hsub := remaining_sublist pw (v.level + 1)
  have hit : it ∈ pw := (remaining_sublist pw v.level).subset (by rw [hrem]; exact List.mem_cons_self _ _)
  have hW := sumW_nonneg_of_nonneg (remaining pw (v.level + 1))
    (fun x hx => (hnn x (hsub.subset hx)).1)
  have hP := sumP_nonneg_of_nonneg (remaining pw (v.level + 1))
    (fun x hx => (hnn x (hsub.subset hx)).2)
  have hit0 := hnn it hit
  refine ⟨?_, ?_⟩
  · rw [machine_expandState_maxprofit, hwP]
    split
    · omega
    · exact h.1
  · intro x hx
    rcases (machine_mem_expandState pw W s v q it x).mp hx with ⟨rfl, _⟩ | ⟨rfl, _⟩ | hxq
    · rw [machine_boundedExclude_level, machine_boundedExclude_profit,
        machine_boundedExclude_weight]
      exact ⟨h1, by omega, h3, by omega⟩
    · rw [machine_boundedInclude_level, machine_boundedInclude_profit,
        machine_boundedInclude_weight, hwW, hwP]
      exact ⟨by omega, by omega, by omega, by omega⟩
    · exact h.2 x (by rw [hPQ]; exact List.mem_cons_of_mem _ hxq)

/-! ### The recorded best selection -/

theorem machine_denotes_boundedRoot (pw : List node) (W : Int) :
    Denotes pw (boundedRoot pw W) [] := by
  refine ⟨by simp [boundedRoot, rootNode], by simp, ?_, ?_, ?_⟩
  · simp [boundedRoot, rootNode, selName]
  · simp [boundedRoot, rootNode, selItems, sumP_nil]
  · simp [boundedRoot, rootNode, selItems, sumW_nil]

theorem machine_denotes_boundedInclude (pw : List node) (W : Int) (v it : node)
    (ds : List Bool) (h : Denotes pw v ds) (hat : nodeAt pw (v.level + 1) = some it)
    (hwW : wrap (v.weight + it.weight) = v.weight + it.weight)
    (hwP : wrap (v.profit + it.profit) = v.profit + it.profit) :
    Denotes pw (boundedInclude pw W v it) (ds ++ [true]) := by
  obtain ⟨hlen, hle, hname, hp, hw⟩ := h
  have hget := nodeAt_eq_getElem? pw (v.level + 1) ds.length it hat hlen
  have hlt : ds.length < pw.length := by
    by_contra hge
    rw [List.getElem?_eq_none (by omega)] at hget
    simp at hget
  refine ⟨?_, ?_, ?_, ?_, ?_⟩
  · rw [machine_boundedInclude_level]; simp only [List.length_append, List.length_singleton]
    push_cast; omega
  · simp only [List.length_append, List.length_singleton]; omega
  · rw [machine_boundedInclude_name, selName_snoc_true pw ds it hget, hname]
  · rw [machine_boundedInclude_profit, hwP, selItems_snoc_true pw ds it hget, sumP_append,
      sumP_cons, sumP_nil, hp]; ring
  · rw [machine_boundedInclude_weight, hwW, selItems_snoc_true pw ds it hget, sumW_append,
      sumW_cons, sumW_nil, hw]; ring

theorem machine_denotes_boundedExclude (pw : List node) (W : Int) (v it : node)
    (ds : List Bool) (h : Denotes pw v ds) (hat : nodeAt pw (v.level + 1) = some it) :
    Denotes pw (boundedExclude pw W v it) (ds ++ [false]) := by
  obtain ⟨hlen, hle, hname, hp, hw⟩ := h
  have hget := nodeAt_eq_getElem? pw (v.level + 1) ds.length it hat hlen
  have hlt : ds.length < pw.length := by
    by_contra hge
    rw [List.getElem?_eq_none (by omega)] at hget
    simp at hget
  refine ⟨?_, ?_, ?_, ?_, ?_⟩
  · rw [machine_boundedExclude_level]; simp only [List.length_append, List.length_singleton]
    push_cast; omega
  · simp only [List.length_append, List.length_singleton]; omega
  · rw [machine_boundedExclude_name, selName_snoc_false pw ds it hget, hname]
  · rw [machine_boundedExclude_profit, selItems_snoc_false pw ds it hget, hp]
  · rw [machine_boundedExclude_weight, selItems_snoc_false pw ds it hget, hw]

theorem machine_expandState_tw (pw : List node) (W : Int) (s : BFSState) (v : node)
    (q : PriorityQueue) (it : node) :
    (expandState pw W s v q it).tw
      = if wrap (v.weight + it.weight) ≤ W ∧ s.maxprofit < wrap (v.profit + it.profit)
        then wrap (v.weight + it.weight) else s.tw := by
  simp only [expandState, machine_enqueueIfPromising_tw]
  unfold recordBest
  split <;> rename_i h
  · rw [if_pos (show wrap (v.weight + it.weight) ≤ W ∧
      s.maxprofit < wrap (v.profit + it.profit) from h)]
    rfl
  · rw [if_neg (show ¬ (wrap (v.weight + it.weight) ≤ W ∧
      s.maxprofit < wrap (v.profit + it.profit)) from h)]

theorem machine_expandState_best (pw : List node) (W : Int) (s : BFSState) (v : node)
    (q : PriorityQueue) (it : node) :
    (expandState pw W s v q it).best
      = if wrap (v.weight + it.weight) ≤ W ∧ s.maxprofit < wrap (v.profit + it.profit)
        then some (v.name ++ "&" ++ it.name) else s.best := by
  simp only [expandState, machine_enqueueIfPromising_best]
  unfold recordBest
  split <;> rename_i h
  · rw [if_pos (show wrap (v.weight + it.weight) ≤ W ∧
      s.maxprofit < wrap (v.profit + it.profit) from h)]
    rfl
  · rw [if_neg (show ¬ (wrap (v.weight + it.weight) ≤ W ∧
      s.maxprofit < wrap (v.profit + it.profit)) from h)]

theorem machine_realised_initState (pw : List node) (W tw : Int) (best : Option String) :
    Realised pw W (initState pw W tw best) := by
  refine ⟨?_, ?_⟩
  · intro x hx
    have hx1 : x = boundedRoot pw W := by simpa [initState] using hx
    subst hx1
    exact ⟨[], machine_denotes_boundedRoot pw W⟩
  · intro h
    simp [initState] at h

theorem machine_realised_discard (pw : List node) (W : Int) (s : BFSState) (v : node)
    (q : PriorityQueue) (h : Realised pw W s) (hPQ : s.PQ = v :: q) :
    Realised pw W { s with PQ := q, i := wrap (s.i + 1) } :=
  ⟨fun x hx => h.1 x (by rw [hPQ]; exact List.mem_cons_of_mem _ hx), h.2⟩

theorem machine_realised_expandState (pw : List node) (W : Int) (s : BFSState) (v : node)
    (q : PriorityQueue) (it : node) (h : Realised pw W s) (hPQ : s.PQ = v :: q)
    (hat : nodeAt pw (v.level + 1) = some it)
    (hwW : wrap (v.weight + it.weight) = v.weight + it.weight)
    (hwP : wrap (v.profit + it.profit) = v.profit + it.profit) :
    Realised pw W (expandState pw W s v q it) := by
  obtain ⟨ds, hds⟩ := h.1 v (by rw [hPQ]; exact List.mem_cons_self _ _)
  refine ⟨?_, ?_⟩
  · intro x hx
    rcases (machine_mem_expandState pw W s v q it x).mp hx with ⟨rfl, _⟩ | ⟨rfl, _⟩ | hxq
    · exact ⟨_, machine_denotes_boundedExclude pw W v it ds hds hat⟩
    · exact ⟨_, machine_denotes_boundedInclude pw W v it ds hds hat hwW hwP⟩
    · exact h.1 x (by rw [hPQ]; exact List.mem_cons_of_mem _ hxq)
  · rw [machine_expandState_maxprofit, machine_expandState_tw, machine_expandState_best]
    by_cases hc : wrap (v.weight + it.weight) ≤ W ∧ s.maxprofit < wrap (v.profit + it.profit)
    · rw [if_pos hc, if_pos hc, if_pos hc]
      intro _
      obtain ⟨hlen, hle, hname, hp, hw⟩ :=
        machine_denotes_boundedInclude pw W v it ds hds hat hwW hwP
      refine ⟨ds ++ [true], hle, ?_, ?_, ?_, hc.1⟩
      · rw [← hname, machine_boundedInclude_name]
      · rw [← hp, machine_boundedInclude_profit]
      · rw [← hw, machine_boundedInclude_weight]
    · rw [if_neg hc, if_neg hc, if_neg hc]
      exact h.2

/-- The invariant of the selections, for a run on items whose totals are inside the range of
`int`: it holds at the start and every iteration keeps it. -/
theorem machine_realised_run (pw : List node) (W tw : Int) (best : Option String)
    (hrange : InRange pw) :
    ∃ s1, Returns pw W tw best (s1.maxprofit, s1.tw, s1.best) ∧ s1.PQ = [] ∧
      (Ranged pw s1 ∧ Realised pw W s1) ∧ QueueInv pw W s1 :=
  machine_returns_induction pw W tw best (fun s => Ranged pw s ∧ Realised pw W s)
    ⟨ranged_initState pw W tw best hrange.1, machine_realised_initState pw W tw best⟩
    (fun s v q _ hP hPQ _ =>
      ⟨ranged_discard pw s v q hP.1 hPQ, machine_realised_discard pw W s v q hP.2 hPQ⟩)
    (fun s v q it _ hP hPQ _ _ _ hat _ hrem =>
      have hno := includeChild_no_overflow pw v it hrange
        (hP.1.2 v (by rw [hPQ]; exact List.mem_cons_self _ _)) hrem
      ⟨ranged_expandState pw W s v q it hrange hP.1 hPQ hrem,
        machine_realised_expandState pw W s v q it hP.2 hPQ hat hno.1 hno.2⟩)

/-! ### No feasible selection of items of positive weight is lost -/

theorem coveredPositive_initState (pw : List node) (W tw : Int) (best : Option String) :
    CoveredPositive pw W (initState pw W tw best) := by
  intro S hS hSpos hfit
  right
  refine ⟨boundedRoot pw W, by simp [initState], S, ?_, hSpos, ?_, ?_⟩
  · simpa [remaining, boundedRoot, rootNode] using hS
  · simpa [boundedRoot, rootNode] using hfit
  · simp [boundedRoot, rootNode]

theorem coveredPositive_discard (pw : List node) (W : Int) (s : BFSState) (v : node)
    (q : PriorityQueue) (hprep : Prepared pw) (hW : W < 2147483648)
    (hsw : sumW pw < 2147483648) (hsp : 5 * sumP pw < 16777216) (hinv : QueueInv pw W s)
    (hr : Ranged pw s) (h : CoveredPositive pw W s)
    (hPQ : s.PQ = v :: q) (hnp : ¬ toFloat s.maxprofit < v.bound) :
    CoveredPositive pw W { s with PQ := q, i := wrap (s.i + 1) } := by
  intro S hS hSpos hfit
  rcases h S hS hSpos hfit with hle | ⟨x, hx, T, hT, hTpos, hTfit, hST⟩
  · exact Or.inl hle
  · rw [hPQ] at hx
    rcases List.mem_cons.mp hx with rfl | hxq
    · left
      have hxs : x ∈ s.PQ := by rw [hPQ]; exact List.mem_cons_self _ _
      obtain ⟨_, _, hp, hb⟩ := hinv.2 x hxs
      have := machine_completion_le_of_not_promising pw W s.maxprofit x hprep hW hsw hsp
        (hr.2 x hxs) hinv.1 hr.1 hb hnp (fun _ => hp) T hT hTpos hTfit
      show sumP S ≤ s.maxprofit
      omega
    · exact Or.inr ⟨x, hxq, T, hT, hTpos, hTfit, hST⟩

theorem coveredPositive_expandState (pw : List node) (W : Int) (s : BFSState) (v : node)
    (q : PriorityQueue) (it : node) (hprep : Prepared pw) (hW : W < 2147483648)
    (hsw : sumW pw < 2147483648) (hsp : 5 * sumP pw < 16777216) (hinv : QueueInv pw W s)
    (hr : Ranged pw s) (h : CoveredPositive pw W s) (hPQ : s.PQ = v :: q)
    (hp : toFloat s.maxprofit < v.bound) (hw : v.weight < W)
    (hrem : remaining pw v.level = it :: remaining pw (v.level + 1)) :
    CoveredPositive pw W (expandState pw W s v q it) := by
  have hrange : InRange pw :=
    ⟨fun x hx => ⟨(hprep.1 x hx).1, (hprep.1 x hx).2.le⟩, hsw, by omega⟩
  have hmono := machine_le_expandState_maxprofit pw W s v q it
  have hinv1 := machine_queueInv_expandState pw W s v q it hinv hPQ hp
  have hr1 := ranged_expandState pw W s v q it hrange hr hPQ hrem
  have hvs : v ∈ s.PQ := by rw [hPQ]; exact List.mem_cons_self _ _
  obtain ⟨hwW, hwP⟩ := includeChild_no_overflow pw v it hrange (hr.2 v hvs) hrem
  have hvp := (hinv.2 v hvs).2.2.1
  intro S hS hSpos hfit
  rcases h S hS hSpos hfit with hle | ⟨x, hx, T, hT, hTpos, hTfit, hST⟩
  · exact Or.inl (le_trans hle hmono)
  · rw [hPQ] at hx
    rcases List.mem_cons.mp hx with rfl | hxq
    · rw [hrem] at hT
      cases hT with
      | cons _ hT1 =>
        by_cases hprom : toFloat (expandState pw W s x q it).maxprofit
            < (boundedExclude pw W x it).bound
        · right
          exact ⟨boundedExclude pw W x it,
            (machine_mem_expandState pw W s x q it _).mpr (Or.inl ⟨rfl, hprom⟩), T, hT1, hTpos,
            hTfit, hST⟩
        · left
          have hex : 0 ≤ (boundedExclude pw W x it).weight ∧
              (boundedExclude pw W x it).weight
                + sumW (remaining pw (boundedExclude pw W x it).level) ≤ sumW pw ∧
              0 ≤ (boundedExclude pw W x it).profit ∧
              (boundedExclude pw W x it).profit
                + sumP (remaining pw (boundedExclude pw W x it).level) ≤ sumP pw := by
            obtain ⟨h1, h2, h3, h4⟩ := hr.2 x hvs
            rw [hrem, sumW_cons] at h2
            rw [hrem, sumP_cons] at h4
            have hit := hprep.1 it ((remaining_sublist pw x.level).subset
              (by rw [hrem]; exact List.mem_cons_self _ _))
            rw [machine_boundedExclude_level, machine_boundedExclude_profit,
              machine_boundedExclude_weight]
            exact ⟨h1, by omega, h3, by omega⟩
          have := machine_completion_le_of_not_promising pw W
            (expandState pw W s x q it).maxprofit (boundedExclude pw W x it) hprep hW hsw hsp
            hex hinv1.1 hr1.1 (machine_boundedExclude_bound pw W x it) hprom
            (fun hge => by rw [machine_boundedExclude_weight] at hge; omega) T hT1 hTpos hTfit
          rw [machine_boundedExclude_profit] at this
          omega
      | cons₂ _ hT1 =>
        rename_i T1
        rw [sumW_cons] at hTfit
        rw [sumP_cons] at hST
        have hTpos1 : ∀ y ∈ T1, 0 < y.weight := fun y hy => hTpos y (List.mem_cons_of_mem _ hy)
        have hT1nn := sumW_nonneg T1 hTpos1
        have hfit1 : (boundedInclude pw W x it).weight + sumW T1 ≤ W := by
          rw [machine_boundedInclude_weight, hwW]; omega
        by_cases hprom : toFloat (expandState pw W s x q it).maxprofit
            < (boundedInclude pw W x it).bound
        · right
          refine ⟨boundedInclude pw W x it,
            (machine_mem_expandState pw W s x q it _).mpr (Or.inr (Or.inl ⟨rfl, hprom⟩)), T1,
            hT1, hTpos1, hfit1, ?_⟩
          rw [machine_boundedInclude_profit, hwP]; omega
        · left
          have hin : 0 ≤ (boundedInclude pw W x it).weight ∧
              (boundedInclude pw W x it).weight
                + sumW (remaining pw (boundedInclude pw W x it).level) ≤ sumW pw ∧
              0 ≤ (boundedInclude pw W x it).profit ∧
              (boundedInclude pw W x it).profit
                + sumP (remaining pw (boundedInclude pw W x it).level) ≤ sumP pw := by
            obtain ⟨h1, h2, h3, h4⟩ := hr.2 x hvs
            rw [hrem, sumW_cons] at h2
            rw [hrem, sumP_cons] at h4
            have hit := hprep.1 it ((remaining_sublist pw x.level).subset
              (by rw [hrem]; exact List.mem_cons_self _ _))
            rw [machine_boundedInclude_level, machine_boundedInclude_profit,
              machine_boundedInclude_weight, hwW, hwP]
            exact ⟨by omega, by omega, by omega, by omega⟩
          have := machine_completion_le_of_not_promising pw W
            (expandState pw W s x q it).maxprofit (boundedInclude pw W x it) hprep hW hsw hsp
            hin hinv1.1 hr1.1 (machine_boundedInclude_bound pw W x it) hprom
            (fun hge => by
              rw [machine_boundedInclude_weight, hwW] at hge
              rw [machine_boundedInclude_profit, machine_expandState_maxprofit, hwW, hwP]
              split
              · exact le_rfl
              · rename_i hc
                have : ¬ s.maxprofit < x.profit + it.profit := fun hlt => hc ⟨by omega, hlt⟩
                omega)
            T1 hT1 hTpos1 hfit1
          rw [machine_boundedInclude_profit, hwP] at this
          omega
    · right
      exact ⟨x, (machine_mem_expandState pw W s v q it x).mpr (Or.inr (Or.inr hxq)), T, hT,
        hTpos, hTfit, hST⟩

/-- The run of `bestFirstSearch` in machine arithmetic on items within the ranges: the call
returns, the returned `maxprofit` is the profit of a selection named by `*best` that fits, and
no selection of items of positive weight that fits earns more. -/
theorem machine_search_run (pw : List node) (W tw : Int) (best : Option String)
    (hprep : Prepared pw) (hW : W < 2147483648) (hsw : sumW pw < 2147483648)
    (hsp : 5 * sumP pw < 16777216) :
    ∃ s1, Returns pw W tw best (s1.maxprofit, s1.tw, s1.best) ∧ 0 ≤ s1.maxprofit ∧
      Realised pw W s1 ∧
      ∀ S : List node, S.Sublist pw → (∀ it ∈ S, 0 < it.weight) → sumW S ≤ W →
        sumP S ≤ s1.maxprofit := by
  have hrange : InRange pw :=
    ⟨fun x hx => ⟨(hprep.1 x hx).1, (hprep.1 x hx).2.le⟩, hsw, by omega⟩
  obtain ⟨s1, hret, hempty, ⟨hr, hreal, hcov⟩, hinv⟩ := machine_returns_induction pw W tw best
    (fun s => Ranged pw s ∧ Realised pw W s ∧ CoveredPositive pw W s)
    ⟨ranged_initState pw W tw best hrange.1, machine_realised_initState pw W tw best,
      coveredPositive_initState pw W tw best⟩
    (fun s v q hinv hP hPQ hnp =>
      ⟨ranged_discard pw s v q hP.1 hPQ, machine_realised_discard pw W s v q hP.2.1 hPQ,
        coveredPositive_discard pw W s v q hprep hW hsw hsp hinv hP.1 hP.2.2 hPQ hnp⟩)
    (fun s v q it hinv hP hPQ hp hw _ hat _ hrem =>
      have hno := includeChild_no_overflow pw v it hrange
        (hP.1.2 v (by rw [hPQ]; exact List.mem_cons_self _ _)) hrem
      ⟨ranged_expandState pw W s v q it hrange hP.1 hPQ hrem,
        machine_realised_expandState pw W s v q it hP.2.1 hPQ hat hno.1 hno.2,
        coveredPositive_expandState pw W s v q it hprep hW hsw hsp hinv hP.1 hP.2.2 hPQ hp hw
          hrem⟩)
  refine ⟨s1, hret, hinv.1, hreal, ?_⟩
  intro S hS hSpos hfit
  rcases hcov S hS hSpos hfit with hle | ⟨x, hx, _⟩
  · exact hle
  · rw [hempty] at hx
    simp at hx

/-! ### The states a run goes through -/

theorem machine_stateAfter_eq (pw : List node) (W tw : Int) (best : Option String) (k : Nat) :
    stateAfter pw W tw best k
      = bfsSteps pw (pw.length : Int) W k (initState pw W tw best) := by
  simp [stateAfter, machine_bfsInit_eq]

/-- Induction over the iterations of a run: a property that holds at the head of the loop and is
kept by a discard and by an expansion holds after any number of iterations, together with the
queue invariant. -/
theorem machine_bfsSteps_induction (pw : List node) (W : Int) (P : BFSState → Prop)
    (hdiscard : ∀ s v q, QueueInv pw W s → P s → s.PQ = v :: q → ¬ toFloat s.maxprofit < v.bound →
      P { s with PQ := q, i := wrap (s.i + 1) })
    (hexpand : ∀ s v q it, QueueInv pw W s → P s → s.PQ = v :: q → toFloat s.maxprofit < v.bound →
      v.weight < W → v.level + 1 < (pw.length : Int) → nodeAt pw (v.level + 1) = some it →
      it ∈ pw → remaining pw v.level = it :: remaining pw (v.level + 1) →
      P (expandState pw W s v q it)) :
    ∀ (k : Nat) (s s1 : BFSState), QueueInv pw W s → P s →
      bfsSteps pw (pw.length : Int) W k s = some s1 → P s1 ∧ QueueInv pw W s1 := by
  intro k
  induction k with
  | zero =>
    intro s s1 hinv hP h
    simp only [bfsSteps, Option.some.injEq] at h
    subst h
    exact ⟨hP, hinv⟩
  | succ k ih =>
    intro s s1 hinv hP h
    by_cases hempty : s.PQ = []
    · simp [bfsSteps, bfsIter, hempty, removeNode] at h
    · obtain ⟨v, q, hPQ, hcase⟩ := machine_bfsIter_cases pw W s hinv hempty
      rcases hcase with ⟨hnp, hiter⟩ | ⟨hp, hw, hlt, it, hat, hmem, hrem, hiter⟩
      · simp only [bfsSteps, hiter] at h
        exact ih _ s1 (machine_queueInv_discard pw W s v q hinv hPQ)
          (hdiscard s v q hinv hP hPQ hnp) h
      · simp only [bfsSteps, hiter] at h
        exact ih _ s1 (machine_queueInv_expandState pw W s v q it hinv hPQ hp)
          (hexpand s v q it hinv hP hPQ hp hw hlt hat hmem hrem) h

/-- Induction over the iterations of a run, from the start of `bestFirstSearch`. -/
theorem machine_stateAfter_induction (pw : List node) (W tw : Int) (best : Option String)
    (P : BFSState → Prop) (hinit : P (initState pw W tw best))
    (hdiscard : ∀ s v q, QueueInv pw W s → P s → s.PQ = v :: q → ¬ toFloat s.maxprofit < v.bound →
      P { s with PQ := q, i := wrap (s.i + 1) })
    (hexpand : ∀ s v q it, QueueInv pw W s → P s → s.PQ = v :: q → toFloat s.maxprofit < v.bound →
      v.weight < W → v.level + 1 < (pw.length : Int) → nodeAt pw (v.level + 1) = some it →
      it ∈ pw → remaining pw v.level = it :: remaining pw (v.level + 1) →
      P (expandState pw W s v q it))
    (k : Nat) (s : BFSState) (h : stateAfter pw W tw best k = some s) :
    P s ∧ QueueInv pw W s := by
  rw [machine_stateAfter_eq] at h
  exact machine_bfsSteps_induction pw W P hdiscard hexpand k _ s
    (machine_queueInv_initState pw W tw best) hinit h

/-- Every state of a run on items whose totals are inside the range of `int` keeps the sums of
its nodes within the totals. -/
theorem ranged_stateAfter (pw : List node) (W tw : Int) (best : Option String)
    (hrange : InRange pw) (k : Nat) (s : BFSState) (h : stateAfter pw W tw best k = some s) :
    Ranged pw s ∧ QueueInv pw W s :=
  machine_stateAfter_induction pw W tw best (fun s => Ranged pw s)
    (ranged_initState pw W tw best hrange.1)
    (fun s v q _ hP hPQ _ => ranged_discard pw s v q hP hPQ)
    (fun s v q it _ hP hPQ _ _ _ _ _ hrem => ranged_expandState pw W s v q it hrange hP hPQ hrem)
    k s h

/-! ### Bounds down the tree -/

/-- The two children of a node of level -1 to `n - 2` are bounded without a read outside the
array. -/
theorem machine_children_bound_eq (pw : List node) (W : Int) (v : node) (hl : -1 ≤ v.level)
    (hlt : v.level + 1 < (pw.length : Int)) :
    ∃ it, nodeAt pw (v.level + 1) = some it ∧ it ∈ pw ∧
      remaining pw v.level = it :: remaining pw (v.level + 1) ∧
      bound (includeChild v it) pw (pw.length : Int) W = some (boundedInclude pw W v it) ∧
      bound (excludeChild v (boundedInclude pw W v it)) pw (pw.length : Int) W
        = some (boundedExclude pw W v it) := by
  have hk : (v.level + 1).toNat < pw.length := by omega
  have hk0 : 0 ≤ v.level + 1 := by omega
  refine ⟨pw[(v.level + 1).toNat], ?_, List.getElem_mem _, ?_, ?_, ?_⟩
  · simp [nodeAt, hk0, List.getElem?_eq_getElem hk]
  · have : (v.level + 1 + 1).toNat = (v.level + 1).toNat + 1 := by omega
    simp only [remaining, this]
    exact List.drop_eq_getElem_cons hk
  · exact machine_bound_eq pw W (includeChild v pw[(v.level + 1).toNat])
      (by simp [includeChild, appendName, setName]; omega)
      (by simp [includeChild, appendName, setName]; omega)
  · exact machine_bound_eq pw W (excludeChild v (boundedInclude pw W v pw[(v.level + 1).toNat]))
      (by simp [excludeChild, boundedInclude, includeChild, appendName, setName]; omega)
      (by simp [excludeChild, boundedInclude, includeChild, appendName, setName]; omega)

theorem machine_boundValue_boundedInclude (pw : List node) (W : Int) (v it : node) :
    boundValue pw W (boundedInclude pw W v it)
      = if wrap (v.weight + it.weight) < W then
          greedyFill W (wrap (v.weight + it.weight)) (toFloat (wrap (v.profit + it.profit)))
            (remaining pw (v.level + 1))
        else 0 := rfl

theorem machine_boundValue_boundedExclude (pw : List node) (W : Int) (v it : node) :
    boundValue pw W (boundedExclude pw W v it)
      = if v.weight < W then
          greedyFill W v.weight (toFloat v.profit) (remaining pw (v.level + 1))
        else 0 := rfl

/-- The bounds of the children of a node within the ranges, on items of positive weight: the
include-child keeps the bound of its parent or gets 0, the exclude-child exceeds the bound of
its parent by the rounding of the fraction step at most. -/
theorem machine_children_boundValue_le (pw : List node) (W : Int) (v it : node)
    (hprep : Prepared pw) (hpos : ∀ x ∈ pw, 0 < x.weight) (hW : W < 2147483648)
    (hv1 : 0 ≤ v.weight) (hv2 : v.weight + sumW (remaining pw v.level) < 2147483648)
    (hv3 : 0 ≤ v.profit) (hv4 : v.profit + sumP (remaining pw v.level) ≤ 16777216)
    (hw : v.weight < W)
    (hrem : remaining pw v.level = it :: remaining pw (v.level + 1)) :
    (boundedInclude pw W v it).bound ≤ boundValue pw W v ∧
      (boundedExclude pw W v it).bound ≤ (1 + 1 / 1048576) * boundValue pw W v ∧
      ((boundedInclude pw W v it).weight < W →
        (boundedInclude pw W v it).bound = boundValue pw W v) := by
  have hnear := boundValue_near pw W v hprep hW hv1 hv2 hv3 hv4 hw
  obtain ⟨hnn, hst, hsorted⟩ := hprep
  have hsub := remaining_sublist pw v.level
  have hsub1 := remaining_sublist pw (v.level + 1)
  have hitmem : it ∈ pw := hsub.subset (by rw [hrem]; exact List.mem_cons_self _ _)
  have hit := hnn it hitmem
  have hitw := hpos it hitmem
  have hsW := sumW_nonneg_of_nonneg (remaining pw (v.level + 1))
    (fun x hx => (hnn x (hsub1.subset hx)).1)
  have hsP := sumP_nonneg_of_nonneg (remaining pw (v.level + 1))
    (fun x hx => (hnn x (hsub1.subset hx)).2.le)
  have hv2c := hv2
  have hv4c := hv4
  rw [hrem, sumW_cons] at hv2c
  rw [hrem, sumP_cons] at hv4c
  have hwW : wrap (v.weight + it.weight) = v.weight + it.weight :=
    wrap_of_inRange _ (by omega) (by omega)
  have hwP : wrap (v.profit + it.profit) = v.profit + it.profit :=
    wrap_of_inRange _ (by omega) (by omega)
  -- the exact items after `v`
  have hposR : ∀ x ∈ (it :: remaining pw (v.level + 1)).map exactItem,
      0 < x.weight ∧ 0 ≤ x.profit := by
    intro x hx
    obtain ⟨a, ha, rfl⟩ := List.mem_map.mp hx
    rw [← hrem] at ha
    exact ⟨hpos a (hsub.subset ha), (hnn a (hsub.subset ha)).2.le⟩
  have hratioR : ∀ x ∈ (it :: remaining pw (v.level + 1)).map exactItem,
      x.pw = (x.profit : ℚ) / (x.weight : ℚ) := by
    intro x hx
    obtain ⟨a, ha, rfl⟩ := List.mem_map.mp hx
    rw [← hrem] at ha
    show ratio a = (a.profit : ℚ) / (a.weight : ℚ)
    rw [ratio, if_pos (hpos a (hsub.subset ha))]
  have hsortedR : ((it :: remaining pw (v.level + 1)).map exactItem).Pairwise
      (fun a b => b.pw ≤ a.pw) := by
    rw [List.pairwise_map, ← hrem]
    exact hsorted.sublist hsub
  have hE0 : 0 ≤ (v.profit : ℚ)
      + fracBound (W - v.weight) ((remaining pw v.level).map exactItem) := by
    rw [hrem]
    have h1 := fracBound_nonneg _ hposR hratioR (W - v.weight) (by omega)
    have h2 : (0 : ℚ) ≤ (v.profit : ℚ) := by exact_mod_cast hv3
    linarith
  have hvnn : 0 ≤ boundValue pw W v := by
    have := hnear.1
    have h5 : (0 : ℚ) ≤ (1 - 5 / 16777216)
        * ((v.profit : ℚ) + fracBound (W - v.weight) ((remaining pw v.level).map exactItem)) :=
      mul_nonneg (by norm_num) hE0
    linarith
  have hin : (boundedInclude pw W v it).weight < W →
      (boundedInclude pw W v it).bound = boundValue pw W v := by
    intro hlt
    rw [machine_boundedInclude_weight] at hlt
    have hfit : wrap (v.weight + it.weight) ≤ W := hlt.le
    have hfv : toFloat v.profit = (v.profit : ℚ) := toFloat_of_small _ (by omega) (by omega)
    have hfi : toFloat it.profit = (it.profit : ℚ) := toFloat_of_small _ (by omega) (by omega)
    have hadd : fl (toFloat v.profit + toFloat it.profit)
        = toFloat (wrap (v.profit + it.profit)) := by
      rw [hfv, hfi, hwP]
      unfold toFloat
      push_cast
      rfl
    rw [machine_boundedInclude_bound, machine_boundValue_boundedInclude, if_pos hlt]
    simp only [boundValue, hw, if_true, hrem]
    rw [greedyFill, if_pos hfit, hadd]
  refine ⟨?_, ?_, hin⟩
  · by_cases hlt : (boundedInclude pw W v it).weight < W
    · exact le_of_eq (hin hlt)
    · rw [machine_boundedInclude_weight] at hlt
      rw [machine_boundedInclude_bound_of_ge pw W v it (by omega)]
      exact hvnn
  · have hex := (boundValue_near pw W (boundedExclude pw W v it) ⟨hnn, hst, hsorted⟩ hW
      (by rw [machine_boundedExclude_weight]; exact hv1)
      (by rw [machine_boundedExclude_weight, machine_boundedExclude_level]; omega)
      (by rw [machine_boundedExclude_profit]; exact hv3)
      (by rw [machine_boundedExclude_profit, machine_boundedExclude_level]; omega)
      (by rw [machine_boundedExclude_weight]; exact hw)).2
    rw [machine_boundedExclude_weight, machine_boundedExclude_level,
      machine_boundedExclude_profit, ← machine_boundedExclude_bound] at hex
    have htail := fracBound_tail_le (exactItem it) ((remaining pw (v.level + 1)).map exactItem)
      hposR hratioR hsortedR (W - v.weight) (by omega)
    have hlow := hnear.1
    rw [hrem] at hlow hE0
    rw [List.map_cons] at hlow hE0
    have hF0 := fracBound_nonneg _
      (fun x hx => hposR x (List.mem_cons_of_mem _ hx))
      (fun x hx => hratioR x (List.mem_cons_of_mem _ hx)) (W - v.weight) (by omega)
    have hvq : (0 : ℚ) ≤ (v.profit : ℚ) := by exact_mod_cast hv3
    linarith

/-! ### The bound when all remaining items fit, in machine arithmetic -/

/-- When all remaining items fit together and the sums of profits stay within `2 ^ 24`, the loop
of `bound` takes every item and ends with `j = n` and the exact sums. -/
theorem machine_boundLoop_of_all_fit (pw : List node) (W : Int) (hW : W < 2147483648) :
    ∀ (fuel j : Nat) (totweight R : Int), j ≤ pw.length → pw.length - j ≤ fuel →
      (∀ it ∈ pw.drop j, 0 ≤ it.weight ∧ 0 ≤ it.profit) → -2147483648 ≤ totweight →
      totweight + sumW (pw.drop j) ≤ W → 0 ≤ R → R + sumP (pw.drop j) ≤ 16777216 →
      boundLoop pw (pw.length : Int) W fuel (j : Int) totweight (R : ℚ)
        = some ((pw.length : Int), totweight + sumW (pw.drop j),
            ((R + sumP (pw.drop j) : Int) : ℚ)) := by
  intro fuel
  induction fuel with
  | zero =>
    intro j totweight R hj hfuel _ _ _ _ _
    have hjn : j = pw.length := by omega
    subst hjn
    simp [boundLoop, sumW_nil, sumP_nil]
  | succ fuel ih =>
    intro j totweight R hj hfuel hnn htot hfit hR hRsum
    by_cases hlt : j < pw.length
    · have hcast : ((j : Int) < (pw.length : Int)) := by exact_mod_cast hlt
      have hget : pw[j]? = some pw[j] := List.getElem?_eq_getElem hlt
      have hdrop : pw.drop j = pw[j] :: pw.drop (j + 1) := List.drop_eq_getElem_cons hlt
      rw [hdrop] at hnn hfit hRsum
      rw [sumW_cons] at hfit
      rw [sumP_cons] at hRsum
      have hnnL : ∀ x ∈ pw.drop (j + 1), 0 ≤ x.weight ∧ 0 ≤ x.profit :=
        fun x hx => hnn x (List.mem_cons_of_mem _ hx)
      have hsW := sumW_nonneg_of_nonneg (pw.drop (j + 1)) (fun x hx => (hnnL x hx).1)
      have hsP := sumP_nonneg_of_nonneg (pw.drop (j + 1)) (fun x hx => (hnnL x hx).2)
      obtain ⟨hw0, hp0⟩ := hnn pw[j] (List.mem_cons_self _ _)
      have hwrap : wrap (totweight + pw[j].weight) = totweight + pw[j].weight :=
        wrap_of_inRange _ (by omega) (by omega)
      have hhead : wrap (totweight + pw[j].weight) ≤ W := by rw [hwrap]; omega
      have hfp : toFloat pw[j].profit = (pw[j].profit : ℚ) :=
        toFloat_of_small _ (by omega) (by omega)
      have hadd : fl ((R : ℚ) + toFloat pw[j].profit) = ((R + pw[j].profit : Int) : ℚ) := by
        rw [hfp]
        have := fl_intCast (R + pw[j].profit) (by omega) (by omega)
        push_cast at this ⊢
        exact this
      have h := ih (j + 1) (totweight + pw[j].weight) (R + pw[j].profit)
        (by omega) (by omega) hnnL (by omega) (by omega) (by omega) (by omega)
      have hc : ((j : Int) + 1) = ((j + 1 : Nat) : Int) := by push_cast; ring
      rw [boundLoop, if_pos hcast, nodeAt_natCast, hget]
      simp only [hhead, if_true]
      rw [hadd, hwrap, hc, h, hdrop, sumW_cons, sumP_cons]
      simp only [Option.some.injEq, Prod.mk.injEq, true_and]
      constructor
      · ring
      · push_cast; ring
    · have hjn : j = pw.length := by omega
      subst hjn
      simp [boundLoop, sumW_nil, sumP_nil]

/-! ### The claims that depend on the arithmetic of the machine -/

/-- C2 as stated fails in machine arithmetic: on the items A (5, 2000000000),
B (4, 2000000000) with `W = 2147483647` the call returns `maxprofit = 9` with the name
`root&A&B` and `*tw = -294967296`.  The name denotes A and B, whose weights sum to 4000000000,
and no selection of the items has the reported weight: the sum `u.weight` of the include-child
has left the range of `int`. -/
theorem machine_weight_sum_wraps :
    Returns itemsHeavy 2147483647 0 none (9, -294967296, some "root&A&B") ∧
      selName itemsHeavy [true, true] = "root&A&B" ∧
      sumW (selItems itemsHeavy [true, true]) = 4000000000 ∧
      ¬ ∃ ds : List Bool, sumW (selItems itemsHeavy ds) = -294967296 := by
  refine ⟨machine_returns_of_eq_some itemsHeavy 2147483647 0 none 6 _ (by decide!),
    by decide!, by decide, ?_⟩
  rintro ⟨ds, hds⟩
  have h := sumW_nonneg_of_nonneg (selItems itemsHeavy ds) (fun it hit => by
    have hmem := (selItems_sublist itemsHeavy ds).subset hit
    have hall : ∀ x ∈ itemsHeavy, 0 ≤ x.weight := by decide
    exact hall it hmem)
  omega

/-- C2, amended. In machine arithmetic, on items whose weights and profits are not negative
and sum to less than `2 ^ 31` each: the call returns, and when the `maxprofit` it returns is
positive, the name left in `*best` spells a sequence of include/exclude decisions over the items
0, 1, .., k, the profits of the included items sum to the returned `maxprofit` and their weights
to the value left in `*tw`. -/
theorem machine_best_selection_realised (pw : List node) (W tw : Int) (best : Option String)
    (hrange : InRange pw) :
    ∃ r, Returns pw W tw best r ∧
      (0 < r.1 → ∃ ds : List Bool, ds.length ≤ pw.length ∧ r.2.2 = some (selName pw ds) ∧
        sumP (selItems pw ds) = r.1 ∧ sumW (selItems pw ds) = r.2.1) := by
  obtain ⟨s1, hret, _, ⟨_, hreal⟩, _⟩ := machine_realised_run pw W tw best hrange
  refine ⟨_, hret, fun hpos => ?_⟩
  obtain ⟨ds, hlen, hbest, hp, hw, _⟩ := hreal.2 hpos
  exact ⟨ds, hlen, hbest, hp, hw⟩

/-- C2 amended, at the items A (16777216, 2), B (16777217, 3) with capacity 3. -/
theorem machine_best_selection_realised_witness :
    InRange itemsBig ∧
      ∃ r, Returns itemsBig 3 0 none r ∧
        (0 < r.1 → ∃ ds : List Bool, ds.length ≤ itemsBig.length ∧
          r.2.2 = some (selName itemsBig ds) ∧
          sumP (selItems itemsBig ds) = r.1 ∧ sumW (selItems itemsBig ds) = r.2.1) :=
  ⟨by decide, machine_best_selection_realised itemsBig 3 0 none (by decide)⟩

/-- C4, amended. In machine arithmetic, on items with positive weights and profits whose field
`pw` holds the `float` quotient that `main` stores, in non-increasing order of the ratio
`profit / weight`, with `W < 2 ^ 31`: for every node of level -1 to `n - 1` whose weight and
profit are not negative and, together with the remaining items, stay below `2 ^ 31` and within
`2 ^ 24`, and whose weight is not exactly `W`, or is `W` with a profit of 0, the value that
`bound` stores, divided by `1 - 5 * 2^-24`, is at least the profit of every feasible completion
of the node. -/
theorem machine_bound_admissible_off_capacity (pw : List node) (W : Int) (x : node)
    (hprep : Prepared pw) (hpos : ∀ it ∈ pw, 0 < it.weight) (hW : W < 2147483648)
    (hl : -1 ≤ x.level) (hn : x.level + 1 ≤ (pw.length : Int)) (hx1 : 0 ≤ x.weight)
    (hx2 : x.weight + sumW (remaining pw x.level) < 2147483648) (hx3 : 0 ≤ x.profit)
    (hx4 : x.profit + sumP (remaining pw x.level) ≤ 16777216)
    (hw : x.weight ≠ W ∨ x.profit ≤ 0) :
    ∃ y, bound x pw (pw.length : Int) W = some y ∧
      Admissible pw W x (y.bound / (1 - 5 / 16777216)) := by
  refine ⟨_, machine_bound_eq pw W x hl hn, ?_⟩
  show Admissible pw W x (boundValue pw W x / (1 - 5 / 16777216))
  have hsub := remaining_sublist pw x.level
  intro T hT hfit
  have hTpos : ∀ it ∈ T, 0 < it.weight := fun it hit => hpos it (hsub.subset (hT.subset hit))
  rw [le_div_iff₀ (by norm_num)]
  rcases lt_trichotomy x.weight W with hlt | heq | hgt
  · have hnear := (boundValue_near pw W x hprep hW hx1 hx2 hx3 hx4 hlt).1
    have hadm := sumP_le_fracBound_exact (remaining pw x.level)
      (fun it hit => hprep.1 it (hsub.subset hit)) (hprep.2.2.sublist hsub) (W - x.weight)
      (by omega) T hT hTpos (by omega)
    have h1 : (1 - 5 / 16777216) * ((x.profit : ℚ) + (sumP T : ℚ))
        ≤ (1 - 5 / 16777216) * ((x.profit : ℚ)
          + fracBound (W - x.weight) ((remaining pw x.level).map exactItem)) :=
      mul_le_mul_of_nonneg_left (by linarith) (by norm_num)
    push_cast
    linarith
  · have hp : x.profit ≤ 0 := by
      rcases hw with hne | hp
      · exact absurd heq hne
      · exact hp
    have hnil : T = [] := eq_nil_of_sumW_le_zero T hTpos (by omega)
    subst hnil
    have h0 : boundValue pw W x = 0 := by simp [boundValue, heq]
    rw [h0]
    simp only [sumP_nil, add_zero]
    have hpq : (x.profit : ℚ) ≤ 0 := by exact_mod_cast hp
    nlinarith
  · have := sumW_nonneg T hTpos
    omega

/-- C4 amended, at the root of the items I0 (26, 22), I1 (13, 11) with capacity 11, whose bound
13631487/1048576 is less than the profit 13 of the completion by I1. -/
theorem machine_bound_admissible_off_capacity_witness :
    Prepared itemsTie ∧ (∀ it ∈ itemsTie, 0 < it.weight) ∧
      ∃ y, bound rootNode itemsTie (itemsTie.length : Int) 11 = some y ∧
        Admissible itemsTie 11 rootNode (y.bound / (1 - 5 / 16777216)) :=
  ⟨by decide!, by decide,
    machine_bound_admissible_off_capacity itemsTie 11 rootNode (by decide!) (by decide)
      (by decide) (by decide) (by decide) (by decide) (by decide) (by decide) (by decide)
      (by decide)⟩

/-- C12, amended. In machine arithmetic, on items with weights of 0 or more and positive
profits whose field `pw` holds what `main` stores (0 for an item of weight 0), in
non-increasing order of the ratio, with `0 ≤ W < 2 ^ 31`, a total weight below `2 ^ 31` and a
total profit below `2 ^ 24 / 5`: the call of `bestFirstSearch` returns, the `maxprofit` it
returns is the total profit of a selection of the items whose total weight is at most `W`, and
no selection of items of positive weight whose total weight is at most `W` earns more. -/
theorem machine_degenerate_search (pw : List node) (W tw : Int) (best : Option String)
    (hprep : Prepared pw) (hW0 : 0 ≤ W) (hW : W < 2147483648) (hsw : sumW pw < 2147483648)
    (hsp : 5 * sumP pw < 16777216) :
    ∃ r, Returns pw W tw best r ∧ FeasibleProfit pw W r.1 ∧
      ∀ S : List node, S.Sublist pw → (∀ it ∈ S, 0 < it.weight) → sumW S ≤ W →
        sumP S ≤ r.1 := by
  obtain ⟨s1, hret, h0, hreal, hcov⟩ := machine_search_run pw W tw best hprep hW hsw hsp
  exact ⟨_, hret, feasibleProfit_of_realised pw W s1 hW0 h0 hreal, hcov⟩

/-- C12 amended, at the items A (10, 5), B (9, 5), Z (100, 0) with `W = 7`. -/
theorem machine_degenerate_search_witness :
    Prepared itemsDegenerate ∧ (0 : Int) ≤ 7 ∧ (7 : Int) < 2147483648 ∧
      sumW itemsDegenerate < 2147483648 ∧ 5 * sumP itemsDegenerate < 16777216 ∧
      ∃ r, Returns itemsDegenerate 7 0 none r ∧ FeasibleProfit itemsDegenerate 7 r.1 ∧
        ∀ S : List node, S.Sublist itemsDegenerate → (∀ it ∈ S, 0 < it.weight) → sumW S ≤ 7 →
          sumP S ≤ r.1 :=
  ⟨by decide!, by decide, by decide, by decide, by decide,
    machine_degenerate_search itemsDegenerate 7 0 none (by decide!) (by decide) (by decide)
      (by decide) (by decide)⟩

/-- An item of weight 0 costs the optimum in machine arithmetic as in exact arithmetic: on
A (10, 5), B (9, 5), Z (100, 0) with `W = 7` the call returns 109, although A and Z fit and earn
110. -/
theorem machine_zero_weight_item_loses_optimum :
    Prepared itemsDegenerate ∧
      Returns itemsDegenerate 7 0 none (109, 5, some "root-&B&Z") ∧
      FeasibleProfit itemsDegenerate 7 110 :=
  ⟨by decide!, machine_returns_of_eq_some itemsDegenerate 7 0 none 10 _ (by decide!),
    ⟨[mkItem "A" 10 5, mkItem "Z" 100 0],
      List.Sublist.cons₂ _ (List.Sublist.cons _ (List.Sublist.cons₂ _ List.Sublist.slnil)),
      by decide, by decide⟩⟩

/-- C15 as stated fails in machine arithmetic: on the items A (16777216, 2), B (16777217, 3)
with `W = 3`, the node `root-` (level 0, weight 0, profit 0) has the single remaining item B,
which fits, and `bound` stores 16777216, not the profit 16777217 of B: the conversion
`(float)16777217` gives 16777216. -/
theorem machine_bound_rounds_when_all_fit :
    nodeSkipA.weight < 3 ∧ remaining itemsBig nodeSkipA.level = [mkItem "B" 16777217 3] ∧
      nodeSkipA.weight + sumW (remaining itemsBig nodeSkipA.level) ≤ 3 ∧
      nodeSkipA.profit + sumP (remaining itemsBig nodeSkipA.level) = 16777217 ∧
      bound nodeSkipA itemsBig (itemsBig.length : Int) 3
        = some { nodeSkipA with bound := 16777216 } :=
  ⟨by decide, by decide!, by decide, by decide, by decide!⟩

/-- C15, amended. Exact bound when everything fits, in machine arithmetic: on remaining items
whose weights and profits are not negative, with `W < 2 ^ 31`, for a node of weight below `W`
(and at least `-2 ^ 31`) and profit 0 or more such that its weight plus the total weight of all
items after its level is at most `W` and its profit plus their total profit is at most
`2 ^ 24`, the loop of `bound` ends with `j = n`, so that no fraction is added, and `bound`
stores the profit of the node plus the total profit of those items. -/
theorem machine_bound_exact_when_all_fit (pw : List node) (W : Int) (x : node)
    (hw : x.weight < W) (hl : -1 ≤ x.level) (hn : x.level + 1 ≤ (pw.length : Int))
    (hnn : ∀ it ∈ remaining pw x.level, 0 ≤ it.weight ∧ 0 ≤ it.profit)
    (hfit : x.weight + sumW (remaining pw x.level) ≤ W) (hW : W < 2147483648)
    (hxw : -2147483648 ≤ x.weight) (hp0 : 0 ≤ x.profit)
    (hp : x.profit + sumP (remaining pw x.level) ≤ 16777216) :
    boundLoop pw (pw.length : Int) W ((pw.length : Int) - (x.level + 1)).toNat (x.level + 1)
        x.weight (toFloat x.profit)
      = some ((pw.length : Int), x.weight + sumW (remaining pw x.level),
          ((x.profit + sumP (remaining pw x.level) : Int) : ℚ)) ∧
    bound x pw (pw.length : Int) W
      = some { x with bound := ((x.profit + sumP (remaining pw x.level) : Int) : ℚ) } := by
  have hj : x.level + 1 = (((x.level + 1).toNat : Nat) : Int) := by omega
  have hf : ((pw.length : Int) - (x.level + 1)).toNat = pw.length - (x.level + 1).toNat := by
    omega
  have hsP := sumP_nonneg_of_nonneg (remaining pw x.level) (fun it hit => (hnn it hit).2)
  have hfp : toFloat x.profit = (x.profit : ℚ) := toFloat_of_small _ (by omega) (by omega)
  have h := machine_boundLoop_of_all_fit pw W hW (pw.length - (x.level + 1).toNat)
    (x.level + 1).toNat x.weight x.profit (by omega) le_rfl hnn hxw hfit hp0 hp
  have hloop : boundLoop pw (pw.length : Int) W ((pw.length : Int) - (x.level + 1)).toNat
      (x.level + 1) x.weight (toFloat x.profit)
      = some ((pw.length : Int), x.weight + sumW (remaining pw x.level),
          ((x.profit + sumP (remaining pw x.level) : Int) : ℚ)) := by
    rw [hf, hfp]
    rw [hj]
    simp only [Int.toNat_ofNat]
    rw [h]
    simp [remaining]
  refine ⟨hloop, ?_⟩
  unfold bound
  simp only [hw, if_true]
  rw [hloop]
  simp [boundFraction]

/-- C15 amended, at the root of the items I0 (26, 22), I1 (13, 11) with `W = 40`: both items
fit, the bound is 39. -/
theorem machine_bound_exact_when_all_fit_witness :
    rootNode.weight < 40 ∧ -1 ≤ rootNode.level ∧ rootNode.level + 1 ≤ (itemsTie.length : Int) ∧
      (∀ it ∈ remaining itemsTie rootNode.level, 0 ≤ it.weight ∧ 0 ≤ it.profit) ∧
      rootNode.weight + sumW (remaining itemsTie rootNode.level) ≤ 40 ∧
      (40 : Int) < 2147483648 ∧ -2147483648 ≤ rootNode.weight ∧ 0 ≤ rootNode.profit ∧
      rootNode.profit + sumP (remaining itemsTie rootNode.level) ≤ 16777216 ∧
      bound rootNode itemsTie (itemsTie.length : Int) 40 = some { rootNode with bound := 39 } :=
  ⟨by decide, by decide, by decide, by decide, by decide, by decide, by decide, by decide,
    by decide,
    (machine_bound_exact_when_all_fit itemsTie 40 rootNode (by decide) (by decide) (by decide)
      (by decide) (by decide) (by decide) (by decide) (by decide) (by decide)).2.trans
      (by decide!)⟩

/-- At the capacity `bound` stores 0 in machine arithmetic as in exact arithmetic: for the
node `root-&B&C` of weight 50 and profit 220 on the items A, B, C with `W = 50`. -/
theorem machine_bound_at_capacity :
    bound nodeBC [mkItem "A" 60 10, mkItem "B" 100 20, mkItem "C" 120 30] 3 50 = some nodeBC := by
  decide!

/-- C19 as stated fails in machine arithmetic: on the items I0 (26, 22), I1 (13, 11), with
positive weights and profits and the same ratio 13/11, and `W = 11`, the root gets the bound
`11 * (float)(26/22)`, which rounds to 13631487/1048576, less than 13, while its exclude-child
`root-` gets the bound 13, the profit of I1, which fits. -/
theorem machine_exclude_child_bound_exceeds :
    Prepared itemsTie ∧ (∀ it ∈ itemsTie, 0 < it.weight) ∧
      itemsTie.Pairwise (fun a b => b.pw ≤ a.pw) ∧
      stateAfter itemsTie 11 0 none 0
        = some { PQ := [rootTie], maxprofit := 0, tw := 0, best := none, i := 0 } ∧
      rootTie.weight < 11 ∧ rootTie.level + 1 < (itemsTie.length : Int) ∧
      ∃ it u1 u2, nodeAt itemsTie (rootTie.level + 1) = some it ∧
        bound (includeChild rootTie it) itemsTie (itemsTie.length : Int) 11 = some u1 ∧
        bound (excludeChild rootTie u1) itemsTie (itemsTie.length : Int) 11 = some u2 ∧
        u2.bound = 13 ∧ rootTie.bound < u2.bound :=
  ⟨by decide!, by decide, by decide!, by decide!, by decide, by decide,
    mkItem "I0" 26 22,
    { name := "root&I0", level := 0, profit := 26, weight := 22, pw := 0, bound := 0 },
    { name := "root-", level := 0, profit := 0, weight := 0, pw := 0, bound := 13 },
    by decide!, by decide!, by decide!, by decide!, by decide!⟩

/-- C19, amended. Bounds down the tree in machine arithmetic: on items with positive weights
and profits whose field `pw` holds the `float` quotient that `main` stores, in non-increasing
order of the ratio `profit / weight`, with `W < 2 ^ 31`, a total weight below `2 ^ 31` and a
total profit of at most `2 ^ 24`, for every node `v` that a run of `bestFirstSearch` holds in
its queue, with `v.weight < W` and `v.level + 1 < n`: the bound the node carries is the one
`bound` computes, both children are bounded without a read outside the array, the bound of the
include-child is at most the bound of `v`, and equal to it if the weight of the child is still
below `W`, and the bound of the exclude-child is at most `1 + 2^-20` times the bound of `v`. -/
theorem machine_children_bound_le (pw : List node) (W tw : Int) (best : Option String)
    (k : Nat) (s : BFSState) (v : node) (hprep : Prepared pw)
    (hpos : ∀ it ∈ pw, 0 < it.weight) (hW : W < 2147483648) (hsw : sumW pw < 2147483648)
    (hsp : sumP pw ≤ 16777216)
    (hs : stateAfter pw W tw best k = some s) (hv : v ∈ s.PQ) (hw : v.weight < W)
    (hlt : v.level + 1 < (pw.length : Int)) :
    bound v pw (pw.length : Int) W = some v ∧
    ∃ it u1 u2, nodeAt pw (v.level + 1) = some it ∧
      bound (includeChild v it) pw (pw.length : Int) W = some u1 ∧
      bound (excludeChild v u1) pw (pw.length : Int) W = some u2 ∧
      u1.bound ≤ v.bound ∧ u2.bound ≤ (1 + 1 / 1048576) * v.bound ∧
      (u1.weight < W → u1.bound = v.bound) := by
  have hrange : InRange pw :=
    ⟨fun x hx => ⟨(hprep.1 x hx).1, (hprep.1 x hx).2.le⟩, hsw, by omega⟩
  obtain ⟨hr, hinv⟩ := ranged_stateAfter pw W tw best hrange k s hs
  obtain ⟨hl, hn, _, hb⟩ := hinv.2 v hv
  obtain ⟨hv1, hv2, hv3, hv4⟩ := hr.2 v hv
  obtain ⟨it, hat, _, hrem, hb1, hb2⟩ := machine_children_bound_eq pw W v hl hlt
  obtain ⟨h1, h2, h3⟩ := machine_children_boundValue_le pw W v it hprep hpos hW hv1 (by omega)
    hv3 (by omega) hw hrem
  refine ⟨?_, it, _, _, hat, hb1, hb2, ?_, ?_, ?_⟩
  · rw [machine_bound_eq pw W v hl hn, ← hb]
  · rw [hb]; exact h1
  · rw [hb]; exact h2
  · rw [hb]; exact h3

/-- C19 amended, at the root of the run on the items I0 (26, 22), I1 (13, 11) with `W = 11`:
the include-child `root&I0` gets the bound 0 and the exclude-child `root-` the bound 13, within
`1 + 2^-20` times the bound 13631487/1048576 of the root. -/
theorem machine_children_bound_le_witness :
    Prepared itemsTie ∧ (∀ it ∈ itemsTie, 0 < it.weight) ∧ (11 : Int) < 2147483648 ∧
      sumW itemsTie < 2147483648 ∧ sumP itemsTie ≤ 16777216 ∧
      stateAfter itemsTie 11 0 none 0
        = some { PQ := [rootTie], maxprofit := 0, tw := 0, best := none, i := 0 } ∧
      bound rootTie itemsTie (itemsTie.length : Int) 11 = some rootTie ∧
      ∃ it u1 u2, nodeAt itemsTie (rootTie.level + 1) = some it ∧
        bound (includeChild rootTie it) itemsTie (itemsTie.length : Int) 11 = some u1 ∧
        bound (excludeChild rootTie u1) itemsTie (itemsTie.length : Int) 11 = some u2 ∧
        u1.bound ≤ rootTie.bound ∧ u2.bound ≤ (1 + 1 / 1048576) * rootTie.bound ∧
        (u1.weight < 11 → u1.bound = rootTie.bound) :=
  ⟨by decide!, by decide, by decide, by decide, by decide, by decide!,
    machine_children_bound_le itemsTie 11 0 none 0
      { PQ := [rootTie], maxprofit := 0, tw := 0, best := none, i := 0 } rootTie
      (by decide!) (by decide) (by decide) (by decide) (by decide) (by decide!) (by decide!)
      (by decide) (by decide)⟩


/-! ### The order of the stored ratios -/

/-- With weights and profits that are binary32 numbers, the ratio that `main` stores is the
rounded exact ratio. -/
theorem stored_eq_fl_ratio (it : node) (hw : 0 ≤ it.weight) (hw2 : it.weight ≤ 16777216)
    (hp : 0 ≤ it.profit) (hp2 : it.profit ≤ 16777216)
    (hst : it.pw = if it.weight > 0 then fl (toFloat it.profit / toFloat it.weight) else 0) :
    it.pw = fl (ratio it) := by
  rw [hst, ratio]
  by_cases h : it.weight > 0
  · rw [if_pos h, if_pos h, toFloat_of_small _ (by omega) hp2, toFloat_of_small _ (by omega) hw2]
  · rw [if_neg h, if_neg h, fl_zero]

/-- Items in non-increasing order of the exact ratio, with weights and profits up to `2 ^ 24`,
are in non-increasing order of the stored ratio too: the array is one that the sort step of
`main` can leave. -/
theorem prepared_sorted_by_stored_ratio (pw : List node) (hprep : Prepared pw)
    (hsmall : ∀ it ∈ pw, it.weight ≤ 16777216 ∧ it.profit ≤ 16777216) :
    pw.Pairwise (fun a b => b.pw ≤ a.pw) := by
  obtain ⟨hnn, hst, hsorted⟩ := hprep
  have hall : ∀ it ∈ pw, it.pw = fl (ratio it) := fun it hit =>
    stored_eq_fl_ratio it (hnn it hit).1 (hsmall it hit).1 (hnn it hit).2.le (hsmall it hit).2
      (hst it hit)
  refine List.Pairwise.imp_of_mem ?_ hsorted
  intro a b ha hb hab
  rw [hall a ha, hall b hb]
  exact fl_mono _ _ hab

/-- Two positive ratios whose order the rounding could hide are close: when the product of a
profit and a weight stays below `2 ^ 23`, the order of the stored ratios is the order of the
exact ones. -/
theorem ratio_le_of_stored_le (a b : node) (hwa : 0 < a.weight) (hwb : 0 < b.weight)
    (hpa : 0 < a.profit) (hpb : 0 < b.profit)
    (hsmall : b.profit * a.weight < 8388608)
    (h : fl (ratio b) ≤ fl (ratio a)) : ratio b ≤ ratio a := by
  by_contra hcon
  have hlt : ratio a < ratio b := not_le.mp hcon
  have hwaq : (0 : ℚ) < (a.weight : ℚ) := by exact_mod_cast hwa
  have hwbq : (0 : ℚ) < (b.weight : ℚ) := by exact_mod_cast hwb
  have hpaq : (0 : ℚ) < (a.profit : ℚ) := by exact_mod_cast hpa
  have hpbq : (0 : ℚ) < (b.profit : ℚ) := by exact_mod_cast hpb
  have hra : ratio a = (a.profit : ℚ) / (a.weight : ℚ) := by rw [ratio, if_pos hwa]
  have hrb : ratio b = (b.profit : ℚ) / (b.weight : ℚ) := by rw [ratio, if_pos hwb]
  have hra0 : 0 ≤ ratio a := by rw [hra]; positivity
  have hrb0 : 0 ≤ ratio b := by rw [hrb]; positivity
  have h1 := fl_le (ratio a) hra0
  have h2 := fl_ge (ratio b) hrb0
  -- the integers behind the two ratios differ by one at least
  have hcross : a.profit * b.weight + 1 ≤ b.profit * a.weight := by
    rw [hra, hrb, div_lt_div_iff₀ hwaq hwbq] at hlt
    have : a.profit * b.weight < b.profit * a.weight := by exact_mod_cast hlt
    omega
  have hcrossq : (a.profit : ℚ) * (b.weight : ℚ) + 1 ≤ (b.profit : ℚ) * (a.weight : ℚ) := by
    exact_mod_cast hcross
  have hsmallq : (b.profit : ℚ) * (a.weight : ℚ) < 8388608 := by exact_mod_cast hsmall
  -- multiply the chain of inequalities by the two weights
  have hchain : (1 - 1 / 16777216) * ratio b ≤ (1 + 1 / 16777216) * ratio a := by linarith
  rw [hra, hrb] at hchain
  have hmul := mul_le_mul_of_nonneg_right hchain (mul_pos hwaq hwbq).le
  have e1 : (1 - 1 / 16777216) * ((b.profit : ℚ) / (b.weight : ℚ))
      * ((a.weight : ℚ) * (b.weight : ℚ))
      = (1 - 1 / 16777216) * ((b.profit : ℚ) * (a.weight : ℚ)) := by
    field_simp
    ring
  have e2 : (1 + 1 / 16777216) * ((a.profit : ℚ) / (a.weight : ℚ))
      * ((a.weight : ℚ) * (b.weight : ℚ))
      = (1 + 1 / 16777216) * ((a.profit : ℚ) * (b.weight : ℚ)) := by
    field_simp
    ring
  rw [e1, e2] at hmul
  have hpos : (0 : ℚ) ≤ (a.profit : ℚ) * (b.weight : ℚ) := by positivity
  linarith

/-- Optimality for the array as the sort step of `main` leaves it: on items with positive
weights and profits whose field `pw` holds the `float` quotient that `main` stores, in
non-increasing order of this stored ratio, with every product of a profit and a weight below
`2 ^ 23`, a total weight below `2 ^ 31`, a total profit below `2 ^ 24 / 5` and `0 ≤ W < 2 ^ 31`,
the call of `bestFirstSearch` returns the greatest total profit of a selection of the items
whose total weight is at most `W`. -/
theorem machine_optimal_of_stored_order (pw : List node) (W tw : Int) (best : Option String)
    (hpos : ∀ it ∈ pw, 0 < it.weight ∧ 0 < it.profit)
    (hst : ∀ it ∈ pw, it.pw = fl (toFloat it.profit / toFloat it.weight))
    (hsorted : pw.Pairwise (fun a b => b.pw ≤ a.pw))
    (hsmall : ∀ a ∈ pw, ∀ b ∈ pw, b.profit * a.weight < 8388608)
    (hW0 : 0 ≤ W) (hW : W < 2147483648) (hsw : sumW pw < 2147483648)
    (hsp : 5 * sumP pw < 16777216) :
    ∃ r, Returns pw W tw best r ∧ IsGreatest {p | FeasibleProfit pw W p} r.1 := by
  have hst2 : ∀ it ∈ pw, it.pw
      = if it.weight > 0 then fl (toFloat it.profit / toFloat it.weight) else 0 := by
    intro it hit
    rw [hst it hit, if_pos (hpos it hit).1]
  have hbound : ∀ it ∈ pw, it.weight ≤ 16777216 ∧ it.profit ≤ 16777216 := by
    intro it hit
    obtain ⟨h1, h2⟩ := hpos it hit
    have h3 := hsmall it hit it hit
    constructor
    · nlinarith
    · nlinarith
  have hfl : ∀ it ∈ pw, it.pw = fl (ratio it) := fun it hit =>
    stored_eq_fl_ratio it (hpos it hit).1.le (hbound it hit).1 (hpos it hit).2.le
      (hbound it hit).2 (hst2 it hit)
  have hexact : pw.Pairwise (fun a b => ratio b ≤ ratio a) := by
    refine List.Pairwise.imp_of_mem ?_ hsorted
    intro a b ha hb hab
    rw [hfl a ha, hfl b hb] at hab
    exact ratio_le_of_stored_le a b (hpos a ha).1 (hpos b hb).1 (hpos a ha).2 (hpos b hb).2
      (hsmall a ha b hb) hab
  have hprep : Prepared pw :=
    ⟨fun it hit => ⟨(hpos it hit).1.le, (hpos it hit).2⟩, hst2, hexact⟩
  obtain ⟨s1, hret, h0, hreal, hcov⟩ := machine_search_run pw W tw best hprep hW hsw hsp
  refine ⟨_, hret, feasibleProfit_of_realised pw W s1 hW0 h0 hreal, ?_⟩
  rintro p ⟨S, hS, hfit, rfl⟩
  exact hcov S hS (fun it hit => (hpos it (hS.subset hit)).1) hfit

end Machine

end Knapsack
